import Mathlib

/-!
Histogram split evaluation (`src/tree/hist/evaluate_splits.h`)

A shallow embedding of `HistEvaluator` (`EnumerateSplit`, `EvaluateSplits`,
`ApplyTreeSplit`) and of `UpdatePredictionCacheImpl`, with theorems about them.

Conventions of the embedding.
* Gradient statistics, gains and thresholds live in an arbitrary linearly ordered
  commutative ring `K` with a floor (the rationals, the reals, the integers): the
  arithmetic is exact. The one conversion the header writes out, `static_cast<float>` of
  the loss change of a scan position, is a function of `K` into itself carried by the
  evaluator (`static_cast_float`). Concrete runs are evaluated over the integers, with
  round-to-nearest-even to 24 significant bits as the conversion.
* Every checked access (`Span::operator[]`, `vector::at`, `CHECK`) and every undefined
  behaviour (unchecked out-of-range `vector::operator[]`, signed overflow of the loop
  counter) is an abort, written `none`.
* What the header only includes (`GradStats`, `SplitEntry`, the injected evaluator, the
  bit field, the tree) is not in the sources at hand; it is modelled from the
  specification and marked as such.
-/

namespace xgboost
namespace tree

/-! ## Data model -/

/-- Modelled from the spec: `GradStats` of `param.h`, the additive pair
(gradient sum, hessian sum). -/
structure GradStats (K : Type) where
  sum_grad : K
  sum_hess : K
  deriving DecidableEq, Repr

variable {K : Type} [LinearOrderedCommRing K]

namespace GradStats

/-- Modelled from the spec: the default constructed statistic, both sums zero. -/
def zero : GradStats K := ⟨0, 0⟩

def GetGrad (s : GradStats K) : K := s.sum_grad

def GetHess (s : GradStats K) : K := s.sum_hess

/-- Modelled from the spec: `Add(grad, hess)`, componentwise accumulation. -/
def Add (s : GradStats K) (grad hess : K) : GradStats K :=
  ⟨s.sum_grad + grad, s.sum_hess + hess⟩

/-- Modelled from the spec: `Add(GradStats)`. -/
def AddStats (s b : GradStats K) : GradStats K :=
  ⟨s.sum_grad + b.sum_grad, s.sum_hess + b.sum_hess⟩

/-- Modelled from the spec: `SetSubstract(a, b)` stores `a - b`. -/
def SetSubstract (a b : GradStats K) : GradStats K :=
  ⟨a.sum_grad - b.sum_grad, a.sum_hess - b.sum_hess⟩

end GradStats

/-- Modelled from the spec: `SplitEntry` of `param.h`, the best-split record
`{gain, feature_index, threshold_or_category_bits, default_missing_direction,
is_categorical, left_sum, right_sum}`. `sindex` is what `SplitIndex()` returns and
`default_left` what `DefaultLeft()` returns. -/
structure SplitEntry (K : Type) where
  loss_chg : K
  sindex : Nat
  default_left : Bool
  split_value : K
  cat_bits : List Nat
  is_cat : Bool
  left_sum : GradStats K
  right_sum : GradStats K
  deriving DecidableEq, Repr

namespace SplitEntry

/-- Modelled from the spec: a default constructed `SplitEntry` (zero gain, no sums). -/
def fresh : SplitEntry K :=
  { loss_chg := 0, sindex := 0, default_left := false, split_value := 0, cat_bits := [],
    is_cat := false, left_sum := GradStats.zero, right_sum := GradStats.zero }

def SplitIndex (e : SplitEntry K) : Nat := e.sindex

def DefaultLeft (e : SplitEntry K) : Bool := e.default_left

/-- Modelled from the spec: the update rule, "replace only if new gain is strictly
greater than current". -/
def NeedReplace (e : SplitEntry K) (new_loss_chg : K) : Bool :=
  decide (e.loss_chg < new_loss_chg)

/-- Modelled from the spec: `Update(loss_chg, split_index, split_value, default_left,
is_cat, left_sum, right_sum)`; returns whether the record was replaced, and the record. -/
def UpdateWith (e : SplitEntry K) (new_loss_chg : K) (split_index : Nat) (new_split_value : K)
    (default_left is_cat : Bool) (left_sum right_sum : GradStats K) : Bool × SplitEntry K :=
  if e.NeedReplace new_loss_chg then
    (true, { e with loss_chg := new_loss_chg, sindex := split_index,
                    default_left := default_left, split_value := new_split_value,
                    is_cat := is_cat, left_sum := left_sum, right_sum := right_sum })
  else (false, e)

/-- Modelled from the spec: `Update(SplitEntry const&)`, the same rule between two
records. -/
def Update (e o : SplitEntry K) : SplitEntry K :=
  if e.NeedReplace o.loss_chg then o else e

end SplitEntry

/-- The three scan strategies (`kNum`, `kOneHot`, `kPart`). -/
inductive SplitType where
  | kNum
  | kOneHot
  | kPart
  deriving DecidableEq, Repr

/-- Modelled from the spec: the bin cut table (`common::HistogramCuts`): `Ptrs` gives the
bin range of each feature, `Values` the bin boundaries, `MinValues` the per-feature
minimum. -/
structure HistogramCuts (K : Type) where
  Ptrs : List Nat
  Values : List K
  MinValues : List K
  deriving DecidableEq, Repr

/-- `HistEvaluator::NodeEntry`. -/
structure NodeEntry (K : Type) where
  stats : GradStats K
  root_gain : K
  deriving DecidableEq, Repr

/-- Modelled from the spec: the configuration consumed (`TrainParam`). -/
structure TrainParam (K : Type) where
  min_child_weight : K
  learning_rate : K
  max_cat_to_onehot : Nat

/-- Modelled from the spec: the injected gain/weight evaluator
(`TreeEvaluator::SplitEvaluator`), four operations. -/
structure SplitEvaluator (K : Type) where
  CalcSplitGain : TrainParam K → Nat → Nat → GradStats K → GradStats K → K
  CalcGain : Nat → TrainParam K → GradStats K → K
  CalcWeight : Nat → TrainParam K → GradStats K → K
  CalcWeightCat : TrainParam K → GradStats K → K

/-! ## Checked accesses and machine integers -/

def INT32_MAX : Int := 2147483647

def INT32_MIN : Int := -2147483648

/-- Element `i` of a sequence for a signed index; `none` outside it. -/
def getI {α : Type} (xs : List α) (i : Int) : Option α :=
  if 0 ≤ i then xs[i.toNat]? else none

/-- A `static_cast<int32_t>` of an unsigned 32 bit value. -/
def toInt32 (n : Nat) : Int :=
  if n % 4294967296 < 2147483648 then ((n % 4294967296 : Nat) : Int)
  else ((n % 4294967296 : Nat) : Int) - 4294967296

/-- Unsigned 32 bit subtraction. -/
def subU32 (a b : Nat) : Nat := (a + 4294967296 - b % 4294967296) % 4294967296

/-- Modelled from the spec: `Span::subspan(offset, count)`, checked: `none` unless
`offset + count` stays inside the span. -/
def subspan {α : Type} (xs : List α) (offset : Nat) (count : Int) : Option (List α) :=
  if 0 ≤ count ∧ offset + count.toNat ≤ xs.length then some ((xs.drop offset).take count.toNat)
  else none

/-- The loop `for (int32_t i = ibegin; i != iend; i += d_step)`. The body may abort; a
counter stepping out of the `int32_t` range is undefined behaviour. The first argument
bounds the number of iterations: an `int32_t` counter that moves in one direction takes
at most `2 ^ 32` values before it leaves the range, so `2 ^ 32` never cuts a run short. -/
def scanLoop {σ : Type} (d_step iend : Int) (body : Int → σ → Option σ) :
    Nat → Int → σ → Option σ
  | 0, i, s => if i = iend then some s else none
  | fuel + 1, i, s =>
    if i = iend then some s
    else
      match body i s with
      | none => none
      | some s1 =>
        if INT32_MIN ≤ i + d_step ∧ i + d_step ≤ INT32_MAX then
          scanLoop d_step iend body fuel (i + d_step) s1
        else none

/-! ## Category bit field -/

/-- Modelled from the spec: `ComputeStorageSize` of the 32 bit wide bit field, the number
of words needed for `size` bits. -/
def ComputeStorageSize (size : Nat) : Nat := (size + 31) / 32

/-- Modelled from the spec: `BitField::Set(pos)` on the word storage; checked, `none` when
the word of `pos` is outside the storage. -/
def bitSet (bits : List Nat) (pos : Nat) : Option (List Nat) :=
  if pos / 32 < bits.length then
    some (bits.set (pos / 32) (bits.getD (pos / 32) 0 ||| (1 <<< (pos % 32))))
  else none

/-- Modelled from the spec: `BitField::Check(pos)`, membership of category `pos`. -/
def bitCheck (bits : List Nat) (pos : Nat) : Bool :=
  (bits.getD (pos / 32) 0).testBit (pos % 32)

/-- The conversion of a floating category value to a bit position (truncation); a
negative value has no unsigned image. -/
def catPos [FloorRing K] (v : K) : Option Nat :=
  if 0 ≤ v then some ⌊v⌋.toNat else none

/-- The `std::vector::resize(n, v)`. -/
def resize {α : Type} (xs : List α) (n : Nat) (v : α) : List α :=
  xs.take n ++ List.replicate (n - xs.length) v

/-! ## The evaluator object -/

/-- Modelled from the spec: the `TreeEvaluator` held by `HistEvaluator`. Its state is the
sequence of `AddSplit` calls it has received (node, left child, right child, feature, left
weight, right weight); `GetEvaluator` hands out the evaluator for that state. -/
structure TreeEvaluator (K : Type) where
  added : List (Nat × Int × Int × Nat × K × K)
  make : List (Nat × Int × Int × Nat × K × K) → SplitEvaluator K

namespace TreeEvaluator

def GetEvaluator (t : TreeEvaluator K) : SplitEvaluator K := t.make t.added

def AddSplit (t : TreeEvaluator K) (nid : Nat) (left_child right_child : Int) (fidx : Nat)
    (left_weight right_weight : K) : TreeEvaluator K :=
  { t with added := t.added ++ [(nid, left_child, right_child, fidx, left_weight, right_weight)] }

end TreeEvaluator

/-- Modelled from the spec: the interaction-constraint oracle,
`allowed(node, feature) -> bool` and `register_split(node, feature, left, right)`. Its
state is the sequence of registered splits. -/
structure FeatureInteractionConstraintHost where
  registered : List (Nat × Nat × Int × Int)
  allowed : List (Nat × Nat × Int × Int) → Nat → Nat → Bool

namespace FeatureInteractionConstraintHost

def Query (c : FeatureInteractionConstraintHost) (nid fidx : Nat) : Bool :=
  c.allowed c.registered nid fidx

def Split (c : FeatureInteractionConstraintHost) (nid fidx : Nat) (left_child right_child : Int) :
    FeatureInteractionConstraintHost :=
  { c with registered := c.registered ++ [(nid, fidx, left_child, right_child)] }

end FeatureInteractionConstraintHost

/-- `HistEvaluator`: its members. `GetFeatureSet` is `column_sampler_->GetFeatureSet`, a
function of the depth; `UseOneHot n_bins` is
`common::UseOneHot(n_bins, param_.max_cat_to_onehot, task_)`. The last field is not a
member: `static_cast_float` is the conversion `static_cast<float>` of the language, the
rounding of a number to single precision (`bst_float`), which the number type `K` does not
fix. -/
structure HistEvaluator (K : Type) where
  param_ : TrainParam K
  GetFeatureSet : Nat → List Nat
  tree_evaluator_ : TreeEvaluator K
  n_threads_ : Nat
  interaction_constraints_ : FeatureInteractionConstraintHost
  snode_ : List (NodeEntry K)
  UseOneHot : Nat → Bool
  static_cast_float : K → K

/-- `SplitContainsMissingValues`. -/
def SplitContainsMissingValues (e : GradStats K) (snode : NodeEntry K) : Bool :=
  if e.GetGrad = snode.stats.GetGrad ∧ e.GetHess = snode.stats.GetHess then false else true

/-- The mutable locals of `EnumerateSplit` inside its loop. -/
structure ScanState (K : Type) where
  left_sum : GradStats K
  right_sum : GradStats K
  best : SplitEntry K
  best_thresh : Int
  deriving DecidableEq, Repr

/-- The lambda `calc_bin_value` of `EnumerateSplit`: the two child sums after bin `i`. -/
def calc_bin_value (d_step : Int) (split_type : SplitType) (hist f_hist : List (GradStats K))
    (sorted_idx : List Nat) (parent : NodeEntry K) (ibegin i : Int)
    (left_sum right_sum : GradStats K) : Option (GradStats K × GradStats K) :=
  match split_type with
  | .kNum =>
    match getI hist i with
    | none => none
    | some h =>
      let left_sum := left_sum.Add h.GetGrad h.GetHess
      some (left_sum, GradStats.SetSubstract parent.stats left_sum)
  | .kOneHot =>
    match getI hist i with
    | none => none
    | some h => some (GradStats.SetSubstract parent.stats h, h)
  | .kPart =>
    let j := if d_step = 1 then i - ibegin else ibegin - i
    match getI sorted_idx j with
    | none => none
    | some c =>
      match f_hist[c]? with
      | none => none
      | some h =>
        let right_sum := right_sum.Add h.GetGrad h.GetHess
        some (GradStats.SetSubstract parent.stats right_sum, right_sum)

/-- The threshold recorded by the backward enumeration at bin `i`. -/
def backward_split_pt (cut : HistogramCuts K) (split_type : SplitType) (fidx : Nat)
    (imin i : Int) : Option K :=
  match split_type with
  | .kNum => if i = imin then cut.MinValues[fidx]? else getI cut.Values (i - 1)
  | .kOneHot => getI cut.Values i
  | .kPart => getI cut.Values i

/-- One iteration of the loop of `EnumerateSplit`. -/
def scanBody (self : HistEvaluator K) (d_step : Int) (split_type : SplitType)
    (cut : HistogramCuts K) (sorted_idx : List Nat) (hist f_hist : List (GradStats K))
    (fidx nidx : Nat) (evaluator : SplitEvaluator K) (parent : NodeEntry K) (imin ibegin : Int) (i : Int)
    (s : ScanState K) : Option (ScanState K) :=
  match calc_bin_value d_step split_type hist f_hist sorted_idx parent ibegin i
      s.left_sum s.right_sum with
  | none => none
  | some (left_sum, right_sum) =>
    if self.param_.min_child_weight ≤ left_sum.GetHess ∧
        self.param_.min_child_weight ≤ right_sum.GetHess then
      if 0 < d_step then
        let loss_chg := self.static_cast_float
          (evaluator.CalcSplitGain self.param_ nidx fidx left_sum right_sum - parent.root_gain)
        match getI cut.Values i with
        | none => none
        | some split_pt =>
          let r := s.best.UpdateWith loss_chg fidx split_pt (decide (d_step = -1))
            (decide (split_type ≠ SplitType.kNum)) left_sum right_sum
          some { left_sum := left_sum, right_sum := right_sum, best := r.2,
                 best_thresh := if r.1 then i else s.best_thresh }
      else
        let loss_chg := self.static_cast_float
          (evaluator.CalcSplitGain self.param_ nidx fidx right_sum left_sum - parent.root_gain)
        match backward_split_pt cut split_type fidx imin i with
        | none => none
        | some split_pt =>
          let r := s.best.UpdateWith loss_chg fidx split_pt (decide (d_step = -1))
            (decide (split_type ≠ SplitType.kNum)) right_sum left_sum
          some { left_sum := left_sum, right_sum := right_sum, best := r.2,
                 best_thresh := if r.1 then i else s.best_thresh }
    else
      some { s with left_sum := left_sum, right_sum := right_sum }

/-- The `std::for_each` that sets the bit of `cut_val[c + base]` for each `c` of `cs`. -/
def setCats [FloorRing K] (cut_val : List K) (base : Nat) : List Nat → List Nat → Option (List Nat)
  | [], bits => some bits
  | c :: cs, bits =>
    match cut_val[c + base]? with
    | none => none
    | some v =>
      match catPos v with
      | none => none
      | some pos =>
        match bitSet bits pos with
        | none => none
        | some bits1 => setCats cut_val base cs bits1

/-- The block after the loop of `EnumerateSplit` that fills `best.cat_bits`; `p0` is
`cut_ptr[fidx]`. -/
def fillCatBits [FloorRing K] (d_step : Int) (split_type : SplitType) (cut : HistogramCuts K)
    (sorted_idx : List Nat) (p0 : Nat) (n_bins ibegin : Int) (s : ScanState K) :
    Option (SplitEntry K) :=
  if split_type = SplitType.kPart ∧ s.best_thresh ≠ -1 then
    let n := ComputeStorageSize n_bins.toNat
    let bits := resize s.best.cat_bits n 0
    let chosen :=
      if d_step = 1 then sorted_idx.take (s.best_thresh - ibegin + 1).toNat
      else sorted_idx.reverse.take (ibegin - s.best_thresh).toNat
    let base := if d_step = 1 then ibegin.toNat else p0
    match setCats cut.Values base chosen bits with
    | none => none
    | some bits1 => some { s.best with cat_bits := bits1 }
  else some s.best

/-- The locals of `EnumerateSplit` before its loop: `left_sum`, `right_sum` and `best`
default constructed, `best_thresh{-1}`. -/
def scanInit : ScanState K :=
  { left_sum := GradStats.zero, right_sum := GradStats.zero, best := SplitEntry.fresh,
    best_thresh := -1 }

/-- `HistEvaluator::EnumerateSplit<d_step, split_type>`: returns the updated `*p_best` and
the returned statistic; `none` when the call aborts. -/
def EnumerateSplit [FloorRing K] (self : HistEvaluator K) (d_step : Int) (split_type : SplitType)
    (cut : HistogramCuts K) (sorted_idx : List Nat) (hist : List (GradStats K))
    (fidx nidx : Nat) (evaluator : SplitEvaluator K) (p_best : SplitEntry K) : Option (SplitEntry K × GradStats K) :=
  if d_step ≠ 1 ∧ d_step ≠ -1 then none
  else
    match self.snode_[nidx]?, cut.Ptrs[fidx + 1]?, cut.Ptrs[fidx]? with
    | some parent, some p1, some p0 =>
      let n_bins := toInt32 (subU32 p1 p0)
      match subspan hist p0 n_bins with
      | none => none
      | some f_hist =>
        if ¬ ((p0 : Int) ≤ INT32_MAX ∧ (p1 : Int) ≤ INT32_MAX) then none
        else
          let imin := toInt32 p0
          let ibegin := if 0 < d_step then toInt32 p0 else toInt32 p1 - 1
          let iend := if 0 < d_step then toInt32 p1 else toInt32 p0 - 1
          match scanLoop d_step iend
              (scanBody self d_step split_type cut sorted_idx hist f_hist fidx nidx evaluator parent
                imin ibegin) 4294967296 ibegin scanInit with
          | none => none
          | some s =>
            match fillCatBits d_step split_type cut sorted_idx p0 n_bins ibegin s with
            | none => none
            | some best =>
              some (p_best.Update best,
                match split_type with
                | .kNum => s.left_sum
                | .kOneHot => GradStats.zero
                | .kPart => s.right_sum)
    | _, _, _ => none

/-! ## `EvaluateSplits` -/

/-- Modelled from the spec: `ExpandEntry`, `{node_id, split}`, one pending decision per
frontier node. -/
structure ExpandEntry (K : Type) where
  nid : Nat
  split : SplitEntry K
  deriving DecidableEq, Repr

/-- The type of a feature (`FeatureType`). -/
inductive FeatureType where
  | kNumerical
  | kCategorical
  deriving DecidableEq, Repr

/-- Modelled from the spec: `common::IsCat`; no feature types given means all numerical. -/
def IsCat (feature_types : List FeatureType) (fidx : Nat) : Bool :=
  decide (feature_types[fidx]? = some FeatureType.kCategorical)

/-- The `std::stable_sort` of `EvaluateSplits` with its comparator `key l < key r`: the
sorted arrangement in which elements with equal keys keep their order. -/
def stable_sort_by_key (key : Nat → K) (xs : List Nat) : List Nat :=
  xs.insertionSort (fun l r => ¬ key r < key l)

/-- The body of the loop over `fidx_in_set` in the lambda of `EvaluateSplits`, for the
feature `fidx`: the constraint query and the dispatch on the feature type. Returns the
updated `*best`. -/
def evaluateFeature [FloorRing K] (self : HistEvaluator K) (cut : HistogramCuts K)
    (feature_types : List FeatureType) (histogram : List (GradStats K))
    (evaluator : SplitEvaluator K) (nidx fidx : Nat) (best : SplitEntry K) :
    Option (SplitEntry K) :=
  let is_cat := IsCat feature_types fidx
  if ¬ self.interaction_constraints_.Query nidx fidx then some best
  else if is_cat then
    match cut.Ptrs[fidx + 1]?, cut.Ptrs[fidx]? with
    | some p1, some p0 =>
      let n_bins := subU32 p1 p0
      if self.UseOneHot n_bins then
        match EnumerateSplit self 1 SplitType.kOneHot cut [] histogram fidx nidx evaluator best with
        | none => none
        | some r1 =>
          match EnumerateSplit self (-1) SplitType.kOneHot cut [] histogram fidx nidx evaluator
              r1.1 with
          | none => none
          | some r2 => some r2.1
      else
        match subspan histogram p0 (n_bins : Int) with
        | none => none
        | some feat_hist =>
          let sorted_idx := stable_sort_by_key
            (fun l => evaluator.CalcWeightCat self.param_ (feat_hist.getD l GradStats.zero))
            (List.range n_bins)
          match EnumerateSplit self 1 SplitType.kPart cut sorted_idx histogram fidx nidx
              evaluator best with
          | none => none
          | some r1 =>
            match EnumerateSplit self (-1) SplitType.kPart cut sorted_idx histogram fidx nidx
                evaluator r1.1 with
            | none => none
            | some r2 => some r2.1
    | _, _ => none
  else
    match EnumerateSplit self 1 SplitType.kNum cut [] histogram fidx nidx evaluator best with
    | none => none
    | some r1 =>
      match self.snode_[nidx]? with
      | none => none
      | some snode =>
        if SplitContainsMissingValues r1.2 snode then
          match EnumerateSplit self (-1) SplitType.kNum cut [] histogram fidx nidx evaluator
              r1.1 with
          | none => none
          | some r2 => some r2.1
        else some r1.1

/-- The lambda of `EvaluateSplits` over feature positions of `features_set`: `items` are the
values `fidx_in_set` takes, in the order they are processed. -/
def evaluateItems [FloorRing K] (self : HistEvaluator K) (cut : HistogramCuts K)
    (feature_types : List FeatureType) (histogram : List (GradStats K))
    (evaluator : SplitEvaluator K) (nidx : Nat) (features_set : List Nat) :
    List Nat → SplitEntry K → Option (SplitEntry K)
  | [], best => some best
  | fidx_in_set :: items, best =>
    match features_set[fidx_in_set]? with
    | none => none
    | some fidx =>
      match evaluateFeature self cut feature_types histogram evaluator nidx fidx best with
      | none => none
      | some best1 =>
        evaluateItems self cut feature_types histogram evaluator nidx features_set items best1

/-- All results of a sequence of computations, or an abort if one aborts. -/
def collect {α : Type} : List (Option α) → Option (List α)
  | [] => some []
  | none :: _ => none
  | some a :: xs =>
    match collect xs with
    | none => none
    | some as => some (a :: as)

/-- Modelled from the spec: the parallel region of `EvaluateSplits` for the frontier entry
`entry` at `nidx_in_set`. Worker `tidx` starts from its private copy
`tloc_candidates[n_threads_ * nidx_in_set + tidx] = entry` and runs the lambda over the
feature positions `dist nidx_in_set tidx` handed to it, in that order; the workers share
no mutable state. The result is the list of the private copies by worker index. -/
def workerCandidates [FloorRing K] (self : HistEvaluator K)
    (hist : Nat → List (GradStats K)) (cut : HistogramCuts K)
    (feature_types : List FeatureType) (evaluator : SplitEvaluator K)
    (dist : Nat → Nat → List Nat) (features_set : List Nat) (nidx_in_set : Nat)
    (entry : ExpandEntry K) : Option (List (ExpandEntry K)) :=
  collect ((List.range self.n_threads_).map fun tidx =>
    match evaluateItems self cut feature_types (hist entry.nid) evaluator entry.nid features_set
        (dist nidx_in_set tidx) entry.split with
    | none => none
    | some best => some { entry with split := best })

/-- The final loop of `EvaluateSplits` for one entry: the private copies are merged into
the entry with `Update`, by ascending worker index. -/
def mergeCandidates (entry : ExpandEntry K) (tloc : List (ExpandEntry K)) : ExpandEntry K :=
  { entry with split := tloc.foldl (fun split c => split.Update c.split) entry.split }

/-- The parallel region followed by the merge, entry after entry from `nidx_in_set` on. -/
def evaluateEntries [FloorRing K] (self : HistEvaluator K)
    (hist : Nat → List (GradStats K)) (cut : HistogramCuts K)
    (feature_types : List FeatureType) (GetDepth : Nat → Nat) (evaluator : SplitEvaluator K)
    (dist : Nat → Nat → List Nat) : Nat → List (ExpandEntry K) → Option (List (ExpandEntry K))
  | _, [] => some []
  | nidx_in_set, entry :: entries =>
    match workerCandidates self hist cut feature_types evaluator dist
        (self.GetFeatureSet (GetDepth entry.nid)) nidx_in_set entry with
    | none => none
    | some tloc =>
      match evaluateEntries self hist cut feature_types GetDepth evaluator dist
          (nidx_in_set + 1) entries with
      | none => none
      | some rest => some (mergeCandidates entry tloc :: rest)

/-- `HistEvaluator::EvaluateSplits`. `hist` is the histogram collection, `GetDepth` the
depth accessor of the tree, `dist` the distribution of the work items over the workers
made by `ParallelFor2d`. Returns the updated entries. -/
def EvaluateSplits [FloorRing K] (self : HistEvaluator K) (hist : Nat → List (GradStats K))
    (cut : HistogramCuts K) (feature_types : List FeatureType) (GetDepth : Nat → Nat)
    (dist : Nat → Nat → List Nat) (entries : List (ExpandEntry K)) :
    Option (List (ExpandEntry K)) :=
  let features := entries.map fun e => self.GetFeatureSet (GetDepth e.nid)
  if features.isEmpty then none
  else if self.n_threads_ = 0 then none
  else
    evaluateEntries self hist cut feature_types GetDepth self.tree_evaluator_.GetEvaluator dist
      0 entries

/-- The sum of the bins `[p0, p1)` of a histogram row. -/
def binSum (hist : List (GradStats K)) (p0 p1 : Nat) : GradStats K :=
  { sum_grad := (((hist.drop p0).take (p1 - p0)).map GradStats.sum_grad).sum,
    sum_hess := (((hist.drop p0).take (p1 - p0)).map GradStats.sum_hess).sum }

/-! ## `ApplyTreeSplit` -/

/-- Modelled from the spec: the tree sink and the read accessors of `RegTree` that
`ApplyTreeSplit` uses, over a tree type `T`. `ExpandNode` and `ExpandCategorical` take the
arguments in the order of the calls: node id, split index, threshold or category bits,
default direction, base weight, left and right leaf weight, loss change, and the hessian
sums of the parent, the left and the right child. -/
structure TreeSink (T : Type) (K : Type) where
  ExpandNode : T → Nat → Nat → K → Bool → K → K → K → K → K → K → K → T
  ExpandCategorical : T → Nat → Nat → List Nat → Bool → K → K → K → K → K → K → K → T
  LeftChild : T → Nat → Int
  RightChild : T → Nat → Int
  SplitIndex : T → Nat → Nat
  NumNodes : T → Nat

/-- How a call ends: normally, or in a fatal error; either way with the state reached. -/
inductive Outcome (σ : Type) where
  | done (s : σ)
  | fatal (s : σ)
  deriving DecidableEq, Repr

/-- Modelled from the spec: the first category value outside the representable range. -/
def OutOfRangeCat : Int := INT32_MAX

/-- Modelled from the spec: `common::InvalidCat`, "category value outside representable
bitset range": negative, or beyond the range. -/
def InvalidCat (cat : K) : Bool := decide (cat < 0 ∨ ((OutOfRangeCat : Int) : K) ≤ cat)

/-- Modelled from the spec: `common::AsCat`, the category of a floating value
(truncation). -/
def AsCat [FloorRing K] (v : K) : Int := if 0 ≤ v then ⌊v⌋ else ⌈v⌉

/-- The category bits `ApplyTreeSplit` hands to `ExpandCategorical` for a categorical
candidate; `none` is the fatal error of an invalid category (or a failing `Set`). -/
def splitCats [FloorRing K] (split : SplitEntry K) : Option (List Nat) :=
  if split.cat_bits.isEmpty then
    if InvalidCat split.split_value then none
    else
      let cat := AsCat split.split_value
      let split_cats := resize ([] : List Nat) (ComputeStorageSize (max (cat + 1) 1).toNat) 0
      bitSet split_cats cat.toNat
  else some split.cat_bits

/-- The element of `snode_` at a signed index, replaced by `f` of it (`snode_.at(i)`);
`none` when the index is out of range. -/
def updateAt {α : Type} (snode : List α) (i : Int) (f : α → α) : Option (List α) :=
  match getI snode i with
  | none => none
  | some e => some (snode.set i.toNat (f e))

/-- The first half of `ApplyTreeSplit`: the weights, the normalisation of a categorical
predicate and the call of the tree sink. `none` is the fatal error of an invalid category;
nothing has been modified then. -/
def expandTree [FloorRing K] {T : Type} (sink : TreeSink T K) (self : HistEvaluator K)
    (candidate : ExpandEntry K) (tree : T) : Option T :=
  let evaluator := self.tree_evaluator_.GetEvaluator
  let parent_sum := candidate.split.left_sum.AddStats candidate.split.right_sum
  let base_weight := evaluator.CalcWeight candidate.nid self.param_ parent_sum
  let left_weight := evaluator.CalcWeight candidate.nid self.param_ candidate.split.left_sum
  let right_weight := evaluator.CalcWeight candidate.nid self.param_ candidate.split.right_sum
  if candidate.split.is_cat then
    match splitCats candidate.split with
    | none => none
    | some split_cats =>
      some (sink.ExpandCategorical tree candidate.nid candidate.split.SplitIndex split_cats
        candidate.split.DefaultLeft base_weight (left_weight * self.param_.learning_rate)
        (right_weight * self.param_.learning_rate) candidate.split.loss_chg
        parent_sum.GetHess candidate.split.left_sum.GetHess candidate.split.right_sum.GetHess)
  else
    some (sink.ExpandNode tree candidate.nid candidate.split.SplitIndex
      candidate.split.split_value candidate.split.DefaultLeft base_weight
      (left_weight * self.param_.learning_rate) (right_weight * self.param_.learning_rate)
      candidate.split.loss_chg parent_sum.GetHess candidate.split.left_sum.GetHess
      candidate.split.right_sum.GetHess)

/-- The four assignments `snode_.at(left_child).stats = ...`, `.root_gain = ...`,
`snode_.at(right_child).stats = ...`, `.root_gain = ...`; on an index out of range the
table as it is at that point. -/
def writeChildren (snode1 : List (NodeEntry K)) (left_child right_child : Int)
    (left_sum right_sum : GradStats K) (left_gain right_gain : K) :
    Except (List (NodeEntry K)) (List (NodeEntry K)) :=
  match updateAt snode1 left_child (fun e => { e with stats := left_sum }) with
  | none => Except.error snode1
  | some snode2 =>
    match updateAt snode2 left_child (fun e => { e with root_gain := left_gain }) with
    | none => Except.error snode2
    | some snode3 =>
      match updateAt snode3 right_child (fun e => { e with stats := right_sum }) with
      | none => Except.error snode3
      | some snode4 =>
        match updateAt snode4 right_child (fun e => { e with root_gain := right_gain }) with
        | none => Except.error snode4
        | some snode5 => Except.ok snode5

/-- `HistEvaluator::ApplyTreeSplit`, on the tree `tree` through the sink `sink`. The state
is the tree together with the evaluator object. -/
def ApplyTreeSplit [FloorRing K] {T : Type} (sink : TreeSink T K) (self : HistEvaluator K)
    (candidate : ExpandEntry K) (tree : T) : Outcome (T × HistEvaluator K) :=
  let evaluator := self.tree_evaluator_.GetEvaluator
  let left_weight := evaluator.CalcWeight candidate.nid self.param_ candidate.split.left_sum
  let right_weight := evaluator.CalcWeight candidate.nid self.param_ candidate.split.right_sum
  match expandTree sink self candidate tree with
  | none => Outcome.fatal (tree, self)
  | some tree1 =>
    let left_child := sink.LeftChild tree1 candidate.nid
    let right_child := sink.RightChild tree1 candidate.nid
    let tree_evaluator := self.tree_evaluator_.AddSplit candidate.nid left_child right_child
      (sink.SplitIndex tree1 candidate.nid) left_weight right_weight
    let self1 := { self with tree_evaluator_ := tree_evaluator }
    let snode1 := resize self1.snode_ (sink.NumNodes tree1)
      { stats := GradStats.zero, root_gain := 0 }
    match writeChildren snode1 left_child right_child candidate.split.left_sum
        candidate.split.right_sum
        (evaluator.CalcGain candidate.nid self.param_ candidate.split.left_sum)
        (evaluator.CalcGain candidate.nid self.param_ candidate.split.right_sum) with
    | Except.error snode => Outcome.fatal (tree1, { self1 with snode_ := snode })
    | Except.ok snode5 =>
      let constraints := self1.interaction_constraints_.Split candidate.nid
        (sink.SplitIndex tree1 candidate.nid) left_child right_child
      Outcome.done (tree1,
        { self1 with snode_ := snode5, interaction_constraints_ := constraints })

/-- `HistEvaluator::InitRoot`: the table seeded with the root statistic; returns the
evaluator object and the root weight. -/
def InitRoot (self : HistEvaluator K) (root_sum : GradStats K) : HistEvaluator K × K :=
  let snode := resize self.snode_ 1 { stats := GradStats.zero, root_gain := 0 }
  let root_evaluator := self.tree_evaluator_.GetEvaluator
  let stats : GradStats K := ⟨root_sum.GetGrad, root_sum.GetHess⟩
  let root_gain := root_evaluator.CalcGain 0 self.param_ stats
  let snode1 := snode.set 0 { stats := stats, root_gain := root_gain }
  ({ self with snode_ := snode1 }, root_evaluator.CalcWeight 0 self.param_ stats)

/-! ## `UpdatePredictionCacheImpl` -/

/-- Modelled from the spec: what `UpdatePredictionCacheImpl` reads of a node of the finished
tree, its deleted and its leaf status. -/
structure TreeNodeStatus where
  IsDeleted : Bool
  IsLeaf : Bool
  deriving DecidableEq, Repr

/-- Modelled from the spec: the accumulator (`linalg::VectorView<float>`), one slot per
training row, and the device it lives on. -/
structure VectorView (K : Type) where
  data : List K
  DeviceIdx : Int
  deriving DecidableEq, Repr

/-- Modelled from the spec: `GenericParameter::kCpuId`. -/
def kCpuId : Int := -1

/-- How a run of `UpdatePredictionCacheImpl` ends: normally with the accumulator, in a
failed `CHECK` (fatal), or in undefined behaviour (an unchecked access out of range). -/
inductive Run (α : Type) where
  | ok (a : α)
  | fatal
  | undefined
  deriving DecidableEq, Repr

/-- The innermost loop of `UpdatePredictionCacheImpl`: `out_preds(*it) += leaf_value` for
the row ids `*it` of a range, in order. -/
def addLeafValue (leaf_value : K) : List Nat → List K → Option (List K)
  | [], out_preds => some out_preds
  | row :: rows, out_preds =>
    match out_preds[row]? with
    | none => none
    | some v => addLeafValue leaf_value rows (out_preds.set row (v + leaf_value))

/-- Modelled from the spec: the ranges `common::BlockedSpace2d` makes of a row set of `size`
rows with grain `grain`: consecutive ranges `[begin, end)` of at most `grain` rows. -/
def blockRanges (grain size : Nat) : List (Nat × Nat) :=
  (List.range (size / grain + if size % grain = 0 then 0 else 1)).map fun iblock =>
    (iblock * grain, min (iblock * grain + grain) size)

/-- The lambda of `UpdatePredictionCacheImpl` on the node `nidx` and the range `r` of its
row set. -/
def updateBlock (tree : List TreeNodeStatus) (snode : List (NodeEntry K))
    (evaluator : SplitEvaluator K) (param : TrainParam K) (part : List (List Nat))
    (nidx : Nat) (r : Nat × Nat) (out_preds : List K) : Option (List K) :=
  match tree[nidx]?, part[nidx]? with
  | some node, some rowset =>
    if node.IsDeleted = false ∧ node.IsLeaf = true then
      match snode[nidx]? with
      | none => none
      | some stats =>
        let leaf_value := evaluator.CalcWeight nidx param stats.stats * param.learning_rate
        addLeafValue leaf_value ((rowset.drop r.1).take (r.2 - r.1)) out_preds
    else some out_preds
  | _, _ => none

/-- The blocks of the space `BlockedSpace2d(part.Size(), part[node].Size(), 1024)`: node,
then range. -/
def partBlocks (part : List (List Nat)) : List (Nat × Nat × Nat) :=
  (List.range part.length).flatMap fun node =>
    (blockRanges 1024 (part.getD node []).length).map fun r => (node, r)

/-- Running a lambda once on each block of a list, in order; `none` as soon as one run is
undefined. -/
def runBlocks (f : Nat → Nat × Nat → List K → Option (List K)) :
    List (Nat × Nat × Nat) → List K → Option (List K)
  | [], out_preds => some out_preds
  | b :: bs, out_preds =>
    match f b.1 b.2 out_preds with
    | none => none
    | some out1 => runBlocks f bs out1

/-- The loop of `UpdatePredictionCacheImpl` over the row partitioners. Modelled from the
spec: `common::ParallelFor2d` runs the lambda once on every block of the space; the blocks
are taken in ascending order, as a single thread takes them. -/
def updatePartitions (tree : List TreeNodeStatus) (snode : List (NodeEntry K))
    (evaluator : SplitEvaluator K) (param : TrainParam K) :
    List (List (List Nat)) → List K → Run (List K)
  | [], out_preds => Run.ok out_preds
  | part :: rest, out_preds =>
    if part.length ≠ tree.length then Run.fatal
    else
      match runBlocks (updateBlock tree snode evaluator param part) (partBlocks part)
          out_preds with
      | none => Run.undefined
      | some out1 => updatePartitions tree snode evaluator param rest out1

/-- `UpdatePredictionCacheImpl`. `p_last_tree` is `none` for a null pointer; a partitioner is
the list of its row sets by node id; the thread count of `ctx` does not enter the result.
Returns the accumulator. -/
def UpdatePredictionCacheImpl (p_last_tree : Option (List TreeNodeStatus))
    (partitioner : List (List (List Nat))) (hist_evaluator : HistEvaluator K)
    (param : TrainParam K) (out_preds : VectorView K) : Run (VectorView K) :=
  if ¬ 0 < out_preds.data.length then Run.fatal
  else
    match p_last_tree with
    | none => Run.fatal
    | some tree =>
      if out_preds.DeviceIdx ≠ kCpuId then Run.fatal
      else
        match updatePartitions tree hist_evaluator.snode_
            hist_evaluator.tree_evaluator_.GetEvaluator param partitioner out_preds.data with
        | Run.ok data => Run.ok { out_preds with data := data }
        | Run.fatal => Run.fatal
        | Run.undefined => Run.undefined

/-- The row ids owned by the leaves of the tree that are not deleted, node after node. -/
def leafRows (tree : List TreeNodeStatus) (part : List (List Nat)) : List Nat :=
  (List.range part.length).flatMap fun node =>
    match tree[node]? with
    | some status =>
      if status.IsDeleted = false ∧ status.IsLeaf = true then part.getD node [] else []
    | none => []

/-- A sequence of additions `out_preds[row] += value`, in order. -/
def applyOps : List (Nat × K) → List K → Option (List K)
  | [], out_preds => some out_preds
  | op :: ops, out_preds =>
    match out_preds[op.1]? with
    | none => none
    | some v => applyOps ops (out_preds.set op.1 (v + op.2))

/-- The value added to the rows of the leaf `nidx`. -/
def leafValue (snode : List (NodeEntry K)) (evaluator : SplitEvaluator K) (param : TrainParam K)
    (nidx : Nat) : K :=
  evaluator.CalcWeight nidx param
    (snode.getD nidx { stats := GradStats.zero, root_gain := 0 }).stats * param.learning_rate

/-- The additions the leaves of the tree make, node after node. -/
def leafOps (tree : List TreeNodeStatus) (snode : List (NodeEntry K))
    (evaluator : SplitEvaluator K) (param : TrainParam K) (part : List (List Nat)) :
    List (Nat × K) :=
  (List.range part.length).flatMap fun node =>
    match tree[node]? with
    | some status =>
      if status.IsDeleted = false ∧ status.IsLeaf = true then
        (part.getD node []).map fun row => (row, leafValue snode evaluator param node)
      else []
    | none => []

/-! ## Specification-side definitions: visited positions, offers, sequential search -/

/-- The `n` positions visited from `i` on with step `d`, in scan order. -/
def positions (d : Int) : Int → Nat → List Int
  | _, 0 => []
  | i, n + 1 => i :: positions d (i + d) n

/-- Running a loop body over a list of positions, aborting as soon as the body does. -/
def runBody {σ : Type} (body : Int → σ → Option σ) : List Int → σ → Option σ
  | [], s => some s
  | i :: is, s =>
    match body i s with
    | none => none
    | some s1 => runBody body is s1

/-- The child sums computed at each visited position, in scan order: position, then the
values of `left_sum` and `right_sum` after `calc_bin_value`. -/
def sumsTrace {γ : Type} (cbv : Int → γ → γ → Option (γ × γ)) :
    List Int → γ → γ → Option (List (Int × γ × γ))
  | [], _, _ => some []
  | i :: is, l, r =>
    match cbv i l r with
    | none => none
    | some lr =>
      match sumsTrace cbv is lr.1 lr.2 with
      | none => none
      | some tr => some ((i, lr.1, lr.2) :: tr)

/-- The running sums after the last visited position. -/
def lastSums : List (Int × GradStats K × GradStats K) → GradStats K × GradStats K →
    GradStats K × GradStats K
  | [], d => d
  | t :: ts, _ => lastSums ts (t.2.1, t.2.2)

/-- Whether the acceptance rule of the loop holds for the child sums `l`, `r`. -/
def eligible (self : HistEvaluator K) (l r : GradStats K) : Prop :=
  self.param_.min_child_weight ≤ l.GetHess ∧ self.param_.min_child_weight ≤ r.GetHess

instance (self : HistEvaluator K) (l r : GradStats K) : Decidable (eligible self l r) :=
  inferInstanceAs (Decidable (_ ∧ _))

/-- What the loop passes to `best.Update` at a visited position with the child sums of
`t`: nothing when the position is not eligible, else the position and the arguments of the
call as a record. The outer `none` is an abort while reading the threshold. -/
def offerAt (self : HistEvaluator K) (d_step : Int) (split_type : SplitType)
    (cut : HistogramCuts K) (fidx nidx : Nat) (evaluator : SplitEvaluator K) (parent : NodeEntry K) (imin : Int)
    (t : Int × GradStats K × GradStats K) : Option (Option (Int × SplitEntry K)) :=
  if eligible self t.2.1 t.2.2 then
    if 0 < d_step then
      match getI cut.Values t.1 with
      | none => none
      | some split_pt =>
        some (some (t.1,
          { loss_chg := self.static_cast_float
              (evaluator.CalcSplitGain self.param_ nidx fidx t.2.1 t.2.2 - parent.root_gain),
            sindex := fidx, default_left := decide (d_step = -1), split_value := split_pt,
            cat_bits := [], is_cat := decide (split_type ≠ SplitType.kNum),
            left_sum := t.2.1, right_sum := t.2.2 }))
    else
      match backward_split_pt cut split_type fidx imin t.1 with
      | none => none
      | some split_pt =>
        some (some (t.1,
          { loss_chg := self.static_cast_float
              (evaluator.CalcSplitGain self.param_ nidx fidx t.2.2 t.2.1 - parent.root_gain),
            sindex := fidx, default_left := decide (d_step = -1), split_value := split_pt,
            cat_bits := [], is_cat := decide (split_type ≠ SplitType.kNum),
            left_sum := t.2.2, right_sum := t.2.1 }))
  else some none

/-- The offers of a whole scan, in scan order. -/
def offersOf {α β : Type} (offer : α → Option (Option β)) : List α → Option (List β)
  | [] => some []
  | t :: ts =>
    match offer t with
    | none => none
    | some o =>
      match offersOf offer ts with
      | none => none
      | some os => some (o.toList ++ os)

/-- One `best.Update(...)` of the loop on the pair (`best_thresh`, `best`). -/
def offerStep (tb : Int × SplitEntry K) (o : Int × SplitEntry K) : Int × SplitEntry K :=
  let u := tb.2.UpdateWith o.2.loss_chg o.2.sindex o.2.split_value o.2.default_left o.2.is_cat
    o.2.left_sum o.2.right_sum
  (if u.1 then o.1 else tb.1, u.2)

/-- The loop state after the positions of `tr` with the offers `offs`, from state `s`. -/
def finish (s : ScanState K) (tr : List (Int × GradStats K × GradStats K))
    (offs : List (Int × SplitEntry K)) : ScanState K :=
  { left_sum := (lastSums tr (s.left_sum, s.right_sum)).1,
    right_sum := (lastSums tr (s.left_sum, s.right_sum)).2,
    best := (offs.foldl offerStep (s.best_thresh, s.best)).2,
    best_thresh := (offs.foldl offerStep (s.best_thresh, s.best)).1 }

/-- Keep `b` unless `o` has a strictly greater key. -/
def pick {α : Type} (key : α → K) (b o : α) : α := if key b < key o then o else b

/-- Fold of the strictly-greater rule from `a` over `l`. -/
def firstMax {α : Type} (key : α → K) (a : α) (l : List α) : α := l.foldl (pick key) a

/-- The gain of a position and split record pair. -/
def offerKey (o : Int × SplitEntry K) : K := o.2.loss_chg

/-- First position of the scan over the bins `[p0, p1)`. -/
def scanBegin (d_step : Int) (p0 p1 : Nat) : Int :=
  if 0 < d_step then (p0 : Int) else (p1 : Int) - 1

/-- The child sums at the visited positions of a call on the bins `[p0, p1)`, in scan
order. -/
def callTrace (d_step : Int) (split_type : SplitType) (sorted_idx : List Nat)
    (hist : List (GradStats K)) (parent : NodeEntry K) (p0 p1 : Nat) :
    Option (List (Int × GradStats K × GradStats K)) :=
  sumsTrace
    (calc_bin_value d_step split_type hist ((hist.drop p0).take (p1 - p0)) sorted_idx parent
      (scanBegin d_step p0 p1))
    (positions d_step (scanBegin d_step p0 p1) (p1 - p0)) GradStats.zero GradStats.zero

/-- The value `EnumerateSplit` returns, from the final loop state. -/
def returned (split_type : SplitType) (s : ScanState K) : GradStats K :=
  match split_type with
  | .kNum => s.left_sum
  | .kOneHot => GradStats.zero
  | .kPart => s.right_sum

/-- The two records agree on everything but the category bits. -/
def sameSplit (a b : SplitEntry K) : Prop :=
  a.loss_chg = b.loss_chg ∧ a.sindex = b.sindex ∧ a.default_left = b.default_left ∧
    a.split_value = b.split_value ∧ a.is_cat = b.is_cat ∧ a.left_sum = b.left_sum ∧
    a.right_sum = b.right_sum

/-- The local bests of the scans `EvaluateSplits` runs for one feature of one node, in the
order of the calls; it is the dispatch of `evaluateFeature` with every scan started from a
default record. -/
def featureBests [FloorRing K] (self : HistEvaluator K) (cut : HistogramCuts K)
    (feature_types : List FeatureType) (histogram : List (GradStats K))
    (evaluator : SplitEvaluator K) (nidx fidx : Nat) : Option (List (SplitEntry K)) :=
  if ¬ self.interaction_constraints_.Query nidx fidx then some []
  else if IsCat feature_types fidx then
    match cut.Ptrs[fidx + 1]?, cut.Ptrs[fidx]? with
    | some p1, some p0 =>
      if self.UseOneHot (subU32 p1 p0) then
        match EnumerateSplit self 1 SplitType.kOneHot cut [] histogram fidx nidx evaluator
            SplitEntry.fresh with
        | none => none
        | some r1 =>
          match EnumerateSplit self (-1) SplitType.kOneHot cut [] histogram fidx nidx evaluator
              SplitEntry.fresh with
          | none => none
          | some r2 => some [r1.1, r2.1]
      else
        match subspan histogram p0 (subU32 p1 p0 : Int) with
        | none => none
        | some feat_hist =>
          match EnumerateSplit self 1 SplitType.kPart cut
              (stable_sort_by_key
                (fun l => evaluator.CalcWeightCat self.param_ (feat_hist.getD l GradStats.zero))
                (List.range (subU32 p1 p0)))
              histogram fidx nidx evaluator SplitEntry.fresh with
          | none => none
          | some r1 =>
            match EnumerateSplit self (-1) SplitType.kPart cut
                (stable_sort_by_key
                  (fun l => evaluator.CalcWeightCat self.param_ (feat_hist.getD l GradStats.zero))
                  (List.range (subU32 p1 p0)))
                histogram fidx nidx evaluator SplitEntry.fresh with
            | none => none
            | some r2 => some [r1.1, r2.1]
    | _, _ => none
  else
    match EnumerateSplit self 1 SplitType.kNum cut [] histogram fidx nidx evaluator
        SplitEntry.fresh with
    | none => none
    | some r1 =>
      match self.snode_[nidx]? with
      | none => none
      | some snode =>
        if SplitContainsMissingValues r1.2 snode then
          match EnumerateSplit self (-1) SplitType.kNum cut [] histogram fidx nidx evaluator
              SplitEntry.fresh with
          | none => none
          | some r2 => some [r1.1, r2.1]
        else some [r1.1]

/-- The local bests of the scans run for a list of feature positions, in order. -/
def itemsBests [FloorRing K] (self : HistEvaluator K) (cut : HistogramCuts K)
    (feature_types : List FeatureType) (histogram : List (GradStats K))
    (evaluator : SplitEvaluator K) (nidx : Nat) (features_set : List Nat) :
    List Nat → Option (List (SplitEntry K))
  | [] => some []
  | fidx_in_set :: items =>
    match features_set[fidx_in_set]? with
    | none => none
    | some fidx =>
      match featureBests self cut feature_types histogram evaluator nidx fidx with
      | none => none
      | some a =>
        match itemsBests self cut feature_types histogram evaluator nidx features_set items with
        | none => none
        | some b => some (a ++ b)

/-- One record per frontier entry, updated by scanning the feature positions
`order nidx_in_set` of the entry in that order: a run without private copies and merge. -/
def sequentialEntries [FloorRing K] (self : HistEvaluator K)
    (hist : Nat → List (GradStats K)) (cut : HistogramCuts K)
    (feature_types : List FeatureType) (GetDepth : Nat → Nat) (evaluator : SplitEvaluator K)
    (order : Nat → List Nat) : Nat → List (ExpandEntry K) → Option (List (ExpandEntry K))
  | _, [] => some []
  | nidx_in_set, entry :: entries =>
    match evaluateItems self cut feature_types (hist entry.nid) evaluator entry.nid
        (self.GetFeatureSet (GetDepth entry.nid)) (order nidx_in_set) entry.split with
    | none => none
    | some best =>
      match sequentialEntries self hist cut feature_types GetDepth evaluator order
          (nidx_in_set + 1) entries with
      | none => none
      | some rest => some ({ entry with split := best } :: rest)

/-- The worker-major order of a distribution over `n` workers: the items of worker 0 in
the order it processes them, then those of worker 1, and so on. -/
def workerMajor (n : Nat) (dist : Nat → Nat → List Nat) (nidx_in_set : Nat) : List Nat :=
  (List.range n).flatMap (dist nidx_in_set)

/-- What a record is after scans of the node `nidx`: the default record, or a record whose
child sums add up to the statistic of the node. -/
def sumsToNode (self : HistEvaluator K) (nidx : Nat) (b : SplitEntry K) : Prop :=
  b = SplitEntry.fresh ∨
    ∃ parent, self.snode_[nidx]? = some parent ∧
      GradStats.AddStats b.left_sum b.right_sum = parent.stats

/-- The additions the lambda makes on one block. -/
def blockOps (tree : List TreeNodeStatus) (snode : List (NodeEntry K))
    (evaluator : SplitEvaluator K) (param : TrainParam K) (part : List (List Nat))
    (b : Nat × Nat × Nat) : List (Nat × K) :=
  match tree[b.1]? with
  | some status =>
    if status.IsDeleted = false ∧ status.IsLeaf = true then
      (((part.getD b.1 []).drop b.2.1).take (b.2.2 - b.2.1)).map fun row =>
        (row, leafValue snode evaluator param b.1)
    else []
  | none => []

/-- The total the leaves add to the accumulator: per leaf, its value times its row count. -/
def leafTotal (tree : List TreeNodeStatus) (snode : List (NodeEntry K))
    (evaluator : SplitEvaluator K) (param : TrainParam K) (part : List (List Nat)) : K :=
  ((List.range part.length).map fun node =>
    match tree[node]? with
    | some status =>
      if status.IsDeleted = false ∧ status.IsLeaf = true then
        leafValue snode evaluator param node * ((part.getD node []).length : K)
      else 0
    | none => 0).sum

/-- The sum of the bins of the first `k` categories of the order `sorted_idx`. -/
def prefixSum (f_hist : List (GradStats K)) (sorted_idx : List Nat) (k : Nat) : GradStats K :=
  { sum_grad := ((sorted_idx.take k).map fun c => (f_hist.getD c GradStats.zero).sum_grad).sum,
    sum_hess := ((sorted_idx.take k).map fun c => (f_hist.getD c GradStats.zero).sum_hess).sum }

/-- The sum of the bins of the categories `sorted_idx[j0], ..., sorted_idx[j0 + k - 1]`, on
top of `r`. -/
def runSum (f_hist : List (GradStats K)) (sorted_idx : List Nat) (r : GradStats K)
    (j0 k : Nat) : GradStats K :=
  { sum_grad := r.sum_grad +
      (((sorted_idx.drop j0).take k).map fun c => (f_hist.getD c GradStats.zero).sum_grad).sum,
    sum_hess := r.sum_hess +
      (((sorted_idx.drop j0).take k).map fun c => (f_hist.getD c GradStats.zero).sum_hess).sum }

/-! ## Single precision on the integers -/

/-- Number of binary digits of `a` beyond the 24 that a single-precision significand holds
(`fuel` bounds the halvings; `a` itself is enough). -/
def excessBits : Nat → Nat → Nat
  | 0, _ => 0
  | fuel + 1, a => if a < 16777216 then 0 else excessBits fuel (a / 2) + 1

/-- Rounding of a natural number to 24 significant binary digits, ties to even. -/
def roundNat (a : Nat) : Nat :=
  let s := 2 ^ excessBits a a
  let q := a / s
  let r := a % s
  if s < 2 * r ∨ (2 * r = s ∧ q % 2 = 1) then (q + 1) * s else q * s

/-- The conversion `static_cast<float>` on the integers: the nearest single-precision
value, ties to even. Integers below `2^24` in size are kept; the exponent range is not
bounded. -/
def float32 (n : ℤ) : ℤ :=
  if 0 ≤ n then (roundNat n.toNat : ℤ) else -(roundNat (-n).toNat : ℤ)

/-! ## Example objects for concrete runs -/

/-- An evaluator over the integers: the gain of a split is the sum of the squared gradient
sums of the two children. -/
def exampleEvaluator : SplitEvaluator ℤ :=
  { CalcSplitGain := fun _ _ _ l r => l.sum_grad * l.sum_grad + r.sum_grad * r.sum_grad
    CalcGain := fun _ _ s => s.sum_grad * s.sum_grad
    CalcWeight := fun _ _ s => - s.sum_grad
    CalcWeightCat := fun _ s => s.sum_grad }

/-- One node with total statistic `(0, 4)`, root gain `0`, and `min_child_weight = w`. -/
def exampleSelf (w : ℤ) : HistEvaluator ℤ :=
  { param_ := { min_child_weight := w, learning_rate := 1, max_cat_to_onehot := 4 }
    GetFeatureSet := fun _ => [0]
    tree_evaluator_ := { added := [], make := fun _ => exampleEvaluator }
    n_threads_ := 2
    interaction_constraints_ := { registered := [], allowed := fun _ _ _ => true }
    snode_ := [{ stats := ⟨0, 4⟩, root_gain := 0 }]
    UseOneHot := fun n => decide (n < 4)
    static_cast_float := float32 }

/-- One feature with four bins. -/
def exampleCut : HistogramCuts ℤ :=
  { Ptrs := [0, 4], Values := [0, 1, 2, 3], MinValues := [-1] }

/-- The histogram row `[(-1,1),(1,1),(-1,1),(1,1)]`. -/
def exampleHist : List (GradStats ℤ) := [⟨-1, 1⟩, ⟨1, 1⟩, ⟨-1, 1⟩, ⟨1, 1⟩]

/-- The split the backward numeric scan of `exampleHist` finds: bins `0..2` left. -/
def exampleBackwardSplit : SplitEntry ℤ :=
  { loss_chg := 2, sindex := 0, default_left := true, split_value := 2, cat_bits := [],
    is_cat := false, left_sum := ⟨-1, 3⟩, right_sum := ⟨1, 1⟩ }

/-- The split the forward numeric scan of `exampleHist` finds: bin `0` left. -/
def exampleForwardSplit : SplitEntry ℤ :=
  { loss_chg := 2, sindex := 0, default_left := false, split_value := 0, cat_bits := [],
    is_cat := false, left_sum := ⟨-1, 1⟩, right_sum := ⟨1, 3⟩ }

/-- The child sums of the forward numeric scan of `exampleHist`. -/
def exampleForwardTrace : List (Int × GradStats ℤ × GradStats ℤ) :=
  [(0, ⟨-1, 1⟩, ⟨1, 3⟩), (1, ⟨0, 2⟩, ⟨0, 2⟩), (2, ⟨-1, 3⟩, ⟨1, 1⟩), (3, ⟨0, 4⟩, ⟨0, 0⟩)]

/-- The offers of the forward numeric scan of `exampleHist` after the first one. -/
def exampleForwardLater : List (Int × SplitEntry ℤ) :=
  [(1, { exampleForwardSplit with loss_chg := 0, split_value := 1, left_sum := ⟨0, 2⟩,
                                  right_sum := ⟨0, 2⟩ }),
   (2, { exampleForwardSplit with loss_chg := 2, split_value := 2, left_sum := ⟨-1, 3⟩,
                                  right_sum := ⟨1, 1⟩ }),
   (3, { exampleForwardSplit with loss_chg := 0, split_value := 3, left_sum := ⟨0, 4⟩,
                                  right_sum := ⟨0, 0⟩ })]

/-- One node with total statistic `(0, 2)` and two sampled features, for `n` workers. -/
def twoFeatureSelf (n : Nat) : HistEvaluator ℤ :=
  { param_ := { min_child_weight := 0, learning_rate := 1, max_cat_to_onehot := 4 }
    GetFeatureSet := fun _ => [0, 1]
    tree_evaluator_ := { added := [], make := fun _ => exampleEvaluator }
    n_threads_ := n
    interaction_constraints_ := { registered := [], allowed := fun _ _ _ => true }
    snode_ := [{ stats := ⟨0, 2⟩, root_gain := 0 }]
    UseOneHot := fun k => decide (k < 4)
    static_cast_float := float32 }

/-- Two features with two bins each. -/
def twoFeatureCut : HistogramCuts ℤ :=
  { Ptrs := [0, 2, 4], Values := [0, 1, 0, 1], MinValues := [-1, -1] }

/-- A histogram row in which both features have the bins `(-1,1), (1,1)`: their best
splits tie with gain `2`. -/
def twoFeatureHist : Nat → List (GradStats ℤ) :=
  fun _ => [⟨-1, 1⟩, ⟨1, 1⟩, ⟨-1, 1⟩, ⟨1, 1⟩]

/-- A node of the example tree: split index, children (`-1` for a leaf) and the category
bits of a categorical split. -/
structure ExampleNode where
  split_index : Nat
  left : Int
  right : Int
  cats : List Nat
  deriving DecidableEq, Repr

/-- A tree sink on lists of nodes that appends the two children at the end. -/
def exampleSink : TreeSink (List ExampleNode) ℤ :=
  { ExpandNode := fun t nid idx _ _ _ _ _ _ _ _ _ =>
      t.set nid { split_index := idx, left := t.length, right := t.length + 1, cats := [] } ++
        [{ split_index := 0, left := -1, right := -1, cats := [] },
         { split_index := 0, left := -1, right := -1, cats := [] }]
    ExpandCategorical := fun t nid idx cats _ _ _ _ _ _ _ _ =>
      t.set nid { split_index := idx, left := t.length, right := t.length + 1, cats := cats } ++
        [{ split_index := 0, left := -1, right := -1, cats := [] },
         { split_index := 0, left := -1, right := -1, cats := [] }]
    LeftChild := fun t nid => (t.getD nid ⟨0, -1, -1, []⟩).left
    RightChild := fun t nid => (t.getD nid ⟨0, -1, -1, []⟩).right
    SplitIndex := fun t nid => (t.getD nid ⟨0, -1, -1, []⟩).split_index
    NumNodes := fun t => t.length }

/-- The tree with a root only. -/
def exampleTree : List ExampleNode := [{ split_index := 0, left := -1, right := -1, cats := [] }]

/-- The tree after the root has been split on feature `0`. -/
def exampleTreeSplit : List ExampleNode :=
  [{ split_index := 0, left := 1, right := 2, cats := [] },
   { split_index := 0, left := -1, right := -1, cats := [] },
   { split_index := 0, left := -1, right := -1, cats := [] }]

/-- A one-hot record: category `33` of feature `0` goes right. -/
def exampleCatSplit : SplitEntry ℤ :=
  { loss_chg := 2, sindex := 0, default_left := false, split_value := 33, cat_bits := [],
    is_cat := true, left_sum := ⟨-1, 3⟩, right_sum := ⟨1, 1⟩ }

/-- Worker 0 takes the only feature position, the other workers nothing. -/
def firstWorkerDist : Nat → Nat → List Nat :=
  fun _ tidx => if tidx = 0 then [0] else []

/-- A record with a negative gain. -/
def negativeRecord : SplitEntry ℤ := { (SplitEntry.fresh : SplitEntry ℤ) with loss_chg := -1 }

/-- An evaluator whose split gain is the hessian sum of the left child. -/
def leftHessEvaluator : SplitEvaluator ℤ :=
  { exampleEvaluator with CalcSplitGain := fun _ _ _ l _ => l.sum_hess }

/-- A one-hot record whose category value is negative. -/
def invalidCatSplit : SplitEntry ℤ :=
  { loss_chg := 2, sindex := 0, default_left := false, split_value := -1, cat_bits := [],
    is_cat := true, left_sum := ⟨-1, 3⟩, right_sum := ⟨1, 1⟩ }

/-- A finished tree with a root and two leaves. -/
def exampleLeafTree : List TreeNodeStatus :=
  [{ IsDeleted := false, IsLeaf := false }, { IsDeleted := false, IsLeaf := true },
   { IsDeleted := false, IsLeaf := true }]

/-- A row partitioner for `exampleLeafTree`: the rows `0` and `2` are in the left leaf, the
row `1` in the right leaf; the root still lists the rows it had. -/
def examplePartition : List (List Nat) := [[0, 1, 2], [0, 2], [1]]

/-- An evaluator object whose statistics table covers the three nodes of
`exampleLeafTree`. -/
def exampleCacheEvaluator : HistEvaluator ℤ :=
  { exampleSelf 0 with
    snode_ := [{ stats := ⟨0, 4⟩, root_gain := 0 }, { stats := ⟨-1, 1⟩, root_gain := 1 },
               { stats := ⟨1, 3⟩, root_gain := 1 }] }

/-- Parameters with learning rate `2`. -/
def exampleCacheParam : TrainParam ℤ :=
  { min_child_weight := 0, learning_rate := 2, max_cat_to_onehot := 4 }

/-- An accumulator of four rows on the CPU. -/
def examplePreds : VectorView ℤ := { data := [10, 20, 30, 40], DeviceIdx := -1 }

/-- An evaluator object whose column sampler returns the empty feature set. -/
def emptySampleSelf : HistEvaluator ℤ := { exampleSelf 0 with GetFeatureSet := fun _ => [] }

/-- The distribution of an empty space: no worker gets a work item. -/
def emptyDist : Nat → Nat → List Nat := fun _ _ => []

/-- Two features of which only feature `1` is sampled and allowed, and a `min_child_weight`
that no split of `twoFeatureHist` meets. -/
def onlySecondSelf : HistEvaluator ℤ :=
  { twoFeatureSelf 2 with
    param_ := { min_child_weight := 10, learning_rate := 1, max_cat_to_onehot := 4 }
    GetFeatureSet := fun _ => [1]
    interaction_constraints_ := { registered := [], allowed := fun _ _ fidx => decide (fidx = 1) } }

/-- One categorical feature with the two categories `0` and `1`. -/
def oneHotCut : HistogramCuts ℤ := { Ptrs := [0, 2], Values := [0, 1], MinValues := [-1] }

/-- The histogram row of `oneHotCut`: category `0` has `(-1,1)`, category `1` has `(1,3)`. -/
def oneHotHist : List (GradStats ℤ) := [⟨-1, 1⟩, ⟨1, 3⟩]

/-- An evaluator whose split gain is the hessian sum of the right child. -/
def rightHessEvaluator : SplitEvaluator ℤ :=
  { exampleEvaluator with CalcSplitGain := fun _ _ _ _ r => r.sum_hess }

/-- One node with total statistic `(0, 5)` (a missing statistic of `(0, 1)` on top of
`oneHotHist`) and the evaluator `rightHessEvaluator`. -/
def oneHotSelf : HistEvaluator ℤ :=
  { exampleSelf 0 with
    tree_evaluator_ := { added := [], make := fun _ => rightHessEvaluator }
    snode_ := [{ stats := ⟨0, 5⟩, root_gain := 0 }] }

/-- An evaluator whose split gain is minus the gradient sum of the left child. -/
def leftGradEvaluator : SplitEvaluator ℤ :=
  { exampleEvaluator with CalcSplitGain := fun _ _ _ l _ => - l.sum_grad }

/-- The example node with the evaluator `leftGradEvaluator`. -/
def leftGradSelf : HistEvaluator ℤ :=
  { exampleSelf 0 with tree_evaluator_ := { added := [], make := fun _ => leftGradEvaluator } }

/-- The record of the forward one-hot scan of `oneHotHist`: category `0` chosen. -/
def oneHotForwardSplit : SplitEntry ℤ :=
  { loss_chg := 2, sindex := 0, default_left := false, split_value := 0, cat_bits := [],
    is_cat := true, left_sum := ⟨1, 3⟩, right_sum := ⟨-1, 1⟩ }

/-- The record of the backward one-hot scan of `oneHotHist`: category `1` chosen. -/
def oneHotBackwardSplit : SplitEntry ℤ :=
  { loss_chg := 2, sindex := 0, default_left := true, split_value := 1, cat_bits := [],
    is_cat := true, left_sum := ⟨1, 3⟩, right_sum := ⟨-1, 1⟩ }

/-- The record `EvaluateSplits` leaves for `oneHotSelf`: category `0` chosen. -/
def oneHotMergedSplit : SplitEntry ℤ :=
  { loss_chg := 4, sindex := 0, default_left := true, split_value := 0, cat_bits := [],
    is_cat := true, left_sum := ⟨-1, 1⟩, right_sum := ⟨1, 4⟩ }

/-- The record of the forward partition scan of `exampleHist` in the order `[0, 2, 1, 3]`:
the categories `0` and `2` chosen. -/
def partForwardSplit : SplitEntry ℤ :=
  { loss_chg := 8, sindex := 0, default_left := false, split_value := 1, cat_bits := [5],
    is_cat := true, left_sum := ⟨2, 2⟩, right_sum := ⟨-2, 2⟩ }

/-- The record of the backward partition scan of `exampleHist` in the order
`[0, 2, 1, 3]`. -/
def partBackwardSplit : SplitEntry ℤ :=
  { loss_chg := 8, sindex := 0, default_left := true, split_value := 2, cat_bits := [8],
    is_cat := true, left_sum := ⟨-2, 2⟩, right_sum := ⟨2, 2⟩ }

/-- A histogram row of four categories with the same statistic `(1,1)`. -/
def positiveHist : List (GradStats ℤ) := [⟨1, 1⟩, ⟨1, 1⟩, ⟨1, 1⟩, ⟨1, 1⟩]

/-- One node with total statistic `(4, 4)`, root gain `16` and `min_child_weight = 1`. -/
def noGainSelf : HistEvaluator ℤ :=
  { exampleSelf 1 with snode_ := [{ stats := ⟨4, 4⟩, root_gain := 16 }] }

/-- One categorical feature with the three categories `A`, `B`, `C` (values `0, 1, 2`). -/
def abcCut : HistogramCuts ℤ := { Ptrs := [0, 3], Values := [0, 1, 2], MinValues := [-1] }

/-- The histogram row `A:(2,1), B:(5,2), C:(1,1)`. -/
def abcHist : List (GradStats ℤ) := [⟨2, 1⟩, ⟨5, 2⟩, ⟨1, 1⟩]

/-- An evaluator over the integers with twelve times the gain `G^2 / H` per child and the
rank key `2 G / H`. -/
def abcEvaluator : SplitEvaluator ℤ :=
  { CalcSplitGain := fun _ _ _ l r =>
      12 * (l.sum_grad * l.sum_grad) / l.sum_hess + 12 * (r.sum_grad * r.sum_grad) / r.sum_hess
    CalcGain := fun _ _ s => 12 * (s.sum_grad * s.sum_grad) / s.sum_hess
    CalcWeight := fun _ _ s => - s.sum_grad / s.sum_hess
    CalcWeightCat := fun _ s => 2 * s.sum_grad / s.sum_hess }

/-- One node with the total statistic `(8, 4)` of `abcHist` and its gain `192`. -/
def abcSelf : HistEvaluator ℤ :=
  { exampleSelf 0 with
    tree_evaluator_ := { added := [], make := fun _ => abcEvaluator }
    snode_ := [{ stats := ⟨8, 4⟩, root_gain := 192 }]
    UseOneHot := fun _ => false }

/-- An evaluator that ranks the categories by their hessian sum. -/
def hessRankEvaluator : SplitEvaluator ℤ :=
  { exampleEvaluator with CalcWeightCat := fun _ s => s.sum_hess }

/-- The histogram row `(-1,1), (3,2), (-1,3)`. -/
def hessRankHist : List (GradStats ℤ) := [⟨-1, 1⟩, ⟨3, 2⟩, ⟨-1, 3⟩]

/-- One node with the total statistic `(1, 6)` of `hessRankHist` and its gain `1`. -/
def hessRankSelf : HistEvaluator ℤ :=
  { exampleSelf 0 with
    tree_evaluator_ := { added := [], make := fun _ => hessRankEvaluator }
    snode_ := [{ stats := ⟨1, 6⟩, root_gain := 1 }]
    UseOneHot := fun _ => false }

/-- The record of the forward partition scan of `abcHist`: category `C` chosen. -/
def abcSplit : SplitEntry ℤ :=
  { loss_chg := 16, sindex := 0, default_left := false, split_value := 0, cat_bits := [4],
    is_cat := true, left_sum := ⟨7, 3⟩, right_sum := ⟨1, 1⟩ }

/-- A histogram row whose forward numeric splits have, under `leftGradEvaluator`, the gains
`16777216, 16777217, 16777216, 0`; the second one is not a single-precision value. -/
def roundingHist : List (GradStats ℤ) :=
  [⟨-16777216, 1⟩, ⟨-1, 1⟩, ⟨1, 1⟩, ⟨16777216, 1⟩]

/-- The child sums of the forward numeric scan of `roundingHist`. -/
def roundingTrace : List (Int × GradStats ℤ × GradStats ℤ) :=
  [(0, ⟨-16777216, 1⟩, ⟨16777216, 3⟩), (1, ⟨-16777217, 2⟩, ⟨16777217, 2⟩),
   (2, ⟨-16777216, 3⟩, ⟨16777216, 1⟩), (3, ⟨0, 4⟩, ⟨0, 0⟩)]

/-- The record of the forward numeric scan of `roundingHist`: the split after bin `0`. -/
def roundingSplit : SplitEntry ℤ :=
  { loss_chg := 16777216, sindex := 0, default_left := false, split_value := 0, cat_bits := [],
    is_cat := false, left_sum := ⟨-16777216, 1⟩, right_sum := ⟨16777216, 3⟩ }

/-- An evaluator whose gain is the gradient sum of the right child and which ranks the
categories by descending gradient sum. -/
def rightGradEvaluator : SplitEvaluator ℤ :=
  { exampleEvaluator with
    CalcSplitGain := fun _ _ _ _ r => r.sum_grad
    CalcWeightCat := fun _ s => - s.sum_grad }

/-- A histogram row of four categories whose prefixes in the order `0, 1, 2, 3` have the
gradient sums `16777216, 16777217, 16777200, 0`. -/
def roundingPartHist : List (GradStats ℤ) :=
  [⟨16777216, 1⟩, ⟨1, 1⟩, ⟨-17, 1⟩, ⟨-16777200, 1⟩]

/-! ## Single precision: rounding is monotone and keeps zero -/

theorem excessBits_small (fuel a : Nat) (h : a < 16777216) : excessBits fuel a = 0 := by
  cases fuel with
  | zero => rfl
  | succ f => simp [excessBits, h]

theorem excessBits_bounds : ∀ (fuel a : Nat), a ≤ fuel → 16777216 ≤ a →
    2 ^ (23 + excessBits fuel a) ≤ a ∧ a < 2 ^ (24 + excessBits fuel a) := by
  intro fuel
  induction fuel with
  | zero => intro a h1 h2; omega
  | succ f ih =>
    intro a h1 h2
    have hnot : ¬ a < 16777216 := by omega
    simp only [excessBits, hnot, if_false]
    by_cases hs : a / 2 < 16777216
    · rw [excessBits_small f _ hs]
      norm_num
      omega
    · have hle : a / 2 ≤ f := by omega
      obtain ⟨h3, h4⟩ := ih (a / 2) hle (by omega)
      have e1 : 2 ^ (23 + (excessBits f (a / 2) + 1)) = 2 * 2 ^ (23 + excessBits f (a / 2)) := by
        rw [← Nat.add_assoc, Nat.pow_succ]; ring
      have e2 : 2 ^ (24 + (excessBits f (a / 2) + 1)) = 2 * 2 ^ (24 + excessBits f (a / 2)) := by
        rw [← Nat.add_assoc, Nat.pow_succ]; ring
      rw [e1, e2]
      constructor <;> omega

theorem roundNat_small (a : Nat) (h : a < 16777216) : roundNat a = a := by
  simp [roundNat, excessBits_small a a h, Nat.mod_one]

theorem roundNat_bounds (a : Nat) (h : 16777216 ≤ a) :
    2 ^ (23 + excessBits a a) ≤ roundNat a ∧ roundNat a ≤ 2 ^ (24 + excessBits a a) := by
  obtain ⟨h1, h2⟩ := excessBits_bounds a a le_rfl h
  set e := excessBits a a with he
  have hs : 0 < 2 ^ e := by positivity
  have hq1 : 2 ^ 23 ≤ a / 2 ^ e := by
    rw [Nat.le_div_iff_mul_le hs, ← Nat.pow_add]; exact h1
  have hq2 : a / 2 ^ e < 2 ^ 24 := by
    rw [Nat.div_lt_iff_lt_mul hs, ← Nat.pow_add]; exact h2
  have e1 : 2 ^ (23 + e) = 2 ^ 23 * 2 ^ e := Nat.pow_add _ _ _
  have e2 : 2 ^ (24 + e) = 2 ^ 24 * 2 ^ e := Nat.pow_add _ _ _
  unfold roundNat
  simp only [← he]
  rw [e1, e2]
  split
  · constructor
    · exact Nat.mul_le_mul_right _ (by omega)
    · exact Nat.mul_le_mul_right _ (by omega)
  · constructor
    · exact Nat.mul_le_mul_right _ hq1
    · exact Nat.mul_le_mul_right _ (by omega)

/-- Rounding to 24 significant digits never reverses the order of two numbers. -/
theorem roundNat_mono : Monotone roundNat := by
  intro a b hab
  by_cases ha : a < 16777216
  · rw [roundNat_small a ha]
    by_cases hb : b < 16777216
    · rw [roundNat_small b hb]; exact hab
    · have := (roundNat_bounds b (by omega)).1
      have h23 : 2 ^ 24 ≤ 2 ^ (23 + excessBits b b) := by
        obtain ⟨h1, h2⟩ := excessBits_bounds b b le_rfl (by omega)
        have : 1 ≤ excessBits b b := by
          by_contra hc
          have h0 : excessBits b b = 0 := by omega
          rw [h0] at h2; norm_num at h2; omega
        exact Nat.pow_le_pow_right (by norm_num) (by omega)
      norm_num at h23
      omega
  · have ha1 : 16777216 ≤ a := by omega
    have hb1 : 16777216 ≤ b := by omega
    obtain ⟨a1, a2⟩ := excessBits_bounds a a le_rfl ha1
    obtain ⟨b1, b2⟩ := excessBits_bounds b b le_rfl hb1
    have hle : excessBits a a ≤ excessBits b b := by
      by_contra hc
      have : 2 ^ (24 + excessBits b b) ≤ 2 ^ (23 + excessBits a a) :=
        Nat.pow_le_pow_right (by norm_num) (by omega)
      omega
    rcases Nat.lt_or_eq_of_le hle with hlt | heq
    · have h1 := (roundNat_bounds a ha1).2
      have h2 := (roundNat_bounds b hb1).1
      have : 2 ^ (24 + excessBits a a) ≤ 2 ^ (23 + excessBits b b) :=
        Nat.pow_le_pow_right (by norm_num) (by omega)
      omega
    · unfold roundNat
      simp only [← heq]
      set s := 2 ^ excessBits a a with hs
      have hspos : 0 < s := by positivity
      have hq : a / s ≤ b / s := Nat.div_le_div_right hab
      have hda := Nat.div_add_mod a s
      have hdb := Nat.div_add_mod b s
      have hra := Nat.mod_lt a hspos
      have hrb := Nat.mod_lt b hspos
      rcases Nat.lt_or_eq_of_le hq with hqlt | hqeq
      · have hstep : (a / s + 1) * s ≤ (b / s) * s := Nat.mul_le_mul_right _ hqlt
        have hup : b / s * s ≤ (b / s + 1) * s := Nat.mul_le_mul_right _ (by omega)
        have hdn : a / s * s ≤ (a / s + 1) * s := Nat.mul_le_mul_right _ (by omega)
        split <;> split <;> omega
      · have hr : a % s ≤ b % s := by
          rw [hqeq] at hda
          nlinarith [hda, hdb]
        rw [hqeq]
        have hup : b / s * s ≤ (b / s + 1) * s := Nat.mul_le_mul_right _ (by omega)
        split
        · split
          · exact le_rfl
          · rename_i h1 h2
            exfalso
            apply h2
            rcases h1 with h1 | ⟨h1, h1b⟩
            · left; omega
            · rcases Nat.lt_or_eq_of_le hr with hrl | hre
              · left; omega
              · right; exact ⟨by omega, h1b⟩
        · split
          · exact hup
          · exact le_rfl

/-- The single-precision rounding of the integers is monotone. -/
theorem float32_mono : Monotone float32 := by
  intro m n hmn
  unfold float32
  by_cases hm : 0 ≤ m
  · have hn : 0 ≤ n := le_trans hm hmn
    rw [if_pos hm, if_pos hn]
    exact_mod_cast roundNat_mono (Int.toNat_le_toNat hmn)
  · rw [if_neg hm]
    by_cases hn : 0 ≤ n
    · rw [if_pos hn]
      have h1 : (0 : Int) ≤ (roundNat (-m).toNat : Int) := Int.natCast_nonneg _
      have h2 : (0 : Int) ≤ (roundNat n.toNat : Int) := Int.natCast_nonneg _
      omega
    · rw [if_neg hn]
      have : (-n).toNat ≤ (-m).toNat := Int.toNat_le_toNat (by omega)
      have := roundNat_mono this
      have h3 : (roundNat (-n).toNat : Int) ≤ (roundNat (-m).toNat : Int) := by
        exact_mod_cast this
      omega

/-- The single-precision rounding of the integers keeps zero. -/
theorem float32_zero : float32 0 = 0 := by decide

/-- A monotone map that keeps zero preserves the agreement of two values once both are
clipped below at zero. -/
theorem max_zero_cast_eq (f : K → K) (hm : Monotone f) (h0 : f 0 = 0) (a b : K)
    (h : max 0 a = max 0 b) : max 0 (f a) = max 0 (f b) := by
  by_cases hab : a = b
  · rw [hab]
  · have ha : a ≤ 0 := by
      by_contra hc
      have hc1 : 0 < a := not_le.mp hc
      rw [max_eq_right (le_of_lt hc1)] at h
      rcases le_total 0 b with hb | hb
      · rw [max_eq_right hb] at h; exact hab h
      · rw [max_eq_left hb] at h; exact absurd h (ne_of_gt hc1)
    have hb : b ≤ 0 := by
      by_contra hc
      have hc1 : 0 < b := not_le.mp hc
      rw [max_eq_right (le_of_lt hc1), max_eq_left ha] at h
      exact absurd h (ne_of_lt hc1)
    have fa : f a ≤ 0 := by rw [← h0]; exact hm ha
    have fb : f b ≤ 0 := by rw [← h0]; exact hm hb
    rw [max_eq_left fa, max_eq_left fb]

/-! ## The scan as a fold over the visited positions -/

theorem positions_length (d i : Int) (n : Nat) : (positions d i n).length = n := by
  induction n generalizing i with
  | zero => rfl
  | succ n ih => simp [positions, ih]

theorem mem_positions {d i x : Int} {n : Nat} :
    x ∈ positions d i n ↔ ∃ k : Nat, k < n ∧ x = i + d * k := by
  induction n generalizing i with
  | zero => simp [positions]
  | succ n ih =>
    simp only [positions, List.mem_cons, ih]
    constructor
    · rintro (rfl | ⟨k, hk, rfl⟩)
      · exact ⟨0, by omega, by simp⟩
      · exact ⟨k + 1, by omega, by push_cast; ring⟩
    · rintro ⟨k, hk, rfl⟩
      cases k with
      | zero => left; simp
      | succ k => right; exact ⟨k, by omega, by push_cast; ring⟩

theorem runBody_append {σ : Type} (body : Int → σ → Option σ) (xs ys : List Int) (s : σ) :
    runBody body (xs ++ ys) s = (runBody body xs s).bind (runBody body ys) := by
  induction xs generalizing s with
  | nil => rfl
  | cons x xs ih =>
    simp only [List.cons_append, runBody]
    cases body x s with
    | none => rfl
    | some s1 => exact ih s1

/-- A loop that ends has run its body over `positions`, and the end is reached from the
start in whole steps. -/
theorem scanLoop_some {σ : Type} (d iend : Int) (body : Int → σ → Option σ) :
    ∀ (fuel : Nat) (i : Int) (s s1 : σ), scanLoop d iend body fuel i s = some s1 →
      ∃ n : Nat, n ≤ fuel ∧ iend = i + d * n ∧ runBody body (positions d i n) s = some s1 := by
  intro fuel
  induction fuel with
  | zero =>
    intro i s s1 h
    simp only [scanLoop] at h
    split at h
    · rename_i hi
      exact ⟨0, le_refl _, by simp [hi], by simpa [positions, runBody] using h⟩
    · cases h
  | succ fuel ih =>
    intro i s s1 h
    simp only [scanLoop] at h
    split at h
    · rename_i hi
      exact ⟨0, Nat.zero_le _, by simp [hi], by simpa [positions, runBody] using h⟩
    · split at h
      · cases h
      · rename_i s2 hb
        split at h
        · obtain ⟨n, hn, he, hr⟩ := ih _ _ _ h
          refine ⟨n + 1, by omega, by rw [he]; push_cast; ring, ?_⟩
          simp [positions, runBody, hb, hr]
        · cases h

/-- With a step of `+1` or `-1`, enough iterations allowed and every visited position an
`int32_t`, the loop returns what the body gives over `positions`. -/
theorem scanLoop_eq_runBody {σ : Type} (d iend : Int) (body : Int → σ → Option σ)
    (hd : d = 1 ∨ d = -1) :
    ∀ (n fuel : Nat) (i : Int) (s : σ), n ≤ fuel → iend = i + d * n →
      INT32_MIN ≤ i → i ≤ INT32_MAX → INT32_MIN ≤ iend → iend ≤ INT32_MAX →
      scanLoop d iend body fuel i s = runBody body (positions d i n) s := by
  intro n
  induction n with
  | zero =>
    intro fuel i s _ he _ _ _ _
    have hi : i = iend := by simp [he]
    cases fuel <;> simp [scanLoop, positions, runBody, hi]
  | succ n ih =>
    intro fuel i s hf he h1 h2 h3 h4
    have hne : i ≠ iend := by
      rcases hd with rfl | rfl <;> (rw [he]; push_cast; omega)
    cases fuel with
    | zero => omega
    | succ fuel =>
      simp only [scanLoop, positions, runBody, if_neg hne]
      cases body i s with
      | none => rfl
      | some s1 =>
        have hr : INT32_MIN ≤ i + d ∧ i + d ≤ INT32_MAX := by
          rcases hd with rfl | rfl <;> (rw [he] at h3 h4; push_cast at h3 h4; constructor <;> omega)
        simp only [if_pos hr]
        exact ih fuel (i + d) s1 (by omega) (by rw [he]; push_cast; ring) hr.1 hr.2 h3 h4

/-! ## Child sums and offered splits along the scan -/

theorem scanBody_eq (self : HistEvaluator K) (d_step : Int) (split_type : SplitType)
    (cut : HistogramCuts K) (sorted_idx : List Nat) (hist f_hist : List (GradStats K))
    (fidx nidx : Nat) (evaluator : SplitEvaluator K) (parent : NodeEntry K) (imin ibegin i : Int) (s : ScanState K) :
    scanBody self d_step split_type cut sorted_idx hist f_hist fidx nidx evaluator parent imin ibegin i s =
      match calc_bin_value d_step split_type hist f_hist sorted_idx parent ibegin i
          s.left_sum s.right_sum with
      | none => none
      | some lr =>
        match offerAt self d_step split_type cut fidx nidx evaluator parent imin (i, lr.1, lr.2) with
        | none => none
        | some o => some (finish s [(i, lr.1, lr.2)] o.toList) := by
  unfold scanBody
  cases hc : calc_bin_value d_step split_type hist f_hist sorted_idx parent ibegin i
      s.left_sum s.right_sum with
  | none => rfl
  | some lr =>
    obtain ⟨l, r⟩ := lr
    simp only [offerAt, eligible]
    by_cases he : self.param_.min_child_weight ≤ l.GetHess ∧
        self.param_.min_child_weight ≤ r.GetHess
    · simp only [if_pos he]
      by_cases hd : 0 < d_step
      · simp only [if_pos hd]
        cases getI cut.Values i with
        | none => rfl
        | some pt => simp [finish, lastSums, offerStep]
      · simp only [if_neg hd]
        cases backward_split_pt cut split_type fidx imin i with
        | none => rfl
        | some pt => simp [finish, lastSums, offerStep]
    · simp only [if_neg he]
      simp [finish, lastSums]

/-- The loop of `EnumerateSplit` over a list of positions: it aborts exactly when a bin or a
threshold read does, and otherwise ends in `finish`. -/
theorem runBody_scanBody (self : HistEvaluator K) (d_step : Int) (split_type : SplitType)
    (cut : HistogramCuts K) (sorted_idx : List Nat) (hist f_hist : List (GradStats K))
    (fidx nidx : Nat) (evaluator : SplitEvaluator K) (parent : NodeEntry K) (imin ibegin : Int) :
    ∀ (is : List Int) (s : ScanState K),
      runBody (scanBody self d_step split_type cut sorted_idx hist f_hist fidx nidx evaluator parent
          imin ibegin) is s =
        match sumsTrace (calc_bin_value d_step split_type hist f_hist sorted_idx parent ibegin)
            is s.left_sum s.right_sum with
        | none => none
        | some tr =>
          match offersOf (offerAt self d_step split_type cut fidx nidx evaluator parent imin) tr with
          | none => none
          | some offs => some (finish s tr offs) := by
  intro is
  induction is with
  | nil => intro s; rfl
  | cons i is ih =>
    intro s
    simp only [runBody, scanBody_eq, sumsTrace]
    cases calc_bin_value d_step split_type hist f_hist sorted_idx parent ibegin i
        s.left_sum s.right_sum with
    | none => rfl
    | some lr =>
      simp only []
      cases ho : offerAt self d_step split_type cut fidx nidx evaluator parent imin (i, lr.1, lr.2) with
      | none =>
        cases sumsTrace (calc_bin_value d_step split_type hist f_hist sorted_idx parent ibegin)
            is lr.1 lr.2 with
        | none => rfl
        | some tr => simp [offersOf, ho]
      | some o =>
        simp only [ih]
        have h1 : (finish s [(i, lr.1, lr.2)] o.toList).left_sum = lr.1 := rfl
        have h2 : (finish s [(i, lr.1, lr.2)] o.toList).right_sum = lr.2 := rfl
        rw [h1, h2]
        cases sumsTrace (calc_bin_value d_step split_type hist f_hist sorted_idx parent ibegin)
            is lr.1 lr.2 with
        | none => rfl
        | some tr =>
          simp only [offersOf, ho]
          cases offersOf (offerAt self d_step split_type cut fidx nidx evaluator parent imin) tr with
          | none => rfl
          | some os => simp [finish, lastSums, List.foldl_append]

/-! ## The strictly-greater update rule over a sequence of candidates -/

theorem firstMax_nil {α : Type} (key : α → K) (a : α) : firstMax key a [] = a := rfl

theorem firstMax_cons {α : Type} (key : α → K) (a x : α) (l : List α) :
    firstMax key a (x :: l) = firstMax key (pick key a x) l := rfl

theorem firstMax_append {α : Type} (key : α → K) (a : α) (l1 l2 : List α) :
    firstMax key a (l1 ++ l2) = firstMax key (firstMax key a l1) l2 := by
  simp [firstMax, List.foldl_append]

theorem key_pick {α : Type} (key : α → K) (b o : α) :
    key (pick key b o) = max (key b) (key o) := by
  unfold pick
  split
  · rename_i h; exact (max_eq_right (le_of_lt h)).symm
  · rename_i h; exact (max_eq_left (not_lt.mp h)).symm

theorem firstMax_mem {α : Type} (key : α → K) (a : α) (l : List α) :
    firstMax key a l = a ∨ firstMax key a l ∈ l := by
  induction l generalizing a with
  | nil => left; rfl
  | cons x l ih =>
    rw [firstMax_cons]
    rcases ih (pick key a x) with h | h
    · rw [h]; unfold pick; split
      · right; exact List.mem_cons_self _ _
      · left; rfl
    · right; exact List.mem_cons_of_mem _ h

theorem firstMax_ge_init {α : Type} (key : α → K) (a : α) (l : List α) :
    key a ≤ key (firstMax key a l) := by
  induction l generalizing a with
  | nil => exact le_refl _
  | cons x l ih =>
    rw [firstMax_cons]
    exact le_trans (by rw [key_pick key a x]; exact le_max_left _ _) (ih _)

theorem firstMax_ge_mem {α : Type} (key : α → K) (a : α) (l : List α) :
    ∀ o ∈ l, key o ≤ key (firstMax key a l) := by
  induction l generalizing a with
  | nil => intro o ho; cases ho
  | cons x l ih =>
    intro o ho
    rw [firstMax_cons]
    rcases List.mem_cons.mp ho with rfl | h
    · exact le_trans (by rw [key_pick key a o]; exact le_max_right _ _) (firstMax_ge_init key _ l)
    · exact ih _ o h

/-- Nothing in `l` beats `a`: the fold keeps `a`. -/
theorem firstMax_eq_init {α : Type} (key : α → K) (a : α) (l : List α)
    (h : ∀ o ∈ l, key o ≤ key a) : firstMax key a l = a := by
  induction l with
  | nil => rfl
  | cons x l ih =>
    rw [firstMax_cons]
    have hx : pick key a x = a := by
      unfold pick; rw [if_neg (not_lt.mpr (h x (List.mem_cons_self _ _)))]
    rw [hx]
    exact ih (fun o ho => h o (List.mem_cons_of_mem _ ho))

/-- The fold ends on the first element that attains the maximum, when that maximum beats
the initial record. -/
theorem firstMax_eq_first {α : Type} (key : α → K) (a c : α) (l1 l2 : List α)
    (ha : key a < key c) (h1 : ∀ o ∈ l1, key o < key c) (h2 : ∀ o ∈ l2, key o ≤ key c) :
    firstMax key a (l1 ++ c :: l2) = c := by
  rw [firstMax_append, firstMax_cons]
  have hb : key (firstMax key a l1) < key c := by
    rcases firstMax_mem key a l1 with h | h
    · rw [h]; exact ha
    · exact h1 _ h
  have hp : pick key (firstMax key a l1) c = c := by unfold pick; rw [if_pos hb]
  rw [hp]
  exact firstMax_eq_init key c l2 h2

/-- Merging a block result into a record that is at least as good as the record the block
started from is the same as running the block from that record. -/
theorem pick_firstMax {α : Type} (key : α → K) (l : List α) :
    ∀ a b : α, key a ≤ key b → pick key b (firstMax key a l) = firstMax key b l := by
  induction l with
  | nil =>
    intro a b hab
    simp only [firstMax_nil]
    unfold pick; rw [if_neg (not_lt.mpr hab)]
  | cons x l ih =>
    intro a b hab
    rw [firstMax_cons, firstMax_cons]
    by_cases hx : key b < key x
    · have hax : key a < key x := lt_of_le_of_lt hab hx
      have e1 : pick key a x = x := by unfold pick; rw [if_pos hax]
      have e2 : pick key b x = x := by unfold pick; rw [if_pos hx]
      rw [e1, e2]
      unfold pick
      rw [if_pos (lt_of_lt_of_le hx (firstMax_ge_init key x l))]
    · have e2 : pick key b x = b := by unfold pick; rw [if_neg hx]
      rw [e2]
      apply ih
      rw [key_pick key a x]
      exact max_le hab (not_lt.mp hx)

/-! ## `EnumerateSplit` in closed form -/

theorem offerStep_eq_pick (tb o : Int × SplitEntry K) (h : tb.2.cat_bits = o.2.cat_bits) :
    offerStep tb o = pick offerKey tb o := by
  obtain ⟨t, b⟩ := tb
  obtain ⟨i, c⟩ := o
  cases b; cases c
  simp only at h
  subst h
  simp only [offerStep, SplitEntry.UpdateWith, SplitEntry.NeedReplace, pick, offerKey]
  split <;> rename_i hlt
  · rw [if_pos (of_decide_eq_true hlt)]; rfl
  · rw [if_neg (fun hc => hlt (decide_eq_true hc))]; rfl

theorem foldl_offerStep_eq_firstMax (offs : List (Int × SplitEntry K)) :
    ∀ tb : Int × SplitEntry K, tb.2.cat_bits = [] → (∀ o ∈ offs, o.2.cat_bits = []) →
      offs.foldl offerStep tb = firstMax offerKey tb offs := by
  induction offs with
  | nil => intro tb _ _; rfl
  | cons o offs ih =>
    intro tb htb h
    have ho := h o (List.mem_cons_self _ _)
    rw [List.foldl_cons, firstMax_cons, offerStep_eq_pick tb o (by rw [htb, ho])]
    apply ih
    · unfold pick; split <;> assumption
    · exact fun x hx => h x (List.mem_cons_of_mem _ hx)

/-- Every offer of a scan comes from a visited position. -/
theorem offersOf_mem {α β : Type} (offer : α → Option (Option β)) :
    ∀ (tr : List α) (offs : List β),
      offersOf offer tr = some offs → ∀ o ∈ offs, ∃ t ∈ tr, offer t = some (some o) := by
  intro tr
  induction tr with
  | nil =>
    intro offs h o ho
    simp only [offersOf, Option.some.injEq] at h
    subst h; cases ho
  | cons t tr ih =>
    intro offs h o ho
    simp only [offersOf] at h
    cases hot : offer t with
    | none => rw [hot] at h; cases h
    | some x =>
      rw [hot] at h
      cases hos : offersOf offer tr with
      | none => rw [hos] at h; cases h
      | some os =>
        rw [hos] at h
        simp only [Option.some.injEq] at h
        subst h
        rcases List.mem_append.mp ho with h1 | h1
        · refine ⟨t, List.mem_cons_self _ _, ?_⟩
          cases x with
          | none => cases h1
          | some y =>
            simp only [Option.toList, List.mem_singleton] at h1
            rw [hot, h1]
        · obtain ⟨t1, ht1, e⟩ := ih os hos o h1
          exact ⟨t1, List.mem_cons_of_mem _ ht1, e⟩

/-- No visited position passes the offer test: there is no offer. -/
theorem offersOf_eq_nil {α β : Type} (offer : α → Option (Option β)) :
    ∀ (tr : List α), (∀ t ∈ tr, offer t = some none) → offersOf offer tr = some [] := by
  intro tr
  induction tr with
  | nil => intro _; rfl
  | cons t tr ih =>
    intro h
    simp only [offersOf, h t (List.mem_cons_self _ _),
      ih (fun x hx => h x (List.mem_cons_of_mem _ hx))]
    rfl

/-- What an offer records, read off `offerAt`. -/
theorem offerAt_some (self : HistEvaluator K) (d_step : Int) (split_type : SplitType)
    (cut : HistogramCuts K) (fidx nidx : Nat) (evaluator : SplitEvaluator K) (parent : NodeEntry K) (imin : Int)
    (t : Int × GradStats K × GradStats K) (o : Int × SplitEntry K)
    (h : offerAt self d_step split_type cut fidx nidx evaluator parent imin t = some (some o)) :
    eligible self t.2.1 t.2.2 ∧ o.1 = t.1 ∧ o.2.cat_bits = [] ∧ o.2.sindex = fidx ∧
      o.2.default_left = decide (d_step = -1) ∧
      o.2.is_cat = decide (split_type ≠ SplitType.kNum) ∧
      ((0 < d_step ∧ o.2.left_sum = t.2.1 ∧ o.2.right_sum = t.2.2 ∧
          getI cut.Values t.1 = some o.2.split_value) ∨
        (¬ 0 < d_step ∧ o.2.left_sum = t.2.2 ∧ o.2.right_sum = t.2.1 ∧
          backward_split_pt cut split_type fidx imin t.1 = some o.2.split_value)) ∧
      o.2.loss_chg = self.static_cast_float
        (evaluator.CalcSplitGain self.param_ nidx fidx o.2.left_sum o.2.right_sum
          - parent.root_gain) := by
  unfold offerAt at h
  split at h
  · rename_i he
    split at h
    · rename_i hd
      split at h
      · cases h
      · rename_i pt hpt
        simp only [Option.some.injEq] at h
        subst h
        simp [he, hd, hpt]
    · rename_i hd
      split at h
      · cases h
      · rename_i pt hpt
        simp only [Option.some.injEq] at h
        subst h
        simp [he, hd, hpt]
  · cases h

theorem toInt32_of_le {n : Nat} (h : (n : Int) ≤ INT32_MAX) : toInt32 n = n := by
  unfold INT32_MAX at h
  unfold toInt32
  have h1 : n % 4294967296 = n := Nat.mod_eq_of_lt (by omega)
  rw [h1, if_pos (by omega)]

theorem subU32_of_le {a b : Nat} (hab : b ≤ a) (h : (a : Int) ≤ INT32_MAX) :
    subU32 a b = a - b := by
  unfold INT32_MAX at h
  unfold subU32
  omega

/-- A call that returns was made on a well formed bin range. -/
theorem EnumerateSplit_wf [FloorRing K] (self : HistEvaluator K) (d_step : Int)
    (split_type : SplitType) (cut : HistogramCuts K) (sorted_idx : List Nat)
    (hist : List (GradStats K)) (fidx nidx : Nat) (evaluator : SplitEvaluator K) (p_best : SplitEntry K)
    (r : SplitEntry K × GradStats K)
    (h : EnumerateSplit self d_step split_type cut sorted_idx hist fidx nidx evaluator p_best = some r) :
    ∃ (parent : NodeEntry K) (p0 p1 : Nat), (d_step = 1 ∨ d_step = -1) ∧
      self.snode_[nidx]? = some parent ∧ cut.Ptrs[fidx]? = some p0 ∧
      cut.Ptrs[fidx + 1]? = some p1 ∧ p0 ≤ p1 ∧ p1 ≤ hist.length ∧ (p1 : Int) ≤ INT32_MAX := by
  unfold EnumerateSplit at h
  by_cases hd : d_step ≠ 1 ∧ d_step ≠ -1
  · rw [if_pos hd] at h; cases h
  rw [if_neg hd] at h
  cases hpar : self.snode_[nidx]? with
  | none => simp [hpar] at h
  | some parent =>
    cases hp1 : cut.Ptrs[fidx + 1]? with
    | none => simp [hpar, hp1] at h
    | some p1 =>
      cases hp0 : cut.Ptrs[fidx]? with
      | none => simp [hpar, hp1, hp0] at h
      | some p0 =>
        simp only [hpar, hp1, hp0] at h
        cases hsub : subspan hist p0 (toInt32 (subU32 p1 p0)) with
        | none => simp [hsub] at h
        | some f_hist =>
          simp only [hsub] at h
          by_cases hchk : (p0 : Int) ≤ INT32_MAX ∧ (p1 : Int) ≤ INT32_MAX
          · refine ⟨parent, p0, p1, by omega, rfl, rfl, rfl, ?_⟩
            unfold subspan at hsub
            split at hsub
            · rename_i hc
              have h01 : p0 ≤ p1 := by
                by_contra hlt
                have h2 := hc.1
                have h3 := hchk.1
                have h4 := hchk.2
                unfold INT32_MAX at h3 h4
                unfold toInt32 subU32 at h2
                split at h2 <;> omega
              rw [subU32_of_le h01 hchk.2, toInt32_of_le (by have := hchk.2; omega)] at hc
              refine ⟨h01, ?_, hchk.2⟩
              have := hc.2
              omega
            · cases hsub
          · rw [if_pos hchk] at h; cases h

/-- On a well formed bin range `[p0, p1)` of the feature, `EnumerateSplit` is: the child sums
along the positions, the offers of the eligible ones folded with the update rule, the
category bits, and one update of the caller's record. -/
theorem EnumerateSplit_eq [FloorRing K] (self : HistEvaluator K) (d_step : Int)
    (split_type : SplitType) (cut : HistogramCuts K) (sorted_idx : List Nat)
    (hist : List (GradStats K)) (fidx nidx : Nat) (evaluator : SplitEvaluator K) (p_best : SplitEntry K)
    (parent : NodeEntry K) (p0 p1 : Nat) (hd : d_step = 1 ∨ d_step = -1)
    (hpar : self.snode_[nidx]? = some parent) (hp0 : cut.Ptrs[fidx]? = some p0)
    (hp1 : cut.Ptrs[fidx + 1]? = some p1) (h01 : p0 ≤ p1) (hlen : p1 ≤ hist.length)
    (hmax : (p1 : Int) ≤ INT32_MAX) :
    EnumerateSplit self d_step split_type cut sorted_idx hist fidx nidx evaluator p_best =
      match callTrace d_step split_type sorted_idx hist parent p0 p1 with
      | none => none
      | some tr =>
        match offersOf (offerAt self d_step split_type cut fidx nidx evaluator parent (p0 : Int)) tr with
        | none => none
        | some offs =>
          match fillCatBits d_step split_type cut sorted_idx p0 ((p1 - p0 : Nat) : Int)
              (scanBegin d_step p0 p1) (finish scanInit tr offs) with
          | none => none
          | some best => some (p_best.Update best, returned split_type (finish scanInit tr offs)) := by
  have hmax0 : (p0 : Int) ≤ INT32_MAX := le_trans (by exact_mod_cast h01) hmax
  have e1 : toInt32 (subU32 p1 p0) = ((p1 - p0 : Nat) : Int) := by
    rw [subU32_of_le h01 hmax]
    exact toInt32_of_le (le_trans (by exact_mod_cast Nat.sub_le p1 p0) hmax)
  have hsub : subspan hist p0 ((p1 - p0 : Nat) : Int) = some ((hist.drop p0).take (p1 - p0)) := by
    unfold subspan
    rw [if_pos ⟨by omega, by simp only [Int.toNat_ofNat]; omega⟩]
    simp
  unfold EnumerateSplit
  rw [if_neg (by omega)]
  simp only [hpar, hp1, hp0, e1, hsub, toInt32_of_le hmax, toInt32_of_le hmax0]
  rw [if_neg (not_not.mpr ⟨hmax0, hmax⟩)]
  have hloop := scanLoop_eq_runBody d_step (if 0 < d_step then (p1 : Int) else (p0 : Int) - 1)
    (scanBody self d_step split_type cut sorted_idx hist ((hist.drop p0).take (p1 - p0)) fidx
      nidx evaluator parent (p0 : Int) (if 0 < d_step then (p0 : Int) else (p1 : Int) - 1)) hd (p1 - p0)
    4294967296 (if 0 < d_step then (p0 : Int) else (p1 : Int) - 1) scanInit
    (by unfold INT32_MAX at hmax; omega)
    (by rcases hd with rfl | rfl <;> simp <;> omega)
    (by unfold INT32_MIN; rcases hd with rfl | rfl <;> simp <;> omega)
    (by unfold INT32_MAX at *; rcases hd with rfl | rfl <;> simp <;> omega)
    (by unfold INT32_MIN; rcases hd with rfl | rfl <;> simp <;> omega)
    (by unfold INT32_MAX at *; rcases hd with rfl | rfl <;> simp <;> omega)
  rw [hloop, runBody_scanBody]
  unfold callTrace scanBegin
  have hl : (scanInit : ScanState K).left_sum = GradStats.zero := rfl
  have hr : (scanInit : ScanState K).right_sum = GradStats.zero := rfl
  rw [hl, hr]
  cases sumsTrace (calc_bin_value d_step split_type hist ((hist.drop p0).take (p1 - p0))
      sorted_idx parent (if 0 < d_step then (p0 : Int) else (p1 : Int) - 1))
      (positions d_step (if 0 < d_step then (p0 : Int) else (p1 : Int) - 1) (p1 - p0))
      GradStats.zero GradStats.zero with
  | none => rfl
  | some tr =>
    simp only []
    cases offersOf (offerAt self d_step split_type cut fidx nidx evaluator parent (p0 : Int)) tr with
    | none => rfl
    | some offs =>
      simp only []
      cases fillCatBits d_step split_type cut sorted_idx p0 ((p1 - p0 : Nat) : Int)
          (if 0 < d_step then (p0 : Int) else (p1 : Int) - 1) (finish scanInit tr offs) with
      | none => rfl
      | some best => cases split_type <;> rfl

theorem fillCatBits_sameSplit [FloorRing K] (d_step : Int) (split_type : SplitType)
    (cut : HistogramCuts K) (sorted_idx : List Nat) (p0 : Nat) (n_bins ibegin : Int)
    (s : ScanState K) (best : SplitEntry K)
    (h : fillCatBits d_step split_type cut sorted_idx p0 n_bins ibegin s = some best) :
    sameSplit best s.best := by
  unfold fillCatBits at h
  split at h
  · simp only at h
    split at h
    · cases h
    · simp only [Option.some.injEq] at h
      subst h
      exact ⟨rfl, rfl, rfl, rfl, rfl, rfl, rfl⟩
  · simp only [Option.some.injEq] at h
    subst h
    exact ⟨rfl, rfl, rfl, rfl, rfl, rfl, rfl⟩

theorem fillCatBits_of_no_thresh [FloorRing K] (d_step : Int) (split_type : SplitType)
    (cut : HistogramCuts K) (sorted_idx : List Nat) (p0 : Nat) (n_bins ibegin : Int)
    (s : ScanState K) (h : split_type ≠ SplitType.kPart ∨ s.best_thresh = -1) :
    fillCatBits d_step split_type cut sorted_idx p0 n_bins ibegin s = some s.best := by
  unfold fillCatBits
  rw [if_neg]
  rintro ⟨h1, h2⟩
  rcases h with h | h
  · exact h h1
  · exact h2 h

/-- The local best and `best_thresh` at the end of the loop: the first offer of maximal
gain when that gain is positive, the default constructed record otherwise. -/
theorem finish_best (self : HistEvaluator K) (d_step : Int) (split_type : SplitType)
    (cut : HistogramCuts K) (fidx nidx : Nat) (evaluator : SplitEvaluator K) (parent : NodeEntry K) (imin : Int)
    (tr : List (Int × GradStats K × GradStats K)) (offs : List (Int × SplitEntry K))
    (h : offersOf (offerAt self d_step split_type cut fidx nidx evaluator parent imin) tr = some offs) :
    ((finish scanInit tr offs).best_thresh, (finish scanInit tr offs).best) =
      firstMax offerKey ((-1 : Int), (SplitEntry.fresh : SplitEntry K)) offs := by
  have hc : ∀ o ∈ offs, o.2.cat_bits = [] := by
    intro o ho
    obtain ⟨t, _, ht⟩ := offersOf_mem _ tr offs h o ho
    exact (offerAt_some self d_step split_type cut fidx nidx evaluator parent imin t o ht).2.2.1
  have := foldl_offerStep_eq_firstMax offs ((-1 : Int), (SplitEntry.fresh : SplitEntry K)) rfl hc
  simp only [finish, scanInit]
  rw [this]

/-- A call that returns, taken apart: the bin range, the child sums at the visited
positions, the offers, the local best with its category bits, the update. -/
theorem EnumerateSplit_some [FloorRing K] (self : HistEvaluator K) (d_step : Int)
    (split_type : SplitType) (cut : HistogramCuts K) (sorted_idx : List Nat)
    (hist : List (GradStats K)) (fidx nidx : Nat) (evaluator : SplitEvaluator K) (p_best : SplitEntry K)
    (r : SplitEntry K × GradStats K)
    (h : EnumerateSplit self d_step split_type cut sorted_idx hist fidx nidx evaluator p_best = some r) :
    ∃ (parent : NodeEntry K) (p0 p1 : Nat) (tr : List (Int × GradStats K × GradStats K))
      (offs : List (Int × SplitEntry K)) (best : SplitEntry K),
      (d_step = 1 ∨ d_step = -1) ∧
      self.snode_[nidx]? = some parent ∧ cut.Ptrs[fidx]? = some p0 ∧
      cut.Ptrs[fidx + 1]? = some p1 ∧ p0 ≤ p1 ∧ p1 ≤ hist.length ∧ (p1 : Int) ≤ INT32_MAX ∧
      callTrace d_step split_type sorted_idx hist parent p0 p1 = some tr ∧
      offersOf (offerAt self d_step split_type cut fidx nidx evaluator parent (p0 : Int)) tr = some offs ∧
      fillCatBits d_step split_type cut sorted_idx p0 ((p1 - p0 : Nat) : Int)
        (scanBegin d_step p0 p1) (finish scanInit tr offs) = some best ∧
      r = (p_best.Update best, returned split_type (finish scanInit tr offs)) := by
  obtain ⟨parent, p0, p1, hd, hpar, hp0, hp1, h01, hlen, hmax⟩ :=
    EnumerateSplit_wf self d_step split_type cut sorted_idx hist fidx nidx evaluator p_best r h
  rw [EnumerateSplit_eq self d_step split_type cut sorted_idx hist fidx nidx evaluator p_best parent p0 p1
    hd hpar hp0 hp1 h01 hlen hmax] at h
  cases htr : callTrace d_step split_type sorted_idx hist parent p0 p1 with
  | none => simp [htr] at h
  | some tr =>
    simp only [htr] at h
    cases hoffs : offersOf (offerAt self d_step split_type cut fidx nidx evaluator parent (p0 : Int)) tr with
    | none => simp [hoffs] at h
    | some offs =>
      simp only [hoffs] at h
      cases hb : fillCatBits d_step split_type cut sorted_idx p0 ((p1 - p0 : Nat) : Int)
          (scanBegin d_step p0 p1) (finish scanInit tr offs) with
      | none => simp [hb] at h
      | some best =>
        simp only [hb, Option.some.injEq] at h
        exact ⟨parent, p0, p1, tr, offs, best, hd, hpar, hp0, hp1, h01, hlen, hmax, htr, hoffs,
          hb, h.symm⟩

/-! ## Facts about the child sums -/

theorem sumsTrace_mem {γ : Type} (cbv : Int → γ → γ → Option (γ × γ)) :
    ∀ (is : List Int) (l r : γ) (tr : List (Int × γ × γ)),
      sumsTrace cbv is l r = some tr →
        ∀ t ∈ tr, t.1 ∈ is ∧ ∃ l0 r0, cbv t.1 l0 r0 = some (t.2.1, t.2.2) := by
  intro is
  induction is with
  | nil =>
    intro l r tr h t ht
    simp only [sumsTrace, Option.some.injEq] at h
    subst h; cases ht
  | cons i is ih =>
    intro l r tr h t ht
    simp only [sumsTrace] at h
    cases hc : cbv i l r with
    | none => rw [hc] at h; cases h
    | some lr =>
      rw [hc] at h
      simp only at h
      cases hs : sumsTrace cbv is lr.1 lr.2 with
      | none => rw [hs] at h; cases h
      | some tr1 =>
        rw [hs] at h
        simp only [Option.some.injEq] at h
        subst h
        rcases List.mem_cons.mp ht with rfl | h1
        · exact ⟨List.mem_cons_self _ _, l, r, hc⟩
        · obtain ⟨hm, hx⟩ := ih lr.1 lr.2 tr1 hs t h1
          exact ⟨List.mem_cons_of_mem _ hm, hx⟩

theorem sumsTrace_map_fst {γ : Type} (cbv : Int → γ → γ → Option (γ × γ)) :
    ∀ (is : List Int) (l r : γ) (tr : List (Int × γ × γ)),
      sumsTrace cbv is l r = some tr → tr.map Prod.fst = is := by
  intro is
  induction is with
  | nil =>
    intro l r tr h
    simp only [sumsTrace, Option.some.injEq] at h
    subst h; rfl
  | cons i is ih =>
    intro l r tr h
    simp only [sumsTrace] at h
    cases hc : cbv i l r with
    | none => rw [hc] at h; cases h
    | some lr =>
      rw [hc] at h
      simp only at h
      cases hs : sumsTrace cbv is lr.1 lr.2 with
      | none => rw [hs] at h; cases h
      | some tr1 =>
        rw [hs] at h
        simp only [Option.some.injEq] at h
        subst h
        simp [ih lr.1 lr.2 tr1 hs]

theorem GradStats.add_setSubstract (p x : GradStats K) :
    GradStats.AddStats (GradStats.SetSubstract p x) x = p := by
  cases p; cases x; simp [GradStats.AddStats, GradStats.SetSubstract]

theorem GradStats.add_setSubstract_right (p x : GradStats K) :
    GradStats.AddStats x (GradStats.SetSubstract p x) = p := by
  cases p; cases x; simp [GradStats.AddStats, GradStats.SetSubstract]

theorem GradStats.AddStats_comm (a b : GradStats K) :
    GradStats.AddStats a b = GradStats.AddStats b a := by
  cases a; cases b; simp [GradStats.AddStats, add_comm]

/-- In every strategy `calc_bin_value` leaves two child sums that add up to the parent. -/
theorem calc_bin_value_sum (d_step : Int) (split_type : SplitType)
    (hist f_hist : List (GradStats K)) (sorted_idx : List Nat) (parent : NodeEntry K)
    (ibegin i : Int) (l r : GradStats K) (lr : GradStats K × GradStats K)
    (h : calc_bin_value d_step split_type hist f_hist sorted_idx parent ibegin i l r = some lr) :
    GradStats.AddStats lr.1 lr.2 = parent.stats := by
  unfold calc_bin_value at h
  cases split_type with
  | kNum =>
    simp only at h
    cases hg : getI hist i with
    | none => rw [hg] at h; cases h
    | some x =>
      rw [hg] at h
      simp only [Option.some.injEq] at h
      subst h
      exact GradStats.add_setSubstract_right _ _
  | kOneHot =>
    simp only at h
    cases hg : getI hist i with
    | none => rw [hg] at h; cases h
    | some x =>
      rw [hg] at h
      simp only [Option.some.injEq] at h
      subst h
      exact GradStats.add_setSubstract _ _
  | kPart =>
    simp only at h
    cases hg : getI sorted_idx (if d_step = 1 then i - ibegin else ibegin - i) with
    | none => rw [hg] at h; cases h
    | some c =>
      rw [hg] at h
      simp only at h
      cases hf : f_hist[c]? with
      | none => rw [hf] at h; cases h
      | some x =>
        rw [hf] at h
        simp only [Option.some.injEq] at h
        subst h
        exact GradStats.add_setSubstract _ _

/-- The local best of a returning call: the default record, or an offer made at a visited
position. -/
theorem finish_best_cases (self : HistEvaluator K) (d_step : Int) (split_type : SplitType)
    (cut : HistogramCuts K) (fidx nidx : Nat) (evaluator : SplitEvaluator K) (parent : NodeEntry K) (imin : Int)
    (tr : List (Int × GradStats K × GradStats K)) (offs : List (Int × SplitEntry K))
    (h : offersOf (offerAt self d_step split_type cut fidx nidx evaluator parent imin) tr = some offs) :
    ((finish scanInit tr offs).best_thresh = -1 ∧
        (finish scanInit tr offs).best = SplitEntry.fresh) ∨
      ∃ o ∈ offs, ∃ t ∈ tr, (finish scanInit tr offs).best_thresh = o.1 ∧
        (finish scanInit tr offs).best = o.2 ∧
        offerAt self d_step split_type cut fidx nidx evaluator parent imin t = some (some o) := by
  have hb := finish_best self d_step split_type cut fidx nidx evaluator parent imin tr offs h
  rcases firstMax_mem offerKey ((-1 : Int), (SplitEntry.fresh : SplitEntry K)) offs with hm | hm
  · left
    rw [hm] at hb
    exact ⟨congrArg Prod.fst hb, congrArg Prod.snd hb⟩
  · right
    obtain ⟨t, ht, hot⟩ := offersOf_mem _ tr offs h _ hm
    exact ⟨_, hm, t, ht, congrArg Prod.fst hb, congrArg Prod.snd hb, hot⟩

/-- The caller's record after a returning call: the record before, the default record, or
an offer made at a visited position (up to the category bits). -/
theorem EnumerateSplit_record [FloorRing K] (self : HistEvaluator K) (d_step : Int)
    (split_type : SplitType) (cut : HistogramCuts K) (sorted_idx : List Nat)
    (hist : List (GradStats K)) (fidx nidx : Nat) (evaluator : SplitEvaluator K) (p_best p1 : SplitEntry K)
    (ret : GradStats K) (parent : NodeEntry K) (hpar : self.snode_[nidx]? = some parent)
    (h : EnumerateSplit self d_step split_type cut sorted_idx hist fidx nidx evaluator p_best =
      some (p1, ret)) :
    p1 = p_best ∨ p1 = SplitEntry.fresh ∨
      ∃ (o : Int × SplitEntry K) (t : Int × GradStats K × GradStats K) (imin : Int),
        sameSplit p1 o.2 ∧ GradStats.AddStats t.2.1 t.2.2 = parent.stats ∧
        offerAt self d_step split_type cut fidx nidx evaluator parent imin t = some (some o) := by
  obtain ⟨parent1, p0, q1, tr, offs, best, hd, hpar1, hp0, hp1, h01, hlen, hmax, htr, hoffs,
    hfill, hr⟩ := EnumerateSplit_some self d_step split_type cut sorted_idx hist fidx nidx evaluator p_best
      _ h
  have hpp : parent1 = parent := by
    rw [hpar] at hpar1; exact (Option.some.inj hpar1).symm
  subst hpp
  have hp : p1 = p_best.Update best := congrArg Prod.fst hr
  have hu : p_best.Update best = p_best ∨ p_best.Update best = best := by
    unfold SplitEntry.Update; split
    · right; rfl
    · left; rfl
  rcases hu with hu | hu
  · left; rw [hp, hu]
  · right
    rw [hu] at hp
    subst hp
    rcases finish_best_cases self d_step split_type cut fidx nidx evaluator parent1 (p0 : Int) tr offs hoffs
      with ⟨ht, hb⟩ | ⟨o, _, t, htm, _, hb, hot⟩
    · left
      rw [fillCatBits_of_no_thresh _ _ _ _ _ _ _ _ (Or.inr ht), hb] at hfill
      exact (Option.some.inj hfill).symm
    · right
      refine ⟨o, t, (p0 : Int), ?_, ?_, hot⟩
      · have := fillCatBits_sameSplit _ _ _ _ _ _ _ _ _ hfill
        rw [hb] at this
        exact this
      · obtain ⟨_, l0, r0, hc⟩ := sumsTrace_mem _ _ _ _ _ htr t htm
        exact calc_bin_value_sum _ _ _ _ _ _ _ _ _ _ _ hc

/-! ## The numeric scan: visited bins and returned sum -/

theorem positions_succ_snoc (d i : Int) (n : Nat) :
    positions d i (n + 1) = positions d i n ++ [i + d * n] := by
  induction n generalizing i with
  | zero => simp [positions]
  | succ n ih =>
    rw [positions, ih (i + d)]
    simp only [positions, List.cons_append, List.cons.injEq, true_and]
    congr 2
    push_cast; ring

theorem positions_forward (p0 n : Nat) :
    positions 1 (p0 : Int) n = (List.range' p0 n).map Int.ofNat := by
  induction n generalizing p0 with
  | zero => rfl
  | succ n ih =>
    simp only [positions, List.range'_succ, List.map_cons]
    have := ih (p0 + 1)
    push_cast at this
    rw [this]
    rfl

theorem positions_backward (p0 n : Nat) :
    positions (-1) ((p0 : Int) + n - 1) n = ((List.range' p0 n).map Int.ofNat).reverse := by
  induction n with
  | zero => rfl
  | succ n ih =>
    rw [← positions_forward, positions_succ_snoc 1, List.reverse_append, positions_forward,
      ← ih]
    simp only [positions, List.reverse_cons, List.reverse_nil, List.nil_append,
      List.singleton_append, List.cons.injEq]
    constructor
    · push_cast; ring
    · congr 1
      push_cast; ring

theorem getI_natCast {α : Type} (xs : List α) (k : Nat) : getI xs (k : Int) = xs[k]? := by
  unfold getI
  rw [if_pos (Int.natCast_nonneg k)]
  simp

theorem getI_isSome {α : Type} (xs : List α) (i : Int) (h0 : 0 ≤ i) (h1 : i < xs.length) :
    ∃ x, getI xs i = some x := by
  obtain ⟨k, rfl⟩ := Int.eq_ofNat_of_zero_le h0
  rw [getI_natCast]
  have hk : k < xs.length := by exact_mod_cast h1
  exact ⟨xs[k], List.getElem?_eq_getElem hk⟩

theorem range'_map_getD {α β : Type} (f : α → β) (d : α) (xs : List α) :
    ∀ (n p0 : Nat), p0 + n ≤ xs.length →
      (List.range' p0 n).map (fun k => f (xs.getD k d)) = ((xs.drop p0).take n).map f := by
  intro n
  induction n with
  | zero => intro p0 _; simp
  | succ n ih =>
    intro p0 h
    have hp : p0 < xs.length := by omega
    rw [List.range'_succ, List.map_cons, ih (p0 + 1) (by omega), List.drop_eq_getElem_cons hp,
      List.take_succ_cons, List.map_cons]
    congr 2
    simp [List.getD_eq_getElem?_getD, List.getElem?_eq_getElem hp]

theorem sumsTrace_isSome {γ : Type} (cbv : Int → γ → γ → Option (γ × γ)) :
    ∀ (is : List Int), (∀ i ∈ is, ∀ l r, ∃ lr, cbv i l r = some lr) →
      ∀ l r, ∃ tr, sumsTrace cbv is l r = some tr := by
  intro is
  induction is with
  | nil => intro _ l r; exact ⟨[], rfl⟩
  | cons i is ih =>
    intro h l r
    obtain ⟨lr, hlr⟩ := h i (List.mem_cons_self _ _) l r
    obtain ⟨tr, htr⟩ := ih (fun j hj => h j (List.mem_cons_of_mem _ hj)) lr.1 lr.2
    exact ⟨(i, lr.1, lr.2) :: tr, by simp [sumsTrace, hlr, htr]⟩

theorem offersOf_isSome {α β : Type} (offer : α → Option (Option β)) :
    ∀ (tr : List α), (∀ t ∈ tr, ∃ o, offer t = some o) → ∃ offs, offersOf offer tr = some offs := by
  intro tr
  induction tr with
  | nil => intro _; exact ⟨[], rfl⟩
  | cons t tr ih =>
    intro h
    obtain ⟨o, ho⟩ := h t (List.mem_cons_self _ _)
    obtain ⟨os, hos⟩ := ih (fun x hx => h x (List.mem_cons_of_mem _ hx))
    exact ⟨o.toList ++ os, by simp [offersOf, ho, hos]⟩

/-- In the numeric scan `left_sum` ends as its start value plus the bins visited. -/
theorem numeric_lastSums (d_step : Int) (hist f_hist : List (GradStats K))
    (sorted_idx : List Nat) (parent : NodeEntry K) (ibegin : Int) :
    ∀ (is : List Int) (l r : GradStats K) (tr : List (Int × GradStats K × GradStats K)),
      sumsTrace (calc_bin_value d_step SplitType.kNum hist f_hist sorted_idx parent ibegin)
        is l r = some tr →
      (lastSums tr (l, r)).1.sum_grad =
          l.sum_grad + (is.map fun i => ((getI hist i).getD GradStats.zero).sum_grad).sum ∧
        (lastSums tr (l, r)).1.sum_hess =
          l.sum_hess + (is.map fun i => ((getI hist i).getD GradStats.zero).sum_hess).sum := by
  intro is
  induction is with
  | nil =>
    intro l r tr h
    simp only [sumsTrace, Option.some.injEq] at h
    subst h
    simp [lastSums]
  | cons i is ih =>
    intro l r tr h
    simp only [sumsTrace] at h
    cases hc : calc_bin_value d_step SplitType.kNum hist f_hist sorted_idx parent ibegin i l r with
    | none => rw [hc] at h; cases h
    | some lr =>
      rw [hc] at h
      simp only at h
      cases hs : sumsTrace (calc_bin_value d_step SplitType.kNum hist f_hist sorted_idx parent
          ibegin) is lr.1 lr.2 with
      | none => rw [hs] at h; cases h
      | some tr1 =>
        rw [hs] at h
        simp only [Option.some.injEq] at h
        subst h
        have := ih lr.1 lr.2 tr1 hs
        simp only [lastSums]
        rw [this.1, this.2]
        unfold calc_bin_value at hc
        simp only at hc
        cases hg : getI hist i with
        | none => rw [hg] at hc; cases hc
        | some x =>
          rw [hg] at hc
          simp only [Option.some.injEq] at hc
          subst hc
          simp [GradStats.Add, GradStats.GetGrad, GradStats.GetHess, add_assoc, hg]

theorem positions_scan (d_step : Int) (hd : d_step = 1 ∨ d_step = -1) (p0 p1 : Nat)
    (h01 : p0 ≤ p1) :
    positions d_step (scanBegin d_step p0 p1) (p1 - p0) =
      if d_step = 1 then (List.range' p0 (p1 - p0)).map Int.ofNat
      else ((List.range' p0 (p1 - p0)).map Int.ofNat).reverse := by
  rcases hd with rfl | rfl
  · have e : scanBegin 1 p0 p1 = (p0 : Int) := by unfold scanBegin; rw [if_pos (by decide)]
    rw [e, if_pos rfl, positions_forward]
  · have e : scanBegin (-1) p0 p1 = (p0 : Int) + ((p1 - p0 : Nat) : Int) - 1 := by
      unfold scanBegin; rw [if_neg (by decide)]
      push_cast [Nat.cast_sub h01]
      ring
    rw [e, if_neg (by decide), positions_backward]

theorem mem_positions_scan (d_step : Int) (hd : d_step = 1 ∨ d_step = -1) (p0 p1 : Nat)
    (h01 : p0 ≤ p1) (i : Int) (hi : i ∈ positions d_step (scanBegin d_step p0 p1) (p1 - p0)) :
    (p0 : Int) ≤ i ∧ i < (p1 : Int) := by
  rw [positions_scan d_step hd p0 p1 h01] at hi
  have : i ∈ (List.range' p0 (p1 - p0)).map Int.ofNat := by
    split at hi
    · exact hi
    · exact List.mem_reverse.mp hi
  obtain ⟨k, hk, rfl⟩ := List.mem_map.mp this
  rw [List.mem_range'_1] at hk
  constructor
  · show (p0 : Int) ≤ (k : Int)
    exact_mod_cast hk.1
  · have : k < p1 := by omega
    show (k : Int) < (p1 : Int)
    exact_mod_cast this

theorem positions_scan_sum (f : GradStats K → K) (hist : List (GradStats K)) (d_step : Int)
    (hd : d_step = 1 ∨ d_step = -1) (p0 p1 : Nat) (h01 : p0 ≤ p1) (hlen : p1 ≤ hist.length) :
    ((positions d_step (scanBegin d_step p0 p1) (p1 - p0)).map
        fun i => f ((getI hist i).getD GradStats.zero)).sum =
      (((hist.drop p0).take (p1 - p0)).map f).sum := by
  have key : ((List.range' p0 (p1 - p0)).map Int.ofNat).map
      (fun i => f ((getI hist i).getD GradStats.zero)) = ((hist.drop p0).take (p1 - p0)).map f := by
    rw [List.map_map, ← range'_map_getD f GradStats.zero hist (p1 - p0) p0 (by omega)]
    apply List.map_congr_left
    intro k _
    simp only [Function.comp, Int.ofNat_eq_coe, getI_natCast, List.getD_eq_getElem?_getD]
  rw [positions_scan d_step hd p0 p1 h01]
  split
  · rw [key]
  · rw [List.map_reverse, List.sum_reverse, key]

/-- The numeric scan returns, on a well formed bin range with readable thresholds, with
the sum of all bins of the feature, in either direction. -/
theorem EnumerateSplit_numeric_returns [FloorRing K] (self : HistEvaluator K) (d_step : Int)
    (cut : HistogramCuts K) (sorted_idx : List Nat) (hist : List (GradStats K))
    (fidx nidx : Nat) (evaluator : SplitEvaluator K) (p_best : SplitEntry K)
    (parent : NodeEntry K) (p0 p1 : Nat) (hd : d_step = 1 ∨ d_step = -1)
    (hpar : self.snode_[nidx]? = some parent) (hp0 : cut.Ptrs[fidx]? = some p0)
    (hp1 : cut.Ptrs[fidx + 1]? = some p1) (h01 : p0 ≤ p1) (hlen : p1 ≤ hist.length)
    (hval : p1 ≤ cut.Values.length) (hmin : fidx < cut.MinValues.length)
    (hmax : (p1 : Int) ≤ INT32_MAX) :
    ∃ b, EnumerateSplit self d_step SplitType.kNum cut sorted_idx hist fidx nidx evaluator p_best
      = some (b, binSum hist p0 p1) := by
  rw [EnumerateSplit_eq self d_step SplitType.kNum cut sorted_idx hist fidx nidx evaluator p_best
    parent p0 p1 hd hpar hp0 hp1 h01 hlen hmax]
  have hpos := mem_positions_scan d_step hd p0 p1 h01
  obtain ⟨tr, htr⟩ := sumsTrace_isSome
    (calc_bin_value d_step SplitType.kNum hist ((hist.drop p0).take (p1 - p0)) sorted_idx parent
      (scanBegin d_step p0 p1))
    (positions d_step (scanBegin d_step p0 p1) (p1 - p0))
    (by
      intro i hi l r
      obtain ⟨x, hx⟩ := getI_isSome hist i (by have := (hpos i hi).1; omega)
        (by have := (hpos i hi).2; omega)
      simp only [calc_bin_value, hx]
      exact ⟨_, rfl⟩)
    GradStats.zero GradStats.zero
  have htr1 : callTrace d_step SplitType.kNum sorted_idx hist parent p0 p1 = some tr := htr
  obtain ⟨offs, hoffs⟩ := offersOf_isSome
    (offerAt self d_step SplitType.kNum cut fidx nidx evaluator parent (p0 : Int)) tr
    (by
      intro t ht
      have hi := hpos t.1 (sumsTrace_mem _ _ _ _ _ htr t ht).1
      unfold offerAt
      split
      · split
        · obtain ⟨x, hx⟩ := getI_isSome cut.Values t.1 (by omega) (by omega)
          rw [hx]; exact ⟨_, rfl⟩
        · simp only [backward_split_pt]
          by_cases hne : t.1 = (p0 : Int)
          · rw [if_pos hne, List.getElem?_eq_getElem hmin]; exact ⟨_, rfl⟩
          · rw [if_neg hne]
            obtain ⟨x, hx⟩ := getI_isSome cut.Values (t.1 - 1) (by omega) (by omega)
            rw [hx]; exact ⟨_, rfl⟩
      · exact ⟨_, rfl⟩)
  rw [htr1]
  simp only [hoffs]
  rw [fillCatBits_of_no_thresh _ _ _ _ _ _ _ _ (Or.inl (by decide))]
  refine ⟨p_best.Update (finish scanInit tr offs).best, ?_⟩
  simp only [Option.some.injEq, Prod.mk.injEq, true_and]
  have hsum := numeric_lastSums d_step hist ((hist.drop p0).take (p1 - p0)) sorted_idx parent
    (scanBegin d_step p0 p1) _ _ _ _ htr
  rw [positions_scan_sum GradStats.sum_grad hist d_step hd p0 p1 h01 hlen,
    positions_scan_sum GradStats.sum_hess hist d_step hd p0 p1 h01 hlen] at hsum
  simp only [returned, finish, scanInit, binSum]
  cases hls : (lastSums tr ((GradStats.zero : GradStats K), (GradStats.zero : GradStats K))).1 with
  | mk g hh =>
    rw [hls] at hsum
    simp only [GradStats.zero, zero_add] at hsum
    rw [hsum.1, hsum.2]

/-! ## The numeric scan: child sums in closed form -/

theorem GradStats.eq_iff {α : Type} (a b : GradStats α) :
    a = b ↔ a.sum_grad = b.sum_grad ∧ a.sum_hess = b.sum_hess := by
  cases a; cases b; simp

/-- In the numeric scan, the child sums at the `k`-th visited position: `left_sum` is the
start value plus the bins visited so far, `right_sum` the parent minus it. -/
theorem numeric_trace_entry (d_step : Int) (hist f_hist : List (GradStats K))
    (sorted_idx : List Nat) (parent : NodeEntry K) (ibegin : Int) :
    ∀ (n : Nat) (b : Int) (l r : GradStats K) (tr : List (Int × GradStats K × GradStats K)),
      sumsTrace (calc_bin_value d_step SplitType.kNum hist f_hist sorted_idx parent ibegin)
        (positions d_step b n) l r = some tr →
      ∀ t ∈ tr, ∃ k : Nat, k < n ∧ t.1 = b + d_step * k ∧
        t.2.1.sum_grad = l.sum_grad +
          ((positions d_step b (k + 1)).map
            fun i => ((getI hist i).getD GradStats.zero).sum_grad).sum ∧
        t.2.1.sum_hess = l.sum_hess +
          ((positions d_step b (k + 1)).map
            fun i => ((getI hist i).getD GradStats.zero).sum_hess).sum ∧
        t.2.2 = GradStats.SetSubstract parent.stats t.2.1 := by
  intro n
  induction n with
  | zero =>
    intro b l r tr h t ht
    simp only [positions, sumsTrace, Option.some.injEq] at h
    subst h; cases ht
  | succ n ih =>
    intro b l r tr h t ht
    simp only [positions, sumsTrace] at h
    cases hc : calc_bin_value d_step SplitType.kNum hist f_hist sorted_idx parent ibegin b l r with
    | none => rw [hc] at h; cases h
    | some lr =>
      rw [hc] at h
      simp only at h
      cases hs : sumsTrace (calc_bin_value d_step SplitType.kNum hist f_hist sorted_idx parent
          ibegin) (positions d_step (b + d_step) n) lr.1 lr.2 with
      | none => rw [hs] at h; cases h
      | some tr1 =>
        rw [hs] at h
        simp only [Option.some.injEq] at h
        subst h
        unfold calc_bin_value at hc
        simp only at hc
        cases hg : getI hist b with
        | none => rw [hg] at hc; cases hc
        | some x =>
          rw [hg] at hc
          simp only [Option.some.injEq] at hc
          subst hc
          rcases List.mem_cons.mp ht with rfl | ht1
          · refine ⟨0, Nat.succ_pos n, by simp, ?_, ?_, rfl⟩
            · simp [positions, hg, GradStats.Add, GradStats.GetGrad]
            · simp [positions, hg, GradStats.Add, GradStats.GetHess]
          · obtain ⟨k, hk, h1, h2, h3, h4⟩ := ih (b + d_step) _ _ tr1 hs t ht1
            refine ⟨k + 1, Nat.succ_lt_succ hk, by rw [h1]; push_cast; ring, ?_, ?_, h4⟩
            · rw [h2]
              simp [positions, hg, GradStats.Add, GradStats.GetGrad, add_assoc]
            · rw [h3]
              simp [positions, hg, GradStats.Add, GradStats.GetHess, add_assoc]

theorem sumsTrace_has_position {γ : Type} (cbv : Int → γ → γ → Option (γ × γ))
    (is : List Int) (l r : γ) (tr : List (Int × γ × γ))
    (h : sumsTrace cbv is l r = some tr) (i : Int) (hi : i ∈ is) : ∃ t ∈ tr, t.1 = i := by
  have := sumsTrace_map_fst cbv is l r tr h
  rw [← this] at hi
  obtain ⟨t, ht, e⟩ := List.mem_map.mp hi
  exact ⟨t, ht, e⟩

theorem offersOf_complete {α β : Type} (offer : α → Option (Option β)) :
    ∀ (tr : List α) (offs : List β), offersOf offer tr = some offs →
      ∀ t ∈ tr, ∃ o, offer t = some o ∧ ∀ x, o = some x → x ∈ offs := by
  intro tr
  induction tr with
  | nil => intro offs _ t ht; cases ht
  | cons a tr ih =>
    intro offs h t ht
    simp only [offersOf] at h
    cases ha : offer a with
    | none => rw [ha] at h; cases h
    | some o =>
      rw [ha] at h
      cases hos : offersOf offer tr with
      | none => rw [hos] at h; cases h
      | some os =>
        rw [hos] at h
        simp only [Option.some.injEq] at h
        subst h
        rcases List.mem_cons.mp ht with rfl | ht1
        · refine ⟨o, ha, ?_⟩
          intro x hx
          subst hx
          simp
        · obtain ⟨o1, ho1, hx⟩ := ih os hos t ht1
          exact ⟨o1, ho1, fun x hx1 => List.mem_append_right _ (hx x hx1)⟩

theorem binSum_self (hist : List (GradStats K)) (m : Nat) : binSum hist m m = GradStats.zero := by
  simp [binSum, GradStats.zero]

/-- The bins `[p0, m)` and `[m, p1)` together are the bins `[p0, p1)`. -/
theorem binSum_split (hist : List (GradStats K)) (p0 m p1 : Nat) (h0 : p0 ≤ m) (h1 : m ≤ p1) :
    GradStats.AddStats (binSum hist p0 m) (binSum hist m p1) = binSum hist p0 p1 := by
  have e : p1 - p0 = (m - p0) + (p1 - m) := by omega
  have hd : List.drop (m - p0) (List.drop p0 hist) = List.drop m hist := by
    rw [List.drop_drop]
    congr 1
    omega
  simp only [binSum, GradStats.AddStats]
  rw [e, List.take_add, hd]
  simp [List.map_append, List.sum_append]

/-- Forward numeric scan: the child sums at each visited position. Position `m - 1` has
the bins `[p0, m)` on the left and the parent minus them on the right. -/
theorem numeric_forward_entry (sorted_idx : List Nat) (hist : List (GradStats K))
    (parent : NodeEntry K) (p0 p1 : Nat) (hlen : p1 ≤ hist.length)
    (tr : List (Int × GradStats K × GradStats K))
    (htr : callTrace 1 SplitType.kNum sorted_idx hist parent p0 p1 = some tr)
    (t : Int × GradStats K × GradStats K) (ht : t ∈ tr) :
    ∃ m : Nat, p0 < m ∧ m ≤ p1 ∧ t.1 = (m : Int) - 1 ∧ t.2.1 = binSum hist p0 m ∧
      t.2.2 = GradStats.SetSubstract parent.stats (binSum hist p0 m) := by
  unfold callTrace at htr
  have hb : scanBegin 1 p0 p1 = (p0 : Int) := by unfold scanBegin; rw [if_pos (by decide)]
  rw [hb] at htr
  obtain ⟨k, hk, h1, h2, h3, h4⟩ := numeric_trace_entry 1 hist _ sorted_idx parent _ _ _ _ _ tr
    htr t ht
  have hs : ∀ f : GradStats K → K,
      ((positions 1 (p0 : Int) (k + 1)).map
        fun i => f ((getI hist i).getD GradStats.zero)).sum =
      (((hist.drop p0).take (p0 + k + 1 - p0)).map f).sum := by
    intro f
    have := positions_scan_sum f hist 1 (Or.inl rfl) p0 (p0 + k + 1) (by omega) (by omega)
    have hb1 : scanBegin 1 p0 (p0 + k + 1) = (p0 : Int) := by
      unfold scanBegin; rw [if_pos (by decide)]
    rw [hb1] at this
    have e : p0 + k + 1 - p0 = k + 1 := by omega
    rw [e] at this ⊢
    exact this
  have hl : t.2.1 = binSum hist p0 (p0 + k + 1) := by
    rw [GradStats.eq_iff]
    constructor
    · rw [h2, hs GradStats.sum_grad]; simp [binSum, GradStats.zero]
    · rw [h3, hs GradStats.sum_hess]; simp [binSum, GradStats.zero]
  exact ⟨p0 + k + 1, by omega, by omega, by rw [h1]; push_cast; ring, hl, by rw [h4, hl]⟩

/-- Backward numeric scan: the child sums at each visited position. Position `m` has the
bins `[m, p1)` in `left_sum` and the parent minus them in `right_sum`. -/
theorem numeric_backward_entry (sorted_idx : List Nat) (hist : List (GradStats K))
    (parent : NodeEntry K) (p0 p1 : Nat) (hlen : p1 ≤ hist.length)
    (tr : List (Int × GradStats K × GradStats K))
    (htr : callTrace (-1) SplitType.kNum sorted_idx hist parent p0 p1 = some tr)
    (t : Int × GradStats K × GradStats K) (ht : t ∈ tr) :
    ∃ m : Nat, p0 ≤ m ∧ m < p1 ∧ t.1 = (m : Int) ∧ t.2.1 = binSum hist m p1 ∧
      t.2.2 = GradStats.SetSubstract parent.stats (binSum hist m p1) := by
  unfold callTrace at htr
  have hb : scanBegin (-1) p0 p1 = (p1 : Int) - 1 := by
    unfold scanBegin; rw [if_neg (by decide)]
  rw [hb] at htr
  obtain ⟨k, hk, h1, h2, h3, h4⟩ := numeric_trace_entry (-1) hist _ sorted_idx parent _ _ _ _ _
    tr htr t ht
  have hs : ∀ f : GradStats K → K,
      ((positions (-1) ((p1 : Int) - 1) (k + 1)).map
        fun i => f ((getI hist i).getD GradStats.zero)).sum =
      (((hist.drop (p1 - 1 - k)).take (p1 - (p1 - 1 - k))).map f).sum := by
    intro f
    have := positions_scan_sum f hist (-1) (Or.inr rfl) (p1 - 1 - k) p1 (by omega) hlen
    have hb1 : scanBegin (-1) (p1 - 1 - k) p1 = (p1 : Int) - 1 := by
      unfold scanBegin; rw [if_neg (by decide)]
    rw [hb1] at this
    have e : p1 - (p1 - 1 - k) = k + 1 := by omega
    rw [e] at this ⊢
    exact this
  have hl : t.2.1 = binSum hist (p1 - 1 - k) p1 := by
    rw [GradStats.eq_iff]
    constructor
    · rw [h2, hs GradStats.sum_grad]; simp [binSum, GradStats.zero]
    · rw [h3, hs GradStats.sum_hess]; simp [binSum, GradStats.zero]
  refine ⟨p1 - 1 - k, by omega, by omega, ?_, hl, by rw [h4, hl]⟩
  rw [h1]
  have : ((p1 - 1 - k : Nat) : Int) = (p1 : Int) - 1 - k := by omega
  rw [this]
  ring

theorem numeric_forward_has (sorted_idx : List Nat) (hist : List (GradStats K))
    (parent : NodeEntry K) (p0 p1 : Nat) (hlen : p1 ≤ hist.length)
    (tr : List (Int × GradStats K × GradStats K))
    (htr : callTrace 1 SplitType.kNum sorted_idx hist parent p0 p1 = some tr)
    (m : Nat) (h0 : p0 < m) (h1 : m ≤ p1) :
    ∃ t ∈ tr, t.1 = (m : Int) - 1 ∧ t.2.1 = binSum hist p0 m ∧
      t.2.2 = GradStats.SetSubstract parent.stats (binSum hist p0 m) := by
  have hmem : (m : Int) - 1 ∈ positions 1 (scanBegin 1 p0 p1) (p1 - p0) := by
    rw [mem_positions]
    refine ⟨m - 1 - p0, by omega, ?_⟩
    unfold scanBegin
    rw [if_pos (by decide)]
    omega
  obtain ⟨t, ht, hti⟩ := sumsTrace_has_position _ _ _ _ tr htr _ hmem
  obtain ⟨m1, _, _, e1, e2, e3⟩ := numeric_forward_entry sorted_idx hist parent p0 p1 hlen tr htr
    t ht
  have : m1 = m := by omega
  subst this
  exact ⟨t, ht, hti, e2, e3⟩

theorem numeric_backward_has (sorted_idx : List Nat) (hist : List (GradStats K))
    (parent : NodeEntry K) (p0 p1 : Nat) (hlen : p1 ≤ hist.length)
    (tr : List (Int × GradStats K × GradStats K))
    (htr : callTrace (-1) SplitType.kNum sorted_idx hist parent p0 p1 = some tr)
    (m : Nat) (h0 : p0 ≤ m) (h1 : m < p1) :
    ∃ t ∈ tr, t.1 = (m : Int) ∧ t.2.1 = binSum hist m p1 ∧
      t.2.2 = GradStats.SetSubstract parent.stats (binSum hist m p1) := by
  have hmem : (m : Int) ∈ positions (-1) (scanBegin (-1) p0 p1) (p1 - p0) := by
    rw [mem_positions]
    refine ⟨p1 - 1 - m, by omega, ?_⟩
    unfold scanBegin
    rw [if_neg (by decide)]
    omega
  obtain ⟨t, ht, hti⟩ := sumsTrace_has_position _ _ _ _ tr htr _ hmem
  obtain ⟨m1, _, _, e1, e2, e3⟩ := numeric_backward_entry sorted_idx hist parent p0 p1 hlen tr
    htr t ht
  have : m1 = m := by omega
  subst this
  exact ⟨t, ht, hti, e2, e3⟩

theorem offerAt_of_eligible (self : HistEvaluator K) (d_step : Int) (split_type : SplitType)
    (cut : HistogramCuts K) (fidx nidx : Nat) (evaluator : SplitEvaluator K)
    (parent : NodeEntry K) (imin : Int) (t : Int × GradStats K × GradStats K)
    (o : Option (Int × SplitEntry K)) (he : eligible self t.2.1 t.2.2)
    (h : offerAt self d_step split_type cut fidx nidx evaluator parent imin t = some o) :
    ∃ x, o = some x := by
  unfold offerAt at h
  rw [if_pos he] at h
  split at h
  · split at h
    · cases h
    · simp only [Option.some.injEq] at h
      exact ⟨_, h.symm⟩
  · split at h
    · cases h
    · simp only [Option.some.injEq] at h
      exact ⟨_, h.symm⟩

/-- Forward numeric scan: every offer is the split after the bins `[p0, m)` for some
`p0 < m ≤ p1`, with the gain the evaluator gives it. -/
theorem numeric_forward_offer (self : HistEvaluator K) (cut : HistogramCuts K)
    (sorted_idx : List Nat) (hist : List (GradStats K)) (fidx nidx : Nat)
    (evaluator : SplitEvaluator K) (parent : NodeEntry K) (p0 p1 : Nat) (imin : Int)
    (hlen : p1 ≤ hist.length)
    (tr : List (Int × GradStats K × GradStats K)) (offs : List (Int × SplitEntry K))
    (htr : callTrace 1 SplitType.kNum sorted_idx hist parent p0 p1 = some tr)
    (hoffs : offersOf (offerAt self 1 SplitType.kNum cut fidx nidx evaluator parent imin) tr
      = some offs)
    (o : Int × SplitEntry K) (ho : o ∈ offs) :
    ∃ m : Nat, p0 < m ∧ m ≤ p1 ∧ o.1 = (m : Int) - 1 ∧ o.2.left_sum = binSum hist p0 m ∧
      o.2.right_sum = GradStats.SetSubstract parent.stats (binSum hist p0 m) ∧
      eligible self o.2.left_sum o.2.right_sum ∧
      o.2.loss_chg = self.static_cast_float
        (evaluator.CalcSplitGain self.param_ nidx fidx o.2.left_sum o.2.right_sum
          - parent.root_gain) := by
  obtain ⟨t, ht, hot⟩ := offersOf_mem _ tr offs hoffs o ho
  obtain ⟨he, hpos, _, _, _, _, hdir, hgain⟩ :=
    offerAt_some self 1 SplitType.kNum cut fidx nidx evaluator parent imin t o hot
  obtain ⟨m, h0, h1, e1, e2, e3⟩ := numeric_forward_entry sorted_idx hist parent p0 p1 hlen tr
    htr t ht
  rcases hdir with ⟨_, hl, hr, _⟩ | ⟨hn, _⟩
  · exact ⟨m, h0, h1, by rw [hpos, e1], by rw [hl, e2], by rw [hr, e3],
      by rw [hl, hr]; exact he, hgain⟩
  · exact absurd (by decide) hn

/-- Forward numeric scan: every eligible split after the bins `[p0, m)`, `p0 < m ≤ p1`, is
offered. -/
theorem numeric_forward_offered (self : HistEvaluator K) (cut : HistogramCuts K)
    (sorted_idx : List Nat) (hist : List (GradStats K)) (fidx nidx : Nat)
    (evaluator : SplitEvaluator K) (parent : NodeEntry K) (p0 p1 : Nat) (imin : Int)
    (hlen : p1 ≤ hist.length)
    (tr : List (Int × GradStats K × GradStats K)) (offs : List (Int × SplitEntry K))
    (htr : callTrace 1 SplitType.kNum sorted_idx hist parent p0 p1 = some tr)
    (hoffs : offersOf (offerAt self 1 SplitType.kNum cut fidx nidx evaluator parent imin) tr
      = some offs)
    (m : Nat) (h0 : p0 < m) (h1 : m ≤ p1)
    (he : eligible self (binSum hist p0 m)
      (GradStats.SetSubstract parent.stats (binSum hist p0 m))) :
    ∃ o ∈ offs, o.1 = (m : Int) - 1 ∧ o.2.left_sum = binSum hist p0 m ∧
      o.2.right_sum = GradStats.SetSubstract parent.stats (binSum hist p0 m) ∧
      o.2.loss_chg = self.static_cast_float
        (evaluator.CalcSplitGain self.param_ nidx fidx o.2.left_sum o.2.right_sum
          - parent.root_gain) := by
  obtain ⟨t, ht, e1, e2, e3⟩ := numeric_forward_has sorted_idx hist parent p0 p1 hlen tr htr m
    h0 h1
  obtain ⟨o1, ho1, hin⟩ := offersOf_complete _ tr offs hoffs t ht
  have het : eligible self t.2.1 t.2.2 := by rw [e2, e3]; exact he
  obtain ⟨x, rfl⟩ := offerAt_of_eligible self 1 SplitType.kNum cut fidx nidx evaluator parent imin
    t o1 het ho1
  obtain ⟨_, hpos, _, _, _, _, hdir, hgain⟩ :=
    offerAt_some self 1 SplitType.kNum cut fidx nidx evaluator parent imin t x ho1
  rcases hdir with ⟨_, hl, hr, _⟩ | ⟨hn, _⟩
  · exact ⟨x, hin x rfl, by rw [hpos, e1], by rw [hl, e2], by rw [hr, e3], hgain⟩
  · exact absurd (by decide) hn

/-- Backward numeric scan: every offer is the split before the bins `[m, p1)` for some
`p0 ≤ m < p1`, with the gain the evaluator gives it. -/
theorem numeric_backward_offer (self : HistEvaluator K) (cut : HistogramCuts K)
    (sorted_idx : List Nat) (hist : List (GradStats K)) (fidx nidx : Nat)
    (evaluator : SplitEvaluator K) (parent : NodeEntry K) (p0 p1 : Nat) (imin : Int)
    (hlen : p1 ≤ hist.length)
    (tr : List (Int × GradStats K × GradStats K)) (offs : List (Int × SplitEntry K))
    (htr : callTrace (-1) SplitType.kNum sorted_idx hist parent p0 p1 = some tr)
    (hoffs : offersOf (offerAt self (-1) SplitType.kNum cut fidx nidx evaluator parent imin) tr
      = some offs)
    (o : Int × SplitEntry K) (ho : o ∈ offs) :
    ∃ m : Nat, p0 ≤ m ∧ m < p1 ∧ o.1 = (m : Int) ∧ o.2.right_sum = binSum hist m p1 ∧
      o.2.left_sum = GradStats.SetSubstract parent.stats (binSum hist m p1) ∧
      eligible self o.2.right_sum o.2.left_sum ∧
      o.2.loss_chg = self.static_cast_float
        (evaluator.CalcSplitGain self.param_ nidx fidx o.2.left_sum o.2.right_sum
          - parent.root_gain) := by
  obtain ⟨t, ht, hot⟩ := offersOf_mem _ tr offs hoffs o ho
  obtain ⟨he, hpos, _, _, _, _, hdir, hgain⟩ :=
    offerAt_some self (-1) SplitType.kNum cut fidx nidx evaluator parent imin t o hot
  obtain ⟨m, h0, h1, e1, e2, e3⟩ := numeric_backward_entry sorted_idx hist parent p0 p1 hlen tr
    htr t ht
  rcases hdir with ⟨hn, _⟩ | ⟨_, hl, hr, _⟩
  · exact absurd hn (by decide)
  · exact ⟨m, h0, h1, by rw [hpos, e1], by rw [hr, e2], by rw [hl, e3],
      by rw [hl, hr]; exact he, hgain⟩

/-- Backward numeric scan: every eligible split before the bins `[m, p1)`, `p0 ≤ m < p1`,
is offered. -/
theorem numeric_backward_offered (self : HistEvaluator K) (cut : HistogramCuts K)
    (sorted_idx : List Nat) (hist : List (GradStats K)) (fidx nidx : Nat)
    (evaluator : SplitEvaluator K) (parent : NodeEntry K) (p0 p1 : Nat) (imin : Int)
    (hlen : p1 ≤ hist.length)
    (tr : List (Int × GradStats K × GradStats K)) (offs : List (Int × SplitEntry K))
    (htr : callTrace (-1) SplitType.kNum sorted_idx hist parent p0 p1 = some tr)
    (hoffs : offersOf (offerAt self (-1) SplitType.kNum cut fidx nidx evaluator parent imin) tr
      = some offs)
    (m : Nat) (h0 : p0 ≤ m) (h1 : m < p1)
    (he : eligible self (binSum hist m p1)
      (GradStats.SetSubstract parent.stats (binSum hist m p1))) :
    ∃ o ∈ offs, o.1 = (m : Int) ∧ o.2.right_sum = binSum hist m p1 ∧
      o.2.left_sum = GradStats.SetSubstract parent.stats (binSum hist m p1) ∧
      o.2.loss_chg = self.static_cast_float
        (evaluator.CalcSplitGain self.param_ nidx fidx o.2.left_sum o.2.right_sum
          - parent.root_gain) := by
  obtain ⟨t, ht, e1, e2, e3⟩ := numeric_backward_has sorted_idx hist parent p0 p1 hlen tr htr m
    h0 h1
  obtain ⟨o1, ho1, hin⟩ := offersOf_complete _ tr offs hoffs t ht
  have het : eligible self t.2.1 t.2.2 := by rw [e2, e3]; exact he
  obtain ⟨x, rfl⟩ := offerAt_of_eligible self (-1) SplitType.kNum cut fidx nidx evaluator parent
    imin t o1 het ho1
  obtain ⟨_, hpos, _, _, _, _, hdir, hgain⟩ :=
    offerAt_some self (-1) SplitType.kNum cut fidx nidx evaluator parent imin t x ho1
  rcases hdir with ⟨hn, _⟩ | ⟨_, hl, hr, _⟩
  · exact absurd hn (by decide)
  · exact ⟨x, hin x rfl, by rw [hpos, e1], by rw [hr, e2], by rw [hl, e3], hgain⟩

theorem GradStats.setSubstract_of_add (a b p : GradStats K) (h : GradStats.AddStats a b = p) :
    GradStats.SetSubstract p a = b ∧ GradStats.SetSubstract p b = a := by
  subst h
  cases a; cases b
  simp [GradStats.AddStats, GradStats.SetSubstract]

theorem GradStats.setSubstract_self (p : GradStats K) :
    GradStats.SetSubstract p p = GradStats.zero := by
  cases p; simp [GradStats.SetSubstract, GradStats.zero]

theorem firstMax_key_le {α : Type} (key : α → K) (a : α) (l : List α) (B : K) (ha : key a ≤ B)
    (hl : ∀ o ∈ l, key o ≤ B) : key (firstMax key a l) ≤ B := by
  rcases firstMax_mem key a l with h | h
  · rw [h]; exact ha
  · exact hl _ h

/-- The gain a scan reports when it starts from the default record: the greatest gain among
its offers, or zero when no offer is positive. -/
theorem EnumerateSplit_fresh_gain [FloorRing K] (self : HistEvaluator K) (d_step : Int)
    (split_type : SplitType) (cut : HistogramCuts K) (sorted_idx : List Nat)
    (hist : List (GradStats K)) (fidx nidx : Nat) (evaluator : SplitEvaluator K)
    (b : SplitEntry K) (ret : GradStats K) (parent : NodeEntry K) (q0 q1 : Nat)
    (tr : List (Int × GradStats K × GradStats K)) (offs : List (Int × SplitEntry K))
    (hpar : self.snode_[nidx]? = some parent) (hq0 : cut.Ptrs[fidx]? = some q0)
    (hq1 : cut.Ptrs[fidx + 1]? = some q1)
    (htr : callTrace d_step split_type sorted_idx hist parent q0 q1 = some tr)
    (hoffs : offersOf (offerAt self d_step split_type cut fidx nidx evaluator parent (q0 : Int)) tr
      = some offs)
    (h : EnumerateSplit self d_step split_type cut sorted_idx hist fidx nidx evaluator
      SplitEntry.fresh = some (b, ret)) :
    b.loss_chg = offerKey (firstMax offerKey ((-1 : Int), (SplitEntry.fresh : SplitEntry K)) offs) ∧
      q1 ≤ hist.length := by
  obtain ⟨parent1, p0, q, tr1, offs1, best, hd, hpar1, hp0, hp1, h01, hlen, hmax, htr1, hoffs1,
    hfill, hr⟩ := EnumerateSplit_some self d_step split_type cut sorted_idx hist fidx nidx
      evaluator SplitEntry.fresh _ h
  rw [hpar] at hpar1
  rw [hq0] at hp0
  rw [hq1] at hp1
  obtain rfl := Option.some.inj hpar1
  obtain rfl := Option.some.inj hp0
  obtain rfl := Option.some.inj hp1
  rw [htr] at htr1
  obtain rfl := Option.some.inj htr1
  rw [hoffs] at hoffs1
  obtain rfl := Option.some.inj hoffs1
  refine ⟨?_, hlen⟩
  have hb := finish_best self d_step split_type cut fidx nidx evaluator parent (q0 : Int) tr offs
    hoffs
  have hs := fillCatBits_sameSplit _ _ _ _ _ _ _ _ _ hfill
  have hbl : best.loss_chg =
      offerKey (firstMax offerKey ((-1 : Int), (SplitEntry.fresh : SplitEntry K)) offs) := by
    rw [hs.1, ← hb]
    rfl
  have hge := firstMax_ge_init offerKey ((-1 : Int), (SplitEntry.fresh : SplitEntry K)) offs
  have hb1 : b = (SplitEntry.fresh : SplitEntry K).Update best := congrArg Prod.fst hr
  rw [hb1]
  unfold SplitEntry.Update SplitEntry.NeedReplace
  split
  · exact hbl
  · rename_i hn
    have hn1 : ¬ (SplitEntry.fresh : SplitEntry K).loss_chg < best.loss_chg :=
      fun hc => hn (decide_eq_true hc)
    rw [← hbl] at hge ⊢
    exact le_antisymm hge (not_lt.mp hn1)

/-! ## A scan does not depend on the caller's record -/

theorem firstMax_init_or_gt {α : Type} (key : α → K) (a : α) (l : List α) :
    firstMax key a l = a ∨ key a < key (firstMax key a l) := by
  induction l generalizing a with
  | nil => left; rfl
  | cons x l ih =>
    rw [firstMax_cons]
    by_cases hx : key a < key x
    · right
      have e : pick key a x = x := by unfold pick; rw [if_pos hx]
      rw [e]
      exact lt_of_lt_of_le hx (firstMax_ge_init key x l)
    · have e : pick key a x = a := by unfold pick; rw [if_neg hx]
      rw [e]
      exact ih a

theorem SplitEntry.Update_eq_pick (e o : SplitEntry K) :
    e.Update o = pick SplitEntry.loss_chg e o := by
  unfold SplitEntry.Update SplitEntry.NeedReplace pick
  by_cases h : e.loss_chg < o.loss_chg
  · rw [if_pos (decide_eq_true h), if_pos h]
  · rw [if_neg (fun hc => h (of_decide_eq_true hc)), if_neg h]

theorem foldl_Update_eq_firstMax (bs : List (SplitEntry K)) (p : SplitEntry K) :
    bs.foldl SplitEntry.Update p = firstMax SplitEntry.loss_chg p bs := by
  induction bs generalizing p with
  | nil => rfl
  | cons b bs ih => rw [List.foldl_cons, firstMax_cons, ih, SplitEntry.Update_eq_pick]

/-- A returning call with the pieces of its run named: any other caller's record gets the
same local best. -/
theorem EnumerateSplit_of_parts [FloorRing K] (self : HistEvaluator K) (d_step : Int)
    (split_type : SplitType) (cut : HistogramCuts K) (sorted_idx : List Nat)
    (hist : List (GradStats K)) (fidx nidx : Nat) (evaluator : SplitEvaluator K)
    (parent : NodeEntry K) (p0 p1 : Nat) (tr : List (Int × GradStats K × GradStats K))
    (offs : List (Int × SplitEntry K)) (best : SplitEntry K)
    (hd : d_step = 1 ∨ d_step = -1)
    (hpar : self.snode_[nidx]? = some parent) (hp0 : cut.Ptrs[fidx]? = some p0)
    (hp1 : cut.Ptrs[fidx + 1]? = some p1) (h01 : p0 ≤ p1) (hlen : p1 ≤ hist.length)
    (hmax : (p1 : Int) ≤ INT32_MAX)
    (htr : callTrace d_step split_type sorted_idx hist parent p0 p1 = some tr)
    (hoffs : offersOf (offerAt self d_step split_type cut fidx nidx evaluator parent (p0 : Int)) tr
      = some offs)
    (hfill : fillCatBits d_step split_type cut sorted_idx p0 ((p1 - p0 : Nat) : Int)
      (scanBegin d_step p0 p1) (finish scanInit tr offs) = some best)
    (q : SplitEntry K) :
    EnumerateSplit self d_step split_type cut sorted_idx hist fidx nidx evaluator q =
      some (q.Update best, returned split_type (finish scanInit tr offs)) := by
  rw [EnumerateSplit_eq self d_step split_type cut sorted_idx hist fidx nidx evaluator q parent
    p0 p1 hd hpar hp0 hp1 h01 hlen hmax, htr]
  simp only [hoffs, hfill]

/-- The local best of a scan is the default record or has a positive gain. -/
theorem local_best_fresh_or_pos [FloorRing K] (self : HistEvaluator K) (d_step : Int)
    (split_type : SplitType) (cut : HistogramCuts K) (sorted_idx : List Nat) (fidx nidx : Nat)
    (evaluator : SplitEvaluator K) (parent : NodeEntry K) (p0 : Nat) (n_bins ibegin : Int)
    (tr : List (Int × GradStats K × GradStats K)) (offs : List (Int × SplitEntry K))
    (best : SplitEntry K)
    (hoffs : offersOf (offerAt self d_step split_type cut fidx nidx evaluator parent (p0 : Int)) tr
      = some offs)
    (hfill : fillCatBits d_step split_type cut sorted_idx p0 n_bins ibegin
      (finish scanInit tr offs) = some best) :
    best = SplitEntry.fresh ∨ 0 < best.loss_chg := by
  have hb := finish_best self d_step split_type cut fidx nidx evaluator parent (p0 : Int) tr offs
    hoffs
  rcases firstMax_init_or_gt offerKey ((-1 : Int), (SplitEntry.fresh : SplitEntry K)) offs
    with h | h
  · left
    rw [h] at hb
    have ht : (finish scanInit tr offs).best_thresh = -1 := congrArg Prod.fst hb
    have hbest : (finish scanInit tr offs).best = SplitEntry.fresh := congrArg Prod.snd hb
    rw [fillCatBits_of_no_thresh _ _ _ _ _ _ _ _ (Or.inr ht), hbest] at hfill
    exact (Option.some.inj hfill).symm
  · right
    have hs := fillCatBits_sameSplit _ _ _ _ _ _ _ _ _ hfill
    rw [hs.1]
    rw [← hb] at h
    exact h

/-- `EnumerateSplit` on any caller's record is `EnumerateSplit` on the default record
followed by one `Update` of the caller's record; it aborts for one iff it aborts for the
other. -/
theorem EnumerateSplit_factor [FloorRing K] (self : HistEvaluator K) (d_step : Int)
    (split_type : SplitType) (cut : HistogramCuts K) (sorted_idx : List Nat)
    (hist : List (GradStats K)) (fidx nidx : Nat) (evaluator : SplitEvaluator K)
    (q : SplitEntry K) :
    EnumerateSplit self d_step split_type cut sorted_idx hist fidx nidx evaluator q =
      match EnumerateSplit self d_step split_type cut sorted_idx hist fidx nidx evaluator
          SplitEntry.fresh with
      | none => none
      | some r => some (q.Update r.1, r.2) := by
  cases hf : EnumerateSplit self d_step split_type cut sorted_idx hist fidx nidx evaluator
      SplitEntry.fresh with
  | none =>
    simp only
    cases hq : EnumerateSplit self d_step split_type cut sorted_idx hist fidx nidx evaluator q with
    | none => rfl
    | some r =>
      obtain ⟨parent, p0, p1, tr, offs, best, hd, hpar, hp0, hp1, h01, hlen, hmax, htr, hoffs,
        hfill, _⟩ := EnumerateSplit_some self d_step split_type cut sorted_idx hist fidx nidx
          evaluator q _ hq
      rw [EnumerateSplit_of_parts self d_step split_type cut sorted_idx hist fidx nidx evaluator
        parent p0 p1 tr offs best hd hpar hp0 hp1 h01 hlen hmax htr hoffs hfill] at hf
      cases hf
  | some r =>
    simp only
    obtain ⟨parent, p0, p1, tr, offs, best, hd, hpar, hp0, hp1, h01, hlen, hmax, htr, hoffs,
      hfill, hr⟩ := EnumerateSplit_some self d_step split_type cut sorted_idx hist fidx nidx
        evaluator SplitEntry.fresh _ hf
    rw [EnumerateSplit_of_parts self d_step split_type cut sorted_idx hist fidx nidx evaluator
      parent p0 p1 tr offs best hd hpar hp0 hp1 h01 hlen hmax htr hoffs hfill, hr]
    simp only [Option.some.injEq, Prod.mk.injEq, and_true]
    rcases local_best_fresh_or_pos self d_step split_type cut sorted_idx fidx nidx evaluator
      parent p0 _ _ tr offs best hoffs hfill with h | h
    · rw [h]
      have : (SplitEntry.fresh : SplitEntry K).Update SplitEntry.fresh = SplitEntry.fresh := by
        unfold SplitEntry.Update; split <;> rfl
      rw [this]
    · have : (SplitEntry.fresh : SplitEntry K).Update best = best := by
        unfold SplitEntry.Update SplitEntry.NeedReplace
        have h0 : (SplitEntry.fresh : SplitEntry K).loss_chg < best.loss_chg := h
        rw [if_pos (decide_eq_true h0)]
      rw [this]

/-! ## Parallel split search as one sequential scan -/

/-- The scans of one feature update the record like a fold of `Update` over their local
bests. -/
theorem evaluateFeature_eq [FloorRing K] (self : HistEvaluator K) (cut : HistogramCuts K)
    (feature_types : List FeatureType) (histogram : List (GradStats K))
    (evaluator : SplitEvaluator K) (nidx fidx : Nat) (best : SplitEntry K) :
    evaluateFeature self cut feature_types histogram evaluator nidx fidx best =
      match featureBests self cut feature_types histogram evaluator nidx fidx with
      | none => none
      | some bs => some (bs.foldl SplitEntry.Update best) := by
  unfold evaluateFeature featureBests
  simp only []
  by_cases hq : self.interaction_constraints_.Query nidx fidx = true
  · simp only [hq, not_true_eq_false, if_false]
    by_cases hc : IsCat feature_types fidx = true
    · simp only [hc, if_true]
      cases h1 : cut.Ptrs[fidx + 1]? with
      | none => rfl
      | some p1 =>
        cases h0 : cut.Ptrs[fidx]? with
        | none => rfl
        | some p0 =>
          simp only []
          by_cases hu : self.UseOneHot (subU32 p1 p0) = true
          · simp only [hu, if_true]
            rw [EnumerateSplit_factor self 1 SplitType.kOneHot cut [] histogram fidx nidx
              evaluator best]
            cases EnumerateSplit self 1 SplitType.kOneHot cut [] histogram fidx nidx evaluator
                SplitEntry.fresh with
            | none => rfl
            | some r1 =>
              simp only []
              rw [EnumerateSplit_factor self (-1) SplitType.kOneHot cut [] histogram fidx nidx
                evaluator (best.Update r1.1)]
              cases EnumerateSplit self (-1) SplitType.kOneHot cut [] histogram fidx nidx
                  evaluator SplitEntry.fresh with
              | none => rfl
              | some r2 => rfl
          · simp only [hu, if_false, Bool.false_eq_true]
            cases subspan histogram p0 (subU32 p1 p0 : Int) with
            | none => rfl
            | some feat_hist =>
              simp only []
              rw [EnumerateSplit_factor self 1 SplitType.kPart cut _ histogram fidx nidx
                evaluator best]
              cases EnumerateSplit self 1 SplitType.kPart cut
                  (stable_sort_by_key
                    (fun l => evaluator.CalcWeightCat self.param_
                      (feat_hist.getD l GradStats.zero))
                    (List.range (subU32 p1 p0)))
                  histogram fidx nidx evaluator SplitEntry.fresh with
              | none => rfl
              | some r1 =>
                simp only []
                rw [EnumerateSplit_factor self (-1) SplitType.kPart cut _ histogram fidx nidx
                  evaluator (best.Update r1.1)]
                cases EnumerateSplit self (-1) SplitType.kPart cut
                    (stable_sort_by_key
                      (fun l => evaluator.CalcWeightCat self.param_
                        (feat_hist.getD l GradStats.zero))
                      (List.range (subU32 p1 p0)))
                    histogram fidx nidx evaluator SplitEntry.fresh with
                | none => rfl
                | some r2 => rfl
    · simp only [hc, if_false, Bool.false_eq_true]
      rw [EnumerateSplit_factor self 1 SplitType.kNum cut [] histogram fidx nidx evaluator best]
      cases EnumerateSplit self 1 SplitType.kNum cut [] histogram fidx nidx evaluator
          SplitEntry.fresh with
      | none => rfl
      | some r1 =>
        simp only []
        cases self.snode_[nidx]? with
        | none => rfl
        | some snode =>
          simp only []
          by_cases hm : SplitContainsMissingValues r1.2 snode = true
          · simp only [hm, if_true]
            rw [EnumerateSplit_factor self (-1) SplitType.kNum cut [] histogram fidx nidx
              evaluator (best.Update r1.1)]
            cases EnumerateSplit self (-1) SplitType.kNum cut [] histogram fidx nidx evaluator
                SplitEntry.fresh with
            | none => rfl
            | some r2 => rfl
          · simp only [hm, if_false, Bool.false_eq_true]
            rfl
  · simp only [hq, not_false_eq_true, if_true, Bool.false_eq_true]
    rfl

theorem evaluateItems_eq [FloorRing K] (self : HistEvaluator K) (cut : HistogramCuts K)
    (feature_types : List FeatureType) (histogram : List (GradStats K))
    (evaluator : SplitEvaluator K) (nidx : Nat) (features_set : List Nat) :
    ∀ (items : List Nat) (best : SplitEntry K),
      evaluateItems self cut feature_types histogram evaluator nidx features_set items best =
        (itemsBests self cut feature_types histogram evaluator nidx features_set items).map
          fun bs => firstMax SplitEntry.loss_chg best bs := by
  intro items
  induction items with
  | nil => intro best; rfl
  | cons k items ih =>
    intro best
    simp only [evaluateItems, itemsBests]
    cases features_set[k]? with
    | none => rfl
    | some fidx =>
      simp only []
      rw [evaluateFeature_eq]
      cases featureBests self cut feature_types histogram evaluator nidx fidx with
      | none => rfl
      | some a =>
        simp only []
        rw [ih]
        cases itemsBests self cut feature_types histogram evaluator nidx features_set items with
        | none => rfl
        | some b =>
          simp only [Option.map_some', foldl_Update_eq_firstMax, firstMax_append]

theorem itemsBests_append [FloorRing K] (self : HistEvaluator K) (cut : HistogramCuts K)
    (feature_types : List FeatureType) (histogram : List (GradStats K))
    (evaluator : SplitEvaluator K) (nidx : Nat) (features_set : List Nat) :
    ∀ (xs ys : List Nat),
      itemsBests self cut feature_types histogram evaluator nidx features_set (xs ++ ys) =
        match itemsBests self cut feature_types histogram evaluator nidx features_set xs with
        | none => none
        | some a =>
          match itemsBests self cut feature_types histogram evaluator nidx features_set ys with
          | none => none
          | some b => some (a ++ b) := by
  intro xs
  induction xs with
  | nil =>
    intro ys
    simp only [List.nil_append, itemsBests]
    cases itemsBests self cut feature_types histogram evaluator nidx features_set ys <;> rfl
  | cons k xs ih =>
    intro ys
    simp only [List.cons_append, itemsBests, List.append_eq]
    cases features_set[k]? with
    | none => rfl
    | some fidx =>
      simp only []
      cases featureBests self cut feature_types histogram evaluator nidx fidx with
      | none => rfl
      | some a =>
        simp only []
        rw [ih]
        cases itemsBests self cut feature_types histogram evaluator nidx features_set xs with
        | none => rfl
        | some b =>
          simp only []
          cases itemsBests self cut feature_types histogram evaluator nidx features_set ys with
          | none => rfl
          | some c => simp only [List.append_assoc]

/-- Merging the private copies of the workers, each started from `start`, into a record
`cur` that is at least as good as `start`: the same as one scan from `cur` over the items
of worker 0, then those of worker 1, and so on. -/
theorem merge_workers_eq [FloorRing K] (self : HistEvaluator K) (cut : HistogramCuts K)
    (feature_types : List FeatureType) (histogram : List (GradStats K))
    (evaluator : SplitEvaluator K) (nidx : Nat) (features_set : List Nat)
    (work : Nat → List Nat) (entry : ExpandEntry K) :
    ∀ (ts : List Nat) (cur : SplitEntry K), entry.split.loss_chg ≤ cur.loss_chg →
      (collect (ts.map fun tidx =>
          match evaluateItems self cut feature_types histogram evaluator nidx features_set
              (work tidx) entry.split with
          | none => none
          | some best => some { entry with split := best })).map
          (fun tloc => tloc.foldl (fun split c => split.Update c.split) cur) =
        (itemsBests self cut feature_types histogram evaluator nidx features_set
          (ts.flatMap work)).map fun bs => firstMax SplitEntry.loss_chg cur bs := by
  intro ts
  induction ts with
  | nil => intro cur _; rfl
  | cons t ts ih =>
    intro cur hcur
    simp only [List.map_cons, List.flatMap_cons, itemsBests_append, evaluateItems_eq]
    cases ha : itemsBests self cut feature_types histogram evaluator nidx features_set (work t) with
    | none => rfl
    | some a =>
      simp only [Option.map_some', collect]
      have hstep : cur.Update (firstMax SplitEntry.loss_chg entry.split a) =
          firstMax SplitEntry.loss_chg cur a := by
        rw [SplitEntry.Update_eq_pick]
        exact pick_firstMax SplitEntry.loss_chg a entry.split cur hcur
      have hnext : entry.split.loss_chg ≤ (firstMax SplitEntry.loss_chg cur a).loss_chg :=
        le_trans hcur (firstMax_ge_init SplitEntry.loss_chg cur a)
      have := ih (firstMax SplitEntry.loss_chg cur a) hnext
      simp only [evaluateItems_eq] at this
      cases hc : collect (ts.map fun tidx =>
          match (itemsBests self cut feature_types histogram evaluator nidx features_set
              (work tidx)).map fun bs => firstMax SplitEntry.loss_chg entry.split bs with
          | none => none
          | some best => some { entry with split := best }) with
      | none =>
        rw [hc] at this
        simp only [Option.map_none'] at this ⊢
        cases hb : itemsBests self cut feature_types histogram evaluator nidx features_set
            (ts.flatMap work) with
        | none => rfl
        | some b => rw [hb] at this; cases this
      | some tl =>
        rw [hc] at this
        simp only [Option.map_some', List.foldl_cons, hstep] at this ⊢
        cases hb : itemsBests self cut feature_types histogram evaluator nidx features_set
            (ts.flatMap work) with
        | none => rw [hb] at this; cases this
        | some b =>
          rw [hb] at this
          simp only [Option.map_some', Option.some.injEq] at this ⊢
          rw [this, firstMax_append]

/-- The parallel region with its merge is the sequential scan in worker-major order. -/
theorem evaluateEntries_eq [FloorRing K] (self : HistEvaluator K)
    (hist : Nat → List (GradStats K)) (cut : HistogramCuts K)
    (feature_types : List FeatureType) (GetDepth : Nat → Nat) (evaluator : SplitEvaluator K)
    (dist : Nat → Nat → List Nat) :
    ∀ (entries : List (ExpandEntry K)) (i : Nat),
      evaluateEntries self hist cut feature_types GetDepth evaluator dist i entries =
        sequentialEntries self hist cut feature_types GetDepth evaluator
          (workerMajor self.n_threads_ dist) i entries := by
  intro entries
  induction entries with
  | nil => intro i; rfl
  | cons entry entries ih =>
    intro i
    simp only [evaluateEntries, sequentialEntries, workerCandidates, ih]
    have hm := merge_workers_eq self cut feature_types (hist entry.nid) evaluator entry.nid
      (self.GetFeatureSet (GetDepth entry.nid)) (dist i) entry (List.range self.n_threads_)
      entry.split (le_refl _)
    rw [evaluateItems_eq]
    unfold workerMajor
    cases hc : collect ((List.range self.n_threads_).map fun tidx =>
        match evaluateItems self cut feature_types (hist entry.nid) evaluator entry.nid
            (self.GetFeatureSet (GetDepth entry.nid)) (dist i tidx) entry.split with
        | none => none
        | some best => some { entry with split := best }) with
    | none =>
      rw [hc] at hm
      cases hb : itemsBests self cut feature_types (hist entry.nid) evaluator entry.nid
          (self.GetFeatureSet (GetDepth entry.nid))
          ((List.range self.n_threads_).flatMap (dist i)) with
      | none => rfl
      | some b => rw [hb] at hm; cases hm
    | some tloc =>
      rw [hc] at hm
      cases hb : itemsBests self cut feature_types (hist entry.nid) evaluator entry.nid
          (self.GetFeatureSet (GetDepth entry.nid))
          ((List.range self.n_threads_).flatMap (dist i)) with
      | none => rw [hb] at hm; cases hm
      | some b =>
        rw [hb] at hm
        simp only [Option.map_some', Option.some.injEq] at hm
        simp only [Option.map_some', mergeCandidates, hm]

/-- `EvaluateSplits` with at least one worker is the sequential scan of every entry in
worker-major order. -/
theorem EvaluateSplits_eq [FloorRing K] (self : HistEvaluator K)
    (hist : Nat → List (GradStats K)) (cut : HistogramCuts K)
    (feature_types : List FeatureType) (GetDepth : Nat → Nat) (dist : Nat → Nat → List Nat)
    (entries : List (ExpandEntry K)) (hn : 1 ≤ self.n_threads_) :
    EvaluateSplits self hist cut feature_types GetDepth dist entries =
      if entries = [] then none
      else sequentialEntries self hist cut feature_types GetDepth
        self.tree_evaluator_.GetEvaluator (workerMajor self.n_threads_ dist) 0 entries := by
  unfold EvaluateSplits
  simp only [List.isEmpty_eq_true, List.map_eq_nil_iff]
  by_cases he : entries = []
  · simp [he]
  · rw [if_neg he, if_neg he, if_neg (by omega), evaluateEntries_eq]

theorem resize_length {α : Type} (xs : List α) (n : Nat) (v : α) :
    (resize xs n v).length = n := by
  simp only [resize, List.length_append, List.length_take, List.length_replicate]
  omega

theorem resize_getElem?_old {α : Type} (xs : List α) (n : Nat) (v : α) (j : Nat)
    (hj : j < xs.length) (hn : j < n) : (resize xs n v)[j]? = xs[j]? := by
  unfold resize
  rw [List.getElem?_append_left (by simp only [List.length_take]; omega),
    List.getElem?_take_of_lt hn]

theorem updateAt_spec {α : Type} (snode : List α) (i : Int) (f : α → α)
    (h0 : 0 ≤ i) (h1 : i.toNat < snode.length) :
    ∃ s1, updateAt snode i f = some s1 ∧ s1.length = snode.length ∧
      ∀ j, s1[j]? = if j = i.toNat then (snode[j]?).map f else snode[j]? := by
  unfold updateAt getI
  rw [if_pos h0, List.getElem?_eq_getElem h1]
  refine ⟨_, rfl, List.length_set _ _ _, ?_⟩
  intro j
  rw [List.getElem?_set]
  by_cases hj : j = i.toNat
  · subst hj
    simp [h1]
  · rw [if_neg (fun h => hj h.symm), if_neg hj]

/-- With both children inside the table and distinct, the four assignments succeed: the
two child entries hold the child sums and gains, every other entry is untouched. -/
theorem writeChildren_ok (snode1 : List (NodeEntry K)) (left_child right_child : Int)
    (left_sum right_sum : GradStats K) (left_gain right_gain : K)
    (hl0 : 0 ≤ left_child) (hl1 : left_child.toNat < snode1.length)
    (hr0 : 0 ≤ right_child) (hr1 : right_child.toNat < snode1.length)
    (hne : left_child ≠ right_child) :
    ∃ snode5, writeChildren snode1 left_child right_child left_sum right_sum left_gain
        right_gain = Except.ok snode5 ∧ snode5.length = snode1.length ∧
      snode5[left_child.toNat]? = some { stats := left_sum, root_gain := left_gain } ∧
      snode5[right_child.toNat]? = some { stats := right_sum, root_gain := right_gain } ∧
      ∀ j, j ≠ left_child.toNat → j ≠ right_child.toNat → snode5[j]? = snode1[j]? := by
  have hlr : left_child.toNat ≠ right_child.toNat := by omega
  obtain ⟨s2, e2, l2, g2⟩ := updateAt_spec snode1 left_child
    (fun e => { e with stats := left_sum }) hl0 hl1
  obtain ⟨s3, e3, l3, g3⟩ := updateAt_spec s2 left_child
    (fun e => { e with root_gain := left_gain }) hl0 (by omega)
  obtain ⟨s4, e4, l4, g4⟩ := updateAt_spec s3 right_child
    (fun e => { e with stats := right_sum }) hr0 (by omega)
  obtain ⟨s5, e5, l5, g5⟩ := updateAt_spec s4 right_child
    (fun e => { e with root_gain := right_gain }) hr0 (by omega)
  refine ⟨s5, ?_, by omega, ?_, ?_, ?_⟩
  · simp only [writeChildren, e2, e3, e4, e5]
  · rw [g5, if_neg hlr, g4, if_neg hlr, g3, if_pos rfl, g2, if_pos rfl,
      List.getElem?_eq_getElem hl1]
    rfl
  · rw [g5, if_pos rfl, g4, if_pos rfl, g3, if_neg (Ne.symm hlr), g2, if_neg (Ne.symm hlr),
      List.getElem?_eq_getElem hr1]
    rfl
  · intro j hjl hjr
    rw [g5, if_neg hjr, g4, if_neg hjr, g3, if_neg hjl, g2, if_neg hjl]

/-- `ApplyTreeSplit` when the tree sink leaves two distinct children inside the tree: the
call ends normally, the table has one entry per tree node, the child entries hold the
child sums with the gains computed for the parent's id, and the other entries are those of
the table resized. -/
theorem ApplyTreeSplit_done [FloorRing K] {T : Type} (sink : TreeSink T K)
    (self : HistEvaluator K) (candidate : ExpandEntry K) (tree tree1 : T)
    (hexp : expandTree sink self candidate tree = some tree1)
    (hl0 : 0 ≤ sink.LeftChild tree1 candidate.nid)
    (hl1 : sink.LeftChild tree1 candidate.nid < sink.NumNodes tree1)
    (hr0 : 0 ≤ sink.RightChild tree1 candidate.nid)
    (hr1 : sink.RightChild tree1 candidate.nid < sink.NumNodes tree1)
    (hne : sink.LeftChild tree1 candidate.nid ≠ sink.RightChild tree1 candidate.nid) :
    ∃ self1, ApplyTreeSplit sink self candidate tree = Outcome.done (tree1, self1) ∧
      self1.snode_.length = sink.NumNodes tree1 ∧
      self1.snode_[(sink.LeftChild tree1 candidate.nid).toNat]? =
        some { stats := candidate.split.left_sum,
               root_gain := self.tree_evaluator_.GetEvaluator.CalcGain candidate.nid self.param_
                 candidate.split.left_sum } ∧
      self1.snode_[(sink.RightChild tree1 candidate.nid).toNat]? =
        some { stats := candidate.split.right_sum,
               root_gain := self.tree_evaluator_.GetEvaluator.CalcGain candidate.nid self.param_
                 candidate.split.right_sum } ∧
      ∀ j, j ≠ (sink.LeftChild tree1 candidate.nid).toNat →
        j ≠ (sink.RightChild tree1 candidate.nid).toNat →
        self1.snode_[j]? =
          (resize self.snode_ (sink.NumNodes tree1) { stats := GradStats.zero, root_gain := 0 })[j]? := by
  have hlen := resize_length self.snode_ (sink.NumNodes tree1)
    ({ stats := GradStats.zero, root_gain := 0 } : NodeEntry K)
  obtain ⟨s5, e5, l5, gl, gr, go⟩ := writeChildren_ok
    (resize self.snode_ (sink.NumNodes tree1) { stats := GradStats.zero, root_gain := 0 })
    (sink.LeftChild tree1 candidate.nid) (sink.RightChild tree1 candidate.nid)
    candidate.split.left_sum candidate.split.right_sum
    (self.tree_evaluator_.GetEvaluator.CalcGain candidate.nid self.param_
      candidate.split.left_sum)
    (self.tree_evaluator_.GetEvaluator.CalcGain candidate.nid self.param_
      candidate.split.right_sum)
    hl0 (by rw [hlen]; omega) hr0 (by rw [hlen]; omega) hne
  unfold ApplyTreeSplit
  simp only [hexp, e5]
  exact ⟨_, rfl, by rw [l5, hlen], gl, gr, go⟩

/-! ## The category bits of a one-category split -/

theorem replicate_getD_zero (n j : Nat) : ((List.replicate n 0)[j]?).getD 0 = 0 := by
  rw [List.getElem?_replicate]
  split <;> rfl

/-- Setting the bit of `c` in an all-zero storage leaves exactly the category `c`. -/
theorem bitSet_single (n c : Nat) (hc : c / 32 < n) :
    ∃ bits, bitSet (List.replicate n 0) c = some bits ∧ bits.length = n ∧
      ∀ k, bitCheck bits k = true ↔ k = c := by
  unfold bitSet
  rw [if_pos (by simpa using hc)]
  refine ⟨_, rfl, by simp, ?_⟩
  intro k
  unfold bitCheck
  have h0 : (List.replicate n 0).getD (c / 32) 0 = 0 := by
    rw [List.getD_eq_getElem?_getD, replicate_getD_zero]
  rw [h0, Nat.zero_or, Nat.one_shiftLeft, List.getD_eq_getElem?_getD, List.getElem?_set]
  by_cases hk : c / 32 = k / 32
  · rw [if_pos hk, if_pos (by simpa using hc)]
    simp only [Option.getD_some, Nat.testBit_two_pow]
    constructor
    · intro h
      have h1 : c % 32 = k % 32 := by simpa using h
      have := Nat.div_add_mod c 32
      have := Nat.div_add_mod k 32
      omega
    · rintro rfl; simp
  · rw [if_neg hk, replicate_getD_zero]
    simp only [Nat.zero_testBit, Bool.false_eq_true, false_iff]
    rintro rfl
    exact hk rfl

/-- The bits of a record without category bits and with a valid category value. -/
theorem splitCats_single [FloorRing K] (split : SplitEntry K) (hempty : split.cat_bits = [])
    (hvalid : InvalidCat split.split_value = false) :
    0 ≤ AsCat split.split_value ∧
      ∃ cats, splitCats split = some cats ∧
        cats.length = ((AsCat split.split_value).toNat + 1 + 31) / 32 ∧
        ∀ k, bitCheck cats k = true ↔ k = (AsCat split.split_value).toNat := by
  have hv : 0 ≤ split.split_value := by
    unfold InvalidCat at hvalid
    have := of_decide_eq_false hvalid
    push_neg at this
    exact this.1
  have hc : 0 ≤ AsCat split.split_value := by
    unfold AsCat
    rw [if_pos hv]
    exact Int.floor_nonneg.mpr hv
  refine ⟨hc, ?_⟩
  have hm : (max (AsCat split.split_value + 1) 1).toNat = (AsCat split.split_value).toNat + 1 := by
    rw [max_eq_left (by omega)]
    omega
  obtain ⟨bits, hb, hl, hk⟩ := bitSet_single
    (ComputeStorageSize ((AsCat split.split_value).toNat + 1)) (AsCat split.split_value).toNat
    (by unfold ComputeStorageSize; omega)
  refine ⟨bits, ?_, by rw [hl]; rfl, hk⟩
  unfold splitCats
  simp only [hempty, List.isEmpty_nil, if_true, hvalid, Bool.false_eq_true, if_false, hm]
  have hr : resize ([] : List Nat) (ComputeStorageSize ((AsCat split.split_value).toNat + 1)) 0 =
      List.replicate (ComputeStorageSize ((AsCat split.split_value).toNat + 1)) 0 := by
    simp [resize]
  rw [hr]
  exact hb

/-! ## Splits left by `EvaluateSplits` sum to the parent -/

theorem EnumerateSplit_fresh_sums [FloorRing K] (self : HistEvaluator K) (d_step : Int)
    (split_type : SplitType) (cut : HistogramCuts K) (sorted_idx : List Nat)
    (hist : List (GradStats K)) (fidx nidx : Nat) (evaluator : SplitEvaluator K)
    (r : SplitEntry K × GradStats K)
    (h : EnumerateSplit self d_step split_type cut sorted_idx hist fidx nidx evaluator
      SplitEntry.fresh = some r) :
    sumsToNode self nidx r.1 := by
  obtain ⟨parent, _, _, _, _, _, _, hpar, _⟩ := EnumerateSplit_some self d_step split_type cut
    sorted_idx hist fidx nidx evaluator SplitEntry.fresh _ h
  rcases EnumerateSplit_record self d_step split_type cut sorted_idx hist fidx nidx evaluator
    SplitEntry.fresh r.1 r.2 parent hpar h with h1 | h1 | ⟨o, t, imin, hs, hsum, hot⟩
  · exact Or.inl h1
  · exact Or.inl h1
  · right
    refine ⟨parent, hpar, ?_⟩
    obtain ⟨_, _, _, _, _, _, hdir, _⟩ :=
      offerAt_some self d_step split_type cut fidx nidx evaluator parent imin t o hot
    obtain ⟨_, _, _, _, _, hl, hr⟩ := hs
    rw [hl, hr]
    rcases hdir with ⟨_, e1, e2, _⟩ | ⟨_, e1, e2, _⟩
    · rw [e1, e2]; exact hsum
    · rw [e1, e2, GradStats.AddStats_comm]; exact hsum

theorem featureBests_sums [FloorRing K] (self : HistEvaluator K) (cut : HistogramCuts K)
    (feature_types : List FeatureType) (histogram : List (GradStats K))
    (evaluator : SplitEvaluator K) (nidx fidx : Nat) (bs : List (SplitEntry K))
    (h : featureBests self cut feature_types histogram evaluator nidx fidx = some bs) :
    ∀ b ∈ bs, sumsToNode self nidx b := by
  have two : ∀ (d1 d2 : Int) (st1 st2 : SplitType) (si1 si2 : List Nat)
      (r1 r2 : SplitEntry K × GradStats K),
      EnumerateSplit self d1 st1 cut si1 histogram fidx nidx evaluator SplitEntry.fresh = some r1 →
      EnumerateSplit self d2 st2 cut si2 histogram fidx nidx evaluator SplitEntry.fresh = some r2 →
      ∀ b ∈ [r1.1, r2.1], sumsToNode self nidx b := by
    intro d1 d2 st1 st2 si1 si2 r1 r2 h1 h2 b hb
    simp only [List.mem_cons, List.mem_singleton, List.not_mem_nil, or_false] at hb
    rcases hb with rfl | rfl
    · exact EnumerateSplit_fresh_sums self d1 st1 cut si1 histogram fidx nidx evaluator r1 h1
    · exact EnumerateSplit_fresh_sums self d2 st2 cut si2 histogram fidx nidx evaluator r2 h2
  unfold featureBests at h
  split at h
  · simp only [Option.some.injEq] at h
    subst h
    intro b hb; cases hb
  · split at h
    · split at h
      · rename_i p1 p0 _ _
        split at h
        · cases h1 : EnumerateSplit self 1 SplitType.kOneHot cut [] histogram fidx nidx evaluator
              SplitEntry.fresh with
          | none => rw [h1] at h; cases h
          | some r1 =>
            rw [h1] at h
            simp only at h
            cases h2 : EnumerateSplit self (-1) SplitType.kOneHot cut [] histogram fidx nidx
                evaluator SplitEntry.fresh with
            | none => rw [h2] at h; cases h
            | some r2 =>
              rw [h2] at h
              simp only [Option.some.injEq] at h
              subst h
              exact two _ _ _ _ _ _ r1 r2 h1 h2
        · cases hsub : subspan histogram p0 (subU32 p1 p0 : Int) with
          | none => rw [hsub] at h; cases h
          | some feat_hist =>
            rw [hsub] at h
            simp only at h
            cases h1 : EnumerateSplit self 1 SplitType.kPart cut
                (stable_sort_by_key
                  (fun l => evaluator.CalcWeightCat self.param_ (feat_hist.getD l GradStats.zero))
                  (List.range (subU32 p1 p0)))
                histogram fidx nidx evaluator SplitEntry.fresh with
            | none => rw [h1] at h; cases h
            | some r1 =>
              rw [h1] at h
              simp only at h
              cases h2 : EnumerateSplit self (-1) SplitType.kPart cut
                  (stable_sort_by_key
                    (fun l => evaluator.CalcWeightCat self.param_
                      (feat_hist.getD l GradStats.zero))
                    (List.range (subU32 p1 p0)))
                  histogram fidx nidx evaluator SplitEntry.fresh with
              | none => rw [h2] at h; cases h
              | some r2 =>
                rw [h2] at h
                simp only [Option.some.injEq] at h
                subst h
                exact two _ _ _ _ _ _ r1 r2 h1 h2
      · cases h
    · cases h1 : EnumerateSplit self 1 SplitType.kNum cut [] histogram fidx nidx evaluator
          SplitEntry.fresh with
      | none => rw [h1] at h; cases h
      | some r1 =>
        rw [h1] at h
        simp only at h
        cases hsn : self.snode_[nidx]? with
        | none => rw [hsn] at h; cases h
        | some snode =>
          rw [hsn] at h
          simp only at h
          split at h
          · cases h2 : EnumerateSplit self (-1) SplitType.kNum cut [] histogram fidx nidx
                evaluator SplitEntry.fresh with
            | none => rw [h2] at h; cases h
            | some r2 =>
              rw [h2] at h
              simp only [Option.some.injEq] at h
              subst h
              exact two _ _ _ _ _ _ r1 r2 h1 h2
          · simp only [Option.some.injEq] at h
            subst h
            intro b hb
            simp only [List.mem_singleton] at hb
            subst hb
            exact EnumerateSplit_fresh_sums self 1 SplitType.kNum cut [] histogram fidx nidx
              evaluator r1 h1

theorem itemsBests_sums [FloorRing K] (self : HistEvaluator K) (cut : HistogramCuts K)
    (feature_types : List FeatureType) (histogram : List (GradStats K))
    (evaluator : SplitEvaluator K) (nidx : Nat) (features_set : List Nat) :
    ∀ (items : List Nat) (bs : List (SplitEntry K)),
      itemsBests self cut feature_types histogram evaluator nidx features_set items = some bs →
      ∀ b ∈ bs, sumsToNode self nidx b := by
  intro items
  induction items with
  | nil =>
    intro bs h b hb
    simp only [itemsBests, Option.some.injEq] at h
    subst h; cases hb
  | cons k items ih =>
    intro bs h b hb
    simp only [itemsBests] at h
    cases hf : features_set[k]? with
    | none => rw [hf] at h; cases h
    | some fidx =>
      rw [hf] at h
      simp only at h
      cases ha : featureBests self cut feature_types histogram evaluator nidx fidx with
      | none => rw [ha] at h; cases h
      | some a =>
        rw [ha] at h
        simp only at h
        cases hr : itemsBests self cut feature_types histogram evaluator nidx features_set
            items with
        | none => rw [hr] at h; cases h
        | some c =>
          rw [hr] at h
          simp only [Option.some.injEq] at h
          subst h
          rcases List.mem_append.mp hb with h1 | h1
          · exact featureBests_sums self cut feature_types histogram evaluator nidx fidx a ha b h1
          · exact ih c hr b h1

/-- After the sequential scan every entry keeps its node id, and its split is the one it
had, or the default record, or a record that sums to the statistic of its node. -/
theorem sequentialEntries_sums [FloorRing K] (self : HistEvaluator K)
    (hist : Nat → List (GradStats K)) (cut : HistogramCuts K)
    (feature_types : List FeatureType) (GetDepth : Nat → Nat) (evaluator : SplitEvaluator K)
    (order : Nat → List Nat) :
    ∀ (entries out : List (ExpandEntry K)) (i : Nat),
      sequentialEntries self hist cut feature_types GetDepth evaluator order i entries
        = some out →
      ∀ (j : Nat) (e e1 : ExpandEntry K), entries[j]? = some e → out[j]? = some e1 →
        e1.nid = e.nid ∧ (e1.split = e.split ∨ sumsToNode self e.nid e1.split) := by
  intro entries
  induction entries with
  | nil =>
    intro out i _ j e e1 he
    simp at he
  | cons entry entries ih =>
    intro out i h j e e1 he he1
    simp only [sequentialEntries, evaluateItems_eq] at h
    cases hb : itemsBests self cut feature_types (hist entry.nid) evaluator entry.nid
        (self.GetFeatureSet (GetDepth entry.nid)) (order i) with
    | none => rw [hb] at h; cases h
    | some bs =>
      rw [hb] at h
      simp only [Option.map_some'] at h
      cases hr : sequentialEntries self hist cut feature_types GetDepth evaluator order (i + 1)
          entries with
      | none => rw [hr] at h; cases h
      | some rest =>
        rw [hr] at h
        simp only [Option.some.injEq] at h
        subst h
        cases j with
        | zero =>
          simp only [List.getElem?_cons_zero, Option.some.injEq] at he he1
          subst he
          subst he1
          refine ⟨rfl, ?_⟩
          rcases firstMax_mem SplitEntry.loss_chg entry.split bs with hm | hm
          · exact Or.inl hm
          · exact Or.inr (itemsBests_sums self cut feature_types (hist entry.nid) evaluator
              entry.nid (self.GetFeatureSet (GetDepth entry.nid)) (order i) bs hb _ hm)
        | succ j =>
          simp only [List.getElem?_cons_succ] at he he1
          exact ih rest (i + 1) hr j e e1 he he1

/-! ## The prediction cache update as a sequence of additions -/

theorem addLeafValue_eq_applyOps (leaf_value : K) (rows : List Nat) (out_preds : List K) :
    addLeafValue leaf_value rows out_preds =
      applyOps (rows.map fun row => (row, leaf_value)) out_preds := by
  induction rows generalizing out_preds with
  | nil => rfl
  | cons r rs ih =>
    simp only [addLeafValue, List.map_cons, applyOps]
    cases out_preds[r]? with
    | none => rfl
    | some v => exact ih _

theorem applyOps_append (a b : List (Nat × K)) (out_preds : List K) :
    applyOps (a ++ b) out_preds = (applyOps a out_preds).bind (applyOps b) := by
  induction a generalizing out_preds with
  | nil => rfl
  | cons x xs ih =>
    simp only [List.cons_append, applyOps]
    cases out_preds[x.1]? with
    | none => rfl
    | some v => exact ih _

theorem runBlocks_eq_applyOps (f : Nat → Nat × Nat → List K → Option (List K))
    (g : Nat × Nat × Nat → List (Nat × K)) (bs : List (Nat × Nat × Nat))
    (h : ∀ b ∈ bs, ∀ out_preds, f b.1 b.2 out_preds = applyOps (g b) out_preds)
    (out_preds : List K) :
    runBlocks f bs out_preds = applyOps (bs.flatMap g) out_preds := by
  induction bs generalizing out_preds with
  | nil => rfl
  | cons b bs ih =>
    simp only [runBlocks, List.flatMap_cons, applyOps_append]
    rw [h b (List.mem_cons_self _ _)]
    cases applyOps (g b) out_preds with
    | none => rfl
    | some o => exact ih (fun b1 hb1 => h b1 (List.mem_cons_of_mem _ hb1)) o

theorem blockRanges_cover {α : Type} (grain : Nat) (hg : 0 < grain) (l : List α) :
    (blockRanges grain l.length).flatMap (fun r => (l.drop r.1).take (r.2 - r.1)) = l := by
  have key : ∀ k : Nat, k ≤ l.length / grain + (if l.length % grain = 0 then 0 else 1) →
      ((List.range k).map fun iblock =>
        (iblock * grain, min (iblock * grain + grain) l.length)).flatMap
        (fun r => (l.drop r.1).take (r.2 - r.1)) = l.take (k * grain) := by
    intro k
    induction k with
    | zero => intro _; simp
    | succ k ih =>
      intro hk
      rw [List.range_succ, List.map_append, List.flatMap_append, ih (by omega)]
      simp only [List.map_cons, List.map_nil, List.flatMap_cons, List.flatMap_nil,
        List.append_nil]
      rw [Nat.succ_mul, List.take_add]
      congr 1
      by_cases hle : k * grain + grain ≤ l.length
      · rw [Nat.min_eq_left hle]; congr 1; omega
      · rw [Nat.min_eq_right (by omega)]
        rw [List.take_of_length_le (by simp), List.take_of_length_le (by simp; omega)]
  unfold blockRanges
  rw [key _ le_rfl]
  apply List.take_of_length_le
  have h1 := Nat.div_add_mod l.length grain
  have h2 := Nat.mod_lt l.length hg
  split
  · rename_i h0
    rw [h0] at h1
    simp only [add_zero] at h1 ⊢
    rw [Nat.mul_comm]; omega
  · rw [Nat.add_mul, Nat.one_mul, Nat.mul_comm]; omega

theorem updateBlock_eq_applyOps (tree : List TreeNodeStatus) (snode : List (NodeEntry K))
    (evaluator : SplitEvaluator K) (param : TrainParam K) (part : List (List Nat))
    (hpart : part.length = tree.length) (hsnode : tree.length ≤ snode.length)
    (b : Nat × Nat × Nat) (hb : b.1 < part.length) (out_preds : List K) :
    updateBlock tree snode evaluator param part b.1 b.2 out_preds =
      applyOps (blockOps tree snode evaluator param part b) out_preds := by
  have ht : b.1 < tree.length := by omega
  have hs : b.1 < snode.length := by omega
  have h1 : tree[b.1]? = some tree[b.1] := List.getElem?_eq_getElem _
  have h2 : part[b.1]? = some part[b.1] := List.getElem?_eq_getElem _
  have h3 : snode[b.1]? = some snode[b.1] := List.getElem?_eq_getElem _
  have h4 : part.getD b.1 [] = part[b.1] := by
    rw [List.getD_eq_getElem?_getD, h2]; rfl
  have h5 : snode.getD b.1 { stats := GradStats.zero, root_gain := 0 } = snode[b.1] := by
    rw [List.getD_eq_getElem?_getD, h3]; rfl
  unfold updateBlock blockOps
  rw [h1, h2]
  simp only
  split
  · rw [h3]
    simp only
    rw [addLeafValue_eq_applyOps, h4]
    unfold leafValue
    rw [h5]
  · rfl

theorem partBlocks_ops (tree : List TreeNodeStatus) (snode : List (NodeEntry K))
    (evaluator : SplitEvaluator K) (param : TrainParam K) (part : List (List Nat)) :
    (partBlocks part).flatMap (blockOps tree snode evaluator param part) =
      leafOps tree snode evaluator param part := by
  unfold partBlocks leafOps
  rw [List.flatMap_assoc]
  apply List.flatMap_congr
  intro node _
  rw [List.flatMap_map]
  cases ht : tree[node]? with
  | none =>
    simp only [blockOps, ht]
    induction blockRanges 1024 (part.getD node []).length with
    | nil => rfl
    | cons a l ih => simp
  | some status =>
    simp only [blockOps, ht]
    split
    · rw [← List.map_flatMap, blockRanges_cover 1024 (by decide)]
    · induction blockRanges 1024 (part.getD node []).length with
      | nil => rfl
      | cons a l ih => simp

theorem mem_partBlocks (part : List (List Nat)) (b : Nat × Nat × Nat) (h : b ∈ partBlocks part) :
    b.1 < part.length := by
  unfold partBlocks at h
  rw [List.mem_flatMap] at h
  obtain ⟨node, hn, hb⟩ := h
  rw [List.mem_map] at hb
  obtain ⟨r, _, rfl⟩ := hb
  exact List.mem_range.mp hn

theorem sum_set_add (l : List K) (r : Nat) (v x : K) (h : l[r]? = some v) :
    (l.set r (v + x)).sum = l.sum + x := by
  induction l generalizing r with
  | nil => simp at h
  | cons a l ih =>
    cases r with
    | zero =>
      simp only [List.getElem?_cons_zero, Option.some.injEq] at h
      subst h
      simp only [List.set_cons_zero, List.sum_cons]
      ring
    | succ r =>
      simp only [List.getElem?_cons_succ] at h
      simp only [List.set_cons_succ, List.sum_cons, ih r h]
      ring

theorem applyOps_spec (ops : List (Nat × K)) :
    ∀ (out_preds : List K), (∀ op ∈ ops, op.1 < out_preds.length) →
      (ops.map Prod.fst).Nodup →
      ∃ out1, applyOps ops out_preds = some out1 ∧ out1.length = out_preds.length ∧
        (∀ op ∈ ops, out1[op.1]? = (out_preds[op.1]?).map (fun v => v + op.2)) ∧
        (∀ r, r ∉ ops.map Prod.fst → out1[r]? = out_preds[r]?) ∧
        out1.sum = out_preds.sum + (ops.map Prod.snd).sum := by
  induction ops with
  | nil =>
    intro out_preds _ _
    exact ⟨out_preds, rfl, rfl, by simp, by simp, by simp⟩
  | cons op ops ih =>
    intro out_preds hin hnd
    have hlt : op.1 < out_preds.length := hin op (List.mem_cons_self _ _)
    have hv : out_preds[op.1]? = some out_preds[op.1] := List.getElem?_eq_getElem _
    rw [List.map_cons, List.nodup_cons] at hnd
    obtain ⟨out1, h1, h2, h3, h4, h5⟩ := ih (out_preds.set op.1 (out_preds[op.1] + op.2))
      (by intro o ho; rw [List.length_set]; exact hin o (List.mem_cons_of_mem _ ho)) hnd.2
    refine ⟨out1, ?_, ?_, ?_, ?_, ?_⟩
    · simp only [applyOps, hv]; exact h1
    · rw [h2, List.length_set]
    · intro o ho
      rcases List.mem_cons.mp ho with rfl | ho
      · rw [h4 _ hnd.1, List.getElem?_set_self (by exact hlt), hv]; rfl
      · have hne : op.1 ≠ o.1 := by
          intro e
          exact hnd.1 (e ▸ List.mem_map_of_mem Prod.fst ho)
        rw [h3 o ho, List.getElem?_set_ne hne]
    · intro r hr
      rw [List.map_cons, List.mem_cons, not_or] at hr
      rw [h4 r hr.2, List.getElem?_set_ne (Ne.symm hr.1)]
    · rw [h5, sum_set_add _ _ _ _ hv, List.map_cons, List.sum_cons]; ring

theorem leafOps_fst (tree : List TreeNodeStatus) (snode : List (NodeEntry K))
    (evaluator : SplitEvaluator K) (param : TrainParam K) (part : List (List Nat)) :
    (leafOps tree snode evaluator param part).map Prod.fst = leafRows tree part := by
  unfold leafOps leafRows
  rw [List.map_flatMap]
  apply List.flatMap_congr
  intro node _
  cases tree[node]? with
  | none => rfl
  | some status =>
    simp only
    split
    · rw [List.map_map]; exact List.map_id _
    · rfl

theorem leafOps_snd_sum (tree : List TreeNodeStatus) (snode : List (NodeEntry K))
    (evaluator : SplitEvaluator K) (param : TrainParam K) (part : List (List Nat)) :
    ((leafOps tree snode evaluator param part).map Prod.snd).sum =
      leafTotal tree snode evaluator param part := by
  unfold leafOps leafTotal
  induction List.range part.length with
  | nil => rfl
  | cons node l ih =>
    rw [List.flatMap_cons, List.map_append, List.sum_append, ih, List.map_cons, List.sum_cons]
    congr 1
    cases tree[node]? with
    | none => rfl
    | some status =>
      simp only
      split
      · rw [List.map_map]
        induction part.getD node [] with
        | nil => simp
        | cons r rs ih2 =>
          simp only [List.map_cons, List.sum_cons, Function.comp, List.length_cons,
            Nat.cast_add, Nat.cast_one] at ih2 ⊢
          rw [ih2]; ring
      · rfl

theorem mem_leafOps (tree : List TreeNodeStatus) (snode : List (NodeEntry K))
    (evaluator : SplitEvaluator K) (param : TrainParam K) (part : List (List Nat))
    (n : Nat) (status : TreeNodeStatus) (rowset : List Nat) (ht : tree[n]? = some status)
    (hd : status.IsDeleted = false) (hl : status.IsLeaf = true) (hp : part[n]? = some rowset)
    (r : Nat) (hr : r ∈ rowset) :
    (r, leafValue snode evaluator param n) ∈ leafOps tree snode evaluator param part := by
  unfold leafOps
  rw [List.mem_flatMap]
  have hn : n < part.length := by
    by_contra hc
    rw [List.getElem?_eq_none (by omega)] at hp
    cases hp
  refine ⟨n, List.mem_range.mpr hn, ?_⟩
  rw [ht]
  simp only [hd, hl, and_self, if_true]
  rw [List.getD_eq_getElem?_getD, hp]
  exact List.mem_map_of_mem _ hr

theorem UpdatePredictionCacheImpl_leaves (tree : List TreeNodeStatus)
    (part : List (List Nat)) (hist_evaluator : HistEvaluator K) (param : TrainParam K)
    (out_preds : VectorView K) (hne : out_preds.data ≠ [])
    (hcpu : out_preds.DeviceIdx = kCpuId) (hpart : part.length = tree.length)
    (hsnode : tree.length ≤ hist_evaluator.snode_.length)
    (hrows : ∀ r ∈ leafRows tree part, r < out_preds.data.length)
    (hdisj : (leafRows tree part).Nodup) :
    ∃ data, UpdatePredictionCacheImpl (some tree) [part] hist_evaluator param out_preds =
        Run.ok { out_preds with data := data } ∧
      applyOps (leafOps tree hist_evaluator.snode_ hist_evaluator.tree_evaluator_.GetEvaluator
        param part) out_preds.data = some data := by
  have hops := applyOps_spec
    (leafOps tree hist_evaluator.snode_ hist_evaluator.tree_evaluator_.GetEvaluator param part)
    out_preds.data
    (by
      intro op hop
      apply hrows
      rw [← leafOps_fst tree hist_evaluator.snode_ hist_evaluator.tree_evaluator_.GetEvaluator
        param part]
      exact List.mem_map_of_mem Prod.fst hop)
    (by rw [leafOps_fst]; exact hdisj)
  obtain ⟨data, h1, _⟩ := hops
  refine ⟨data, ?_, h1⟩
  have hpos : 0 < out_preds.data.length := List.length_pos.mpr hne
  have hrun : runBlocks (updateBlock tree hist_evaluator.snode_
      hist_evaluator.tree_evaluator_.GetEvaluator param part) (partBlocks part)
      out_preds.data = some data := by
    rw [runBlocks_eq_applyOps _ (blockOps tree hist_evaluator.snode_
      hist_evaluator.tree_evaluator_.GetEvaluator param part), partBlocks_ops, h1]
    intro b hb out
    exact updateBlock_eq_applyOps tree _ _ param part hpart hsnode b (mem_partBlocks part b hb) out
  simp only [UpdatePredictionCacheImpl, hpos, not_true_eq_false, if_false, hcpu, ne_eq,
    updatePartitions, hpart, hrun]

theorem applyOps_some (ops : List (Nat × K)) :
    ∀ (out_preds : List K), (∀ op ∈ ops, op.1 < out_preds.length) →
      ∃ out1, applyOps ops out_preds = some out1 ∧ out1.length = out_preds.length := by
  induction ops with
  | nil => intro out_preds _; exact ⟨out_preds, rfl, rfl⟩
  | cons op ops ih =>
    intro out_preds hin
    have hlt : op.1 < out_preds.length := hin op (List.mem_cons_self _ _)
    have hv : out_preds[op.1]? = some out_preds[op.1] := List.getElem?_eq_getElem _
    obtain ⟨out1, h1, h2⟩ := ih (out_preds.set op.1 (out_preds[op.1] + op.2))
      (by intro o ho; rw [List.length_set]; exact hin o (List.mem_cons_of_mem _ ho))
    refine ⟨out1, ?_, ?_⟩
    · simp only [applyOps, hv]; exact h1
    · rw [h2, List.length_set]

theorem updatePartitions_append (tree : List TreeNodeStatus) (snode : List (NodeEntry K))
    (evaluator : SplitEvaluator K) (param : TrainParam K) (a b : List (List (List Nat)))
    (out_preds : List K) :
    updatePartitions tree snode evaluator param (a ++ b) out_preds =
      match updatePartitions tree snode evaluator param a out_preds with
      | Run.ok out1 => updatePartitions tree snode evaluator param b out1
      | Run.fatal => Run.fatal
      | Run.undefined => Run.undefined := by
  induction a generalizing out_preds with
  | nil => rfl
  | cons part rest ih =>
    simp only [List.cons_append, updatePartitions]
    split
    · rfl
    · cases runBlocks (updateBlock tree snode evaluator param part) (partBlocks part)
          out_preds with
      | none => rfl
      | some out1 => exact ih out1

theorem updatePartitions_ne_fatal (tree : List TreeNodeStatus) (snode : List (NodeEntry K))
    (evaluator : SplitEvaluator K) (param : TrainParam K) (partitioner : List (List (List Nat)))
    (h : ∀ part ∈ partitioner, part.length = tree.length) (out_preds : List K) :
    updatePartitions tree snode evaluator param partitioner out_preds ≠ Run.fatal := by
  induction partitioner generalizing out_preds with
  | nil => intro hc; cases hc
  | cons part rest ih =>
    simp only [updatePartitions, h part (List.mem_cons_self _ _), ne_eq, not_true_eq_false,
      if_false]
    cases runBlocks (updateBlock tree snode evaluator param part) (partBlocks part)
        out_preds with
    | none => intro hc; cases hc
    | some out1 => exact ih (fun p hp => h p (List.mem_cons_of_mem _ hp)) out1

theorem updatePartitions_ok (tree : List TreeNodeStatus) (snode : List (NodeEntry K))
    (evaluator : SplitEvaluator K) (param : TrainParam K) (hsnode : tree.length ≤ snode.length)
    (partitioner : List (List (List Nat))) :
    ∀ (out_preds : List K), (∀ part ∈ partitioner, part.length = tree.length) →
      (∀ part ∈ partitioner, ∀ r ∈ leafRows tree part, r < out_preds.length) →
      ∃ out1, updatePartitions tree snode evaluator param partitioner out_preds = Run.ok out1 ∧
        out1.length = out_preds.length := by
  induction partitioner with
  | nil => intro out_preds _ _; exact ⟨out_preds, rfl, rfl⟩
  | cons part rest ih =>
    intro out_preds hsize hrows
    have hpart := hsize part (List.mem_cons_self _ _)
    obtain ⟨out1, h1, h2⟩ := applyOps_some (leafOps tree snode evaluator param part) out_preds
      (by
        intro op hop
        apply hrows part (List.mem_cons_self _ _)
        rw [← leafOps_fst tree snode evaluator param part]
        exact List.mem_map_of_mem Prod.fst hop)
    have hrun : runBlocks (updateBlock tree snode evaluator param part) (partBlocks part)
        out_preds = some out1 := by
      rw [runBlocks_eq_applyOps _ (blockOps tree snode evaluator param part), partBlocks_ops, h1]
      intro b hb out
      exact updateBlock_eq_applyOps tree _ _ param part hpart hsnode b (mem_partBlocks part b hb)
        out
    obtain ⟨out2, h3, h4⟩ := ih out1 (fun p hp => hsize p (List.mem_cons_of_mem _ hp))
      (fun p hp r hr => by rw [h2]; exact hrows p (List.mem_cons_of_mem _ hp) r hr)
    refine ⟨out2, ?_, by rw [h4, h2]⟩
    simp only [updatePartitions, hpart, ne_eq, not_true_eq_false, if_false, hrun]
    exact h3

theorem sequentialEntries_no_items [FloorRing K] (self : HistEvaluator K)
    (hist : Nat → List (GradStats K)) (cut : HistogramCuts K)
    (feature_types : List FeatureType) (GetDepth : Nat → Nat) (evaluator : SplitEvaluator K)
    (order : Nat → List Nat) :
    ∀ (entries : List (ExpandEntry K)) (i : Nat),
      (∀ j e, entries[j]? = some e → order (i + j) = []) →
      sequentialEntries self hist cut feature_types GetDepth evaluator order i entries =
        some entries := by
  intro entries
  induction entries with
  | nil => intro i _; rfl
  | cons entry entries ih =>
    intro i h
    have h0 : order i = [] := by
      have := h 0 entry (by simp)
      simpa using this
    have hrest := ih (i + 1) (by
      intro j e he
      have := h (j + 1) e (by simpa using he)
      rw [show i + 1 + j = i + (j + 1) by omega]
      exact this)
    simp only [sequentialEntries, h0, evaluateItems, hrest]

/-! ## Where the split of an entry comes from -/

/-- Every local best of the scans of one feature comes from a scan of that feature started
from a default record, and the feature is allowed for the node. -/
theorem featureBests_of_scans [FloorRing K] (self : HistEvaluator K) (cut : HistogramCuts K)
    (feature_types : List FeatureType) (histogram : List (GradStats K))
    (evaluator : SplitEvaluator K) (nidx fidx : Nat) (bs : List (SplitEntry K))
    (P : SplitEntry K → Prop)
    (hP : ∀ (d : Int) (st : SplitType) (si : List Nat) (r : SplitEntry K × GradStats K),
      EnumerateSplit self d st cut si histogram fidx nidx evaluator SplitEntry.fresh = some r →
      P r.1)
    (h : featureBests self cut feature_types histogram evaluator nidx fidx = some bs) :
    ∀ b ∈ bs, self.interaction_constraints_.Query nidx fidx = true ∧ P b := by
  have two : ∀ (d1 d2 : Int) (st1 st2 : SplitType) (si1 si2 : List Nat)
      (r1 r2 : SplitEntry K × GradStats K),
      EnumerateSplit self d1 st1 cut si1 histogram fidx nidx evaluator SplitEntry.fresh = some r1 →
      EnumerateSplit self d2 st2 cut si2 histogram fidx nidx evaluator SplitEntry.fresh = some r2 →
      ∀ b ∈ [r1.1, r2.1], P b := by
    intro d1 d2 st1 st2 si1 si2 r1 r2 h1 h2 b hb
    simp only [List.mem_cons, List.mem_singleton, List.not_mem_nil, or_false] at hb
    rcases hb with rfl | rfl
    · exact hP d1 st1 si1 r1 h1
    · exact hP d2 st2 si2 r2 h2
  unfold featureBests at h
  split at h
  · simp only [Option.some.injEq] at h
    subst h
    intro b hb; cases hb
  · rename_i hq
    have hq1 : self.interaction_constraints_.Query nidx fidx = true := by
      simpa using hq
    intro b hb
    refine ⟨hq1, ?_⟩
    revert b
    split at h
    · split at h
      · rename_i p1 p0 _ _
        split at h
        · cases h1 : EnumerateSplit self 1 SplitType.kOneHot cut [] histogram fidx nidx evaluator
              SplitEntry.fresh with
          | none => rw [h1] at h; cases h
          | some r1 =>
            rw [h1] at h
            simp only at h
            cases h2 : EnumerateSplit self (-1) SplitType.kOneHot cut [] histogram fidx nidx
                evaluator SplitEntry.fresh with
            | none => rw [h2] at h; cases h
            | some r2 =>
              rw [h2] at h
              simp only [Option.some.injEq] at h
              subst h
              exact two _ _ _ _ _ _ r1 r2 h1 h2
        · cases hsub : subspan histogram p0 (subU32 p1 p0 : Int) with
          | none => rw [hsub] at h; cases h
          | some feat_hist =>
            rw [hsub] at h
            simp only at h
            cases h1 : EnumerateSplit self 1 SplitType.kPart cut
                (stable_sort_by_key
                  (fun l => evaluator.CalcWeightCat self.param_ (feat_hist.getD l GradStats.zero))
                  (List.range (subU32 p1 p0)))
                histogram fidx nidx evaluator SplitEntry.fresh with
            | none => rw [h1] at h; cases h
            | some r1 =>
              rw [h1] at h
              simp only at h
              cases h2 : EnumerateSplit self (-1) SplitType.kPart cut
                  (stable_sort_by_key
                    (fun l => evaluator.CalcWeightCat self.param_
                      (feat_hist.getD l GradStats.zero))
                    (List.range (subU32 p1 p0)))
                  histogram fidx nidx evaluator SplitEntry.fresh with
              | none => rw [h2] at h; cases h
              | some r2 =>
                rw [h2] at h
                simp only [Option.some.injEq] at h
                subst h
                exact two _ _ _ _ _ _ r1 r2 h1 h2
      · cases h
    · cases h1 : EnumerateSplit self 1 SplitType.kNum cut [] histogram fidx nidx evaluator
          SplitEntry.fresh with
      | none => rw [h1] at h; cases h
      | some r1 =>
        rw [h1] at h
        simp only at h
        cases hsn : self.snode_[nidx]? with
        | none => rw [hsn] at h; cases h
        | some snode =>
          rw [hsn] at h
          simp only at h
          split at h
          · cases h2 : EnumerateSplit self (-1) SplitType.kNum cut [] histogram fidx nidx
                evaluator SplitEntry.fresh with
            | none => rw [h2] at h; cases h
            | some r2 =>
              rw [h2] at h
              simp only [Option.some.injEq] at h
              subst h
              exact two _ _ _ _ _ _ r1 r2 h1 h2
          · simp only [Option.some.injEq] at h
            subst h
            intro b hb
            simp only [List.mem_singleton] at hb
            subst hb
            exact hP 1 SplitType.kNum [] r1 h1


theorem itemsBests_of_scans [FloorRing K] (self : HistEvaluator K) (cut : HistogramCuts K)
    (feature_types : List FeatureType) (histogram : List (GradStats K))
    (evaluator : SplitEvaluator K) (nidx : Nat) (features_set : List Nat)
    (P : Nat → SplitEntry K → Prop)
    (hP : ∀ (fidx : Nat) (d : Int) (st : SplitType) (si : List Nat)
      (r : SplitEntry K × GradStats K),
      EnumerateSplit self d st cut si histogram fidx nidx evaluator SplitEntry.fresh = some r →
      P fidx r.1) :
    ∀ (items : List Nat) (bs : List (SplitEntry K)),
      itemsBests self cut feature_types histogram evaluator nidx features_set items = some bs →
      ∀ b ∈ bs, ∃ fidx ∈ features_set,
        self.interaction_constraints_.Query nidx fidx = true ∧ P fidx b := by
  intro items
  induction items with
  | nil =>
    intro bs h b hb
    simp only [itemsBests, Option.some.injEq] at h
    subst h; cases hb
  | cons k items ih =>
    intro bs h b hb
    simp only [itemsBests] at h
    cases hf : features_set[k]? with
    | none => rw [hf] at h; cases h
    | some fidx =>
      rw [hf] at h
      simp only at h
      cases ha : featureBests self cut feature_types histogram evaluator nidx fidx with
      | none => rw [ha] at h; cases h
      | some a =>
        rw [ha] at h
        simp only at h
        cases hr : itemsBests self cut feature_types histogram evaluator nidx features_set
            items with
        | none => rw [hr] at h; cases h
        | some c =>
          rw [hr] at h
          simp only [Option.some.injEq] at h
          subst h
          rcases List.mem_append.mp hb with h1 | h1
          · exact ⟨fidx, List.getElem?_mem hf,
              featureBests_of_scans self cut feature_types histogram evaluator nidx fidx a
                (P fidx) (hP fidx) ha b h1⟩
          · exact ih c hr b h1

theorem sequentialEntries_firstMax [FloorRing K] (self : HistEvaluator K)
    (hist : Nat → List (GradStats K)) (cut : HistogramCuts K)
    (feature_types : List FeatureType) (GetDepth : Nat → Nat) (evaluator : SplitEvaluator K)
    (order : Nat → List Nat) :
    ∀ (entries out : List (ExpandEntry K)) (i : Nat),
      sequentialEntries self hist cut feature_types GetDepth evaluator order i entries
        = some out →
      ∀ (j : Nat) (e e1 : ExpandEntry K), entries[j]? = some e → out[j]? = some e1 →
        e1.nid = e.nid ∧
          ∃ bs, itemsBests self cut feature_types (hist e.nid) evaluator e.nid
              (self.GetFeatureSet (GetDepth e.nid)) (order (i + j)) = some bs ∧
            e1.split = firstMax SplitEntry.loss_chg e.split bs := by
  intro entries
  induction entries with
  | nil =>
    intro out i _ j e e1 he
    simp at he
  | cons entry entries ih =>
    intro out i h j e e1 he he1
    simp only [sequentialEntries, evaluateItems_eq] at h
    cases hb : itemsBests self cut feature_types (hist entry.nid) evaluator entry.nid
        (self.GetFeatureSet (GetDepth entry.nid)) (order i) with
    | none => rw [hb] at h; cases h
    | some bs =>
      rw [hb] at h
      simp only [Option.map_some'] at h
      cases hr : sequentialEntries self hist cut feature_types GetDepth evaluator order (i + 1)
          entries with
      | none => rw [hr] at h; cases h
      | some rest =>
        rw [hr] at h
        simp only [Option.some.injEq] at h
        subst h
        cases j with
        | zero =>
          simp only [List.getElem?_cons_zero, Option.some.injEq] at he he1
          subst he
          subst he1
          exact ⟨rfl, bs, by simpa using hb, rfl⟩
        | succ j =>
          simp only [List.getElem?_cons_succ] at he he1
          have := ih rest (i + 1) hr j e e1 he he1
          rw [show i + 1 + j = i + (j + 1) by omega] at this
          exact this

theorem EnumerateSplit_fresh_feature [FloorRing K] (self : HistEvaluator K) (d_step : Int)
    (split_type : SplitType) (cut : HistogramCuts K) (sorted_idx : List Nat)
    (hist : List (GradStats K)) (fidx nidx : Nat) (evaluator : SplitEvaluator K)
    (r : SplitEntry K × GradStats K)
    (h : EnumerateSplit self d_step split_type cut sorted_idx hist fidx nidx evaluator
      SplitEntry.fresh = some r) :
    r.1 = SplitEntry.fresh ∨ r.1.sindex = fidx := by
  obtain ⟨parent, p0, p1, hd, hpar, _⟩ :=
    EnumerateSplit_wf self d_step split_type cut sorted_idx hist fidx nidx evaluator _ r h
  rcases EnumerateSplit_record self d_step split_type cut sorted_idx hist fidx nidx evaluator
    SplitEntry.fresh r.1 r.2 parent hpar h with h1 | h1 | ⟨o, t, imin, hs, _, hot⟩
  · exact Or.inl h1
  · exact Or.inl h1
  · right
    have := (offerAt_some self d_step split_type cut fidx nidx evaluator parent imin t o hot).2.2.2.1
    rw [hs.2.1, this]

/-! ## The partition scan and the rank order -/

theorem partition_trace_entry (d_step : Int) (hd : d_step = 1 ∨ d_step = -1)
    (hist f_hist : List (GradStats K)) (sorted_idx : List Nat) (parent : NodeEntry K)
    (ibegin : Int) :
    ∀ (n j0 : Nat) (l r : GradStats K) (tr : List (Int × GradStats K × GradStats K)),
      sumsTrace (calc_bin_value d_step SplitType.kPart hist f_hist sorted_idx parent ibegin)
        (positions d_step (ibegin + d_step * j0) n) l r = some tr →
      ∀ t ∈ tr, ∃ k : Nat, k < n ∧ t.1 = ibegin + d_step * ((j0 + k : Nat) : Int) ∧
        j0 + k < sorted_idx.length ∧
        t.2.2 = runSum f_hist sorted_idx r j0 (k + 1) ∧
        t.2.1 = GradStats.SetSubstract parent.stats t.2.2 := by
  intro n
  induction n with
  | zero =>
    intro j0 l r tr h t ht
    simp only [positions, sumsTrace, Option.some.injEq] at h
    subst h; cases ht
  | succ n ih =>
    intro j0 l r tr h t ht
    simp only [positions, sumsTrace] at h
    cases hc : calc_bin_value d_step SplitType.kPart hist f_hist sorted_idx parent ibegin
        (ibegin + d_step * j0) l r with
    | none => rw [hc] at h; cases h
    | some lr =>
      rw [hc] at h
      simp only at h
      have hnext : ibegin + d_step * (j0 : Int) + d_step = ibegin + d_step * ((j0 + 1 : Nat) : Int) := by
        push_cast; ring
      rw [hnext] at h
      cases hs : sumsTrace (calc_bin_value d_step SplitType.kPart hist f_hist sorted_idx parent
          ibegin) (positions d_step (ibegin + d_step * ((j0 + 1 : Nat) : Int)) n) lr.1 lr.2 with
      | none => rw [hs] at h; cases h
      | some tr1 =>
        rw [hs] at h
        simp only [Option.some.injEq] at h
        subst h
        unfold calc_bin_value at hc
        simp only at hc
        have hj : (if d_step = 1 then ibegin + d_step * (j0 : Int) - ibegin
            else ibegin - (ibegin + d_step * (j0 : Int))) = (j0 : Int) := by
          rcases hd with rfl | rfl
          · simp
          · simp
        rw [hj, getI_natCast] at hc
        cases hg : sorted_idx[j0]? with
        | none => rw [hg] at hc; cases hc
        | some c =>
          rw [hg] at hc
          simp only at hc
          cases hf : f_hist[c]? with
          | none => rw [hf] at hc; cases hc
          | some x =>
            rw [hf] at hc
            simp only [Option.some.injEq] at hc
            subst hc
            have hlt : j0 < sorted_idx.length := by
              by_contra hcon
              rw [List.getElem?_eq_none (by omega)] at hg
              cases hg
            have hdrop : sorted_idx.drop j0 = c :: sorted_idx.drop (j0 + 1) := by
              rw [List.drop_eq_getElem_cons hlt]
              congr 1
              have := List.getElem?_eq_getElem hlt
              rw [hg] at this
              exact (Option.some.inj this).symm
            rcases List.mem_cons.mp ht with rfl | ht1
            · refine ⟨0, Nat.succ_pos n, by simp, by simpa using hlt, ?_, rfl⟩
              rw [GradStats.eq_iff]
              simp [runSum, hdrop, hf, GradStats.Add, GradStats.GetGrad, GradStats.GetHess]
            · obtain ⟨k, hk, h1, h2, h3, h4⟩ := ih (j0 + 1) _ _ tr1 hs t ht1
              refine ⟨k + 1, Nat.succ_lt_succ hk, by rw [h1]; congr 2; push_cast; ring,
                by omega, ?_, h4⟩
              rw [h3, GradStats.eq_iff]
              simp [runSum, hdrop, hf, GradStats.Add, GradStats.GetGrad, GradStats.GetHess,
                add_assoc]

theorem runSum_zero (f_hist : List (GradStats K)) (sorted_idx : List Nat) (k : Nat) :
    runSum f_hist sorted_idx GradStats.zero 0 k = prefixSum f_hist sorted_idx k := by
  simp [runSum, prefixSum, GradStats.zero]

/-- Partition scan, either direction: the child sums at each visited position. The `k`-th
visited position has the first `k` categories of the order in `right_sum` and the parent
minus them in `left_sum`. -/
theorem partition_entry (d_step : Int) (hd : d_step = 1 ∨ d_step = -1)
    (sorted_idx : List Nat) (hist : List (GradStats K)) (parent : NodeEntry K) (p0 p1 : Nat)
    (tr : List (Int × GradStats K × GradStats K))
    (htr : callTrace d_step SplitType.kPart sorted_idx hist parent p0 p1 = some tr)
    (t : Int × GradStats K × GradStats K) (ht : t ∈ tr) :
    ∃ k : Nat, 1 ≤ k ∧ k ≤ p1 - p0 ∧ k ≤ sorted_idx.length ∧
      t.1 = scanBegin d_step p0 p1 + d_step * ((k : Int) - 1) ∧
      t.2.2 = prefixSum ((hist.drop p0).take (p1 - p0)) sorted_idx k ∧
      t.2.1 = GradStats.SetSubstract parent.stats t.2.2 := by
  unfold callTrace at htr
  have h0 : scanBegin d_step p0 p1 = scanBegin d_step p0 p1 + d_step * ((0 : Nat) : Int) := by
    simp
  have htr1 : sumsTrace (calc_bin_value d_step SplitType.kPart hist
      ((hist.drop p0).take (p1 - p0)) sorted_idx parent (scanBegin d_step p0 p1))
      (positions d_step (scanBegin d_step p0 p1 + d_step * ((0 : Nat) : Int)) (p1 - p0))
      GradStats.zero GradStats.zero = some tr := by
    rw [← h0]; exact htr
  obtain ⟨k, hk, h1, h2, h3, h4⟩ := partition_trace_entry d_step hd hist _ sorted_idx parent _
    _ 0 _ _ tr htr1 t ht
  rw [runSum_zero] at h3
  refine ⟨k + 1, by omega, by omega, by omega, ?_, h3, h4⟩
  rw [h1]; push_cast; ring_nf

theorem partition_has (d_step : Int) (hd : d_step = 1 ∨ d_step = -1)
    (sorted_idx : List Nat) (hist : List (GradStats K)) (parent : NodeEntry K) (p0 p1 : Nat)
    (tr : List (Int × GradStats K × GradStats K))
    (htr : callTrace d_step SplitType.kPart sorted_idx hist parent p0 p1 = some tr)
    (k : Nat) (h1 : 1 ≤ k) (h2 : k ≤ p1 - p0) :
    ∃ t ∈ tr, t.2.2 = prefixSum ((hist.drop p0).take (p1 - p0)) sorted_idx k ∧
      t.2.1 = GradStats.SetSubstract parent.stats t.2.2 := by
  have hmem : scanBegin d_step p0 p1 + d_step * ((k : Int) - 1) ∈
      positions d_step (scanBegin d_step p0 p1) (p1 - p0) := by
    rw [mem_positions]
    exact ⟨k - 1, by omega, by congr 2; omega⟩
  obtain ⟨t, ht, hti⟩ := sumsTrace_has_position _ _ _ _ tr htr _ hmem
  obtain ⟨k1, _, _, _, e1, e2, e3⟩ := partition_entry d_step hd sorted_idx hist parent p0 p1 tr
    htr t ht
  have : k1 = k := by
    rw [hti] at e1
    rcases hd with rfl | rfl <;> omega
  subst this
  exact ⟨t, ht, e2, e3⟩


theorem stable_sort_by_key_perm (key : Nat → K) (xs : List Nat) :
    (stable_sort_by_key key xs).Perm xs :=
  List.perm_insertionSort _ xs

theorem orderedInsert_stable (key : Nat → K) (x : Nat) :
    ∀ (l : List Nat), (∀ y ∈ l, x < y) →
      l.Pairwise (fun a b => key a < key b ∨ (key a = key b ∧ a < b)) →
      (List.orderedInsert (fun l r => ¬ key r < key l) x l).Pairwise
        (fun a b => key a < key b ∨ (key a = key b ∧ a < b)) := by
  intro l
  induction l with
  | nil => intro _ _; simp
  | cons y l ih =>
    intro hx hp
    rw [List.pairwise_cons] at hp
    simp only [List.orderedInsert]
    split
    · rename_i hr
      have hxy : key x ≤ key y := not_lt.mp hr
      rw [List.pairwise_cons]
      refine ⟨?_, List.pairwise_cons.mpr hp⟩
      intro z hz
      have hxz : x < z := hx z hz
      have hkz : key x ≤ key z := by
        rcases List.mem_cons.mp hz with rfl | hz1
        · exact hxy
        · rcases hp.1 z hz1 with h | h
          · exact le_trans hxy (le_of_lt h)
          · exact le_trans hxy (le_of_eq h.1)
      rcases lt_or_eq_of_le hkz with h | h
      · exact Or.inl h
      · exact Or.inr ⟨h, hxz⟩
    · rename_i hr
      have hyx : key y < key x := not_not.mp hr
      rw [List.pairwise_cons]
      refine ⟨?_, ih (fun z hz => hx z (List.mem_cons_of_mem _ hz)) hp.2⟩
      intro z hz
      rcases (List.mem_orderedInsert _).mp hz with rfl | hz1
      · exact Or.inl hyx
      · exact hp.1 z hz1

/-- The sorted order is ascending in the key, and elements with equal keys keep the order
of an ascending input. -/
theorem stable_sort_by_key_stable (key : Nat → K) :
    ∀ (xs : List Nat), xs.Pairwise (fun a b => a < b) →
      (stable_sort_by_key key xs).Pairwise
        (fun a b => key a < key b ∨ (key a = key b ∧ a < b)) := by
  intro xs
  induction xs with
  | nil => intro _; simp [stable_sort_by_key]
  | cons x xs ih =>
    intro hp
    rw [List.pairwise_cons] at hp
    have := orderedInsert_stable key x (stable_sort_by_key key xs)
      (fun y hy => hp.1 y ((List.perm_insertionSort _ xs).mem_iff.mp hy)) (ih hp.2)
    exact this

/-- The loss change of a forward offer whose right child is the accumulated sum `P`. -/
theorem offerAt_forward_gain (self : HistEvaluator K) (split_type : SplitType)
    (cut : HistogramCuts K) (fidx nidx : Nat) (evaluator : SplitEvaluator K)
    (parent : NodeEntry K) (imin : Int) (t : Int × GradStats K × GradStats K)
    (o : Int × SplitEntry K) (P : GradStats K) (e2 : t.2.2 = P)
    (e1 : t.2.1 = GradStats.SetSubstract parent.stats t.2.2)
    (h : offerAt self 1 split_type cut fidx nidx evaluator parent imin t = some (some o)) :
    o.2.loss_chg = self.static_cast_float
      (evaluator.CalcSplitGain self.param_ nidx fidx (GradStats.SetSubstract parent.stats P) P
        - parent.root_gain) := by
  obtain ⟨_, _, _, _, _, _, hdir, hg⟩ :=
    offerAt_some self 1 split_type cut fidx nidx evaluator parent imin t o h
  rcases hdir with ⟨_, hl, hrr, _⟩ | ⟨hn, _⟩
  · rw [hg, hl, hrr, e1, e2]
  · exact absurd (by decide) hn

/-! ## Claims -/

/-- C1: a split recorded by `EnumerateSplit` sums to the parent. Whenever an iteration of
the loop (any strategy, either direction) replaces the local best, the `left_sum` and
`right_sum` it records add up, in both components, to the statistic of the node; and after
a returning call the caller's record is the record it was before, or the default
constructed record, or a record whose `left_sum` and `right_sum` add up, in both
components, to `snode_[nidx].stats`. -/
theorem C1_recorded_split_sums_to_parent [FloorRing K] (self : HistEvaluator K) (d_step : Int)
    (split_type : SplitType) (cut : HistogramCuts K) (sorted_idx : List Nat)
    (hist : List (GradStats K)) (fidx nidx : Nat) (evaluator : SplitEvaluator K) (p_best p1 : SplitEntry K)
    (ret : GradStats K) (parent : NodeEntry K) (hpar : self.snode_[nidx]? = some parent)
    (h : EnumerateSplit self d_step split_type cut sorted_idx hist fidx nidx evaluator p_best =
      some (p1, ret)) :
    (∀ (f_hist : List (GradStats K)) (imin ibegin i : Int) (s s1 : ScanState K),
        scanBody self d_step split_type cut sorted_idx hist f_hist fidx nidx evaluator parent imin ibegin
          i s = some s1 → s1.best ≠ s.best →
        s1.best.left_sum.sum_grad + s1.best.right_sum.sum_grad = parent.stats.sum_grad ∧
          s1.best.left_sum.sum_hess + s1.best.right_sum.sum_hess = parent.stats.sum_hess) ∧
      (p1 = p_best ∨ p1 = SplitEntry.fresh ∨
        (p1.left_sum.sum_grad + p1.right_sum.sum_grad = parent.stats.sum_grad ∧
          p1.left_sum.sum_hess + p1.right_sum.sum_hess = parent.stats.sum_hess)) := by
  constructor
  · intro f_hist imin ibegin i s s1 hb hne
    rw [scanBody_eq] at hb
    cases hc : calc_bin_value d_step split_type hist f_hist sorted_idx parent ibegin i
        s.left_sum s.right_sum with
    | none => rw [hc] at hb; cases hb
    | some lr =>
      rw [hc] at hb
      simp only at hb
      have hsum := calc_bin_value_sum d_step split_type hist f_hist sorted_idx parent ibegin i
        s.left_sum s.right_sum lr hc
      have hsum1 : lr.1.sum_grad + lr.2.sum_grad = parent.stats.sum_grad :=
        congrArg GradStats.sum_grad hsum
      have hsum2 : lr.1.sum_hess + lr.2.sum_hess = parent.stats.sum_hess :=
        congrArg GradStats.sum_hess hsum
      cases ho : offerAt self d_step split_type cut fidx nidx evaluator parent imin (i, lr.1, lr.2) with
      | none => rw [ho] at hb; cases hb
      | some o =>
        rw [ho] at hb
        simp only [Option.some.injEq] at hb
        subst hb
        cases o with
        | none => exact absurd rfl hne
        | some o =>
          obtain ⟨_, _, _, _, _, _, hdir, _⟩ :=
            offerAt_some self d_step split_type cut fidx nidx evaluator parent imin _ o ho
          have hbest : (finish s [(i, lr.1, lr.2)] (some o).toList).best =
              (s.best.UpdateWith o.2.loss_chg o.2.sindex o.2.split_value o.2.default_left
                o.2.is_cat o.2.left_sum o.2.right_sum).2 := rfl
          rw [hbest] at hne ⊢
          unfold SplitEntry.UpdateWith at hne ⊢
          by_cases hr : s.best.NeedReplace o.2.loss_chg = true
          · simp only [if_pos hr]
            rcases hdir with ⟨_, e1, e2, _⟩ | ⟨_, e1, e2, _⟩
            · rw [e1, e2]; exact ⟨hsum1, hsum2⟩
            · rw [e1, e2]
              exact ⟨by rw [add_comm]; exact hsum1, by rw [add_comm]; exact hsum2⟩
          · rw [if_neg hr] at hne
            exact absurd rfl hne
  · rcases EnumerateSplit_record self d_step split_type cut sorted_idx hist fidx nidx evaluator p_best p1
      ret parent hpar h with h1 | h1 | ⟨o, t, imin, hs, hsum, hot⟩
    · exact Or.inl h1
    · exact Or.inr (Or.inl h1)
    · right; right
      obtain ⟨_, _, _, _, _, _, hdir, _⟩ :=
        offerAt_some self d_step split_type cut fidx nidx evaluator parent imin t o hot
      obtain ⟨_, _, _, _, _, hl, hr⟩ := hs
      rw [hl, hr]
      have hsum1 : t.2.1.sum_grad + t.2.2.sum_grad = parent.stats.sum_grad :=
        congrArg GradStats.sum_grad hsum
      have hsum2 : t.2.1.sum_hess + t.2.2.sum_hess = parent.stats.sum_hess :=
        congrArg GradStats.sum_hess hsum
      rcases hdir with ⟨_, e1, e2, _⟩ | ⟨_, e1, e2, _⟩
      · rw [e1, e2]; exact ⟨hsum1, hsum2⟩
      · rw [e1, e2]; exact ⟨by rw [add_comm]; exact hsum1, by rw [add_comm]; exact hsum2⟩

/-- A run of C1: the backward numeric scan of the example row records `(-1,3) + (1,1)`. -/
theorem C1_recorded_split_sums_to_parent_witness :
    ((exampleSelf 0).snode_[0]? = some { stats := ⟨0, 4⟩, root_gain := 0 } ∧
      EnumerateSplit (exampleSelf 0) (-1) SplitType.kNum exampleCut [] exampleHist 0 0 exampleEvaluator
        SplitEntry.fresh = some (exampleBackwardSplit, ⟨0, 4⟩)) ∧
      (exampleBackwardSplit = SplitEntry.fresh ∨ exampleBackwardSplit = SplitEntry.fresh ∨
        (exampleBackwardSplit.left_sum.sum_grad + exampleBackwardSplit.right_sum.sum_grad = 0 ∧
          exampleBackwardSplit.left_sum.sum_hess + exampleBackwardSplit.right_sum.sum_hess = 4)) :=
  ⟨⟨by decide, by decide⟩,
    (C1_recorded_split_sums_to_parent (exampleSelf 0) (-1) SplitType.kNum exampleCut []
      exampleHist 0 0 exampleEvaluator SplitEntry.fresh exampleBackwardSplit ⟨0, 4⟩
      { stats := ⟨0, 4⟩, root_gain := 0 } (by decide) (by decide)).2⟩

/-- C2 as stated fails when two gains differ by less than single precision resolves: on the
bins `(-16777216,1), (-1,1), (1,1), (16777216,1)` with parent `(0,4)`, root gain `0`,
`min_child_weight = 0` and the gain "minus the gradient sum of the left child", the forward
numeric scan sees the gains `16777216, 16777217, 16777216, 0` at its four positions, all
eligible. Their maximum `G = 16777217` is greater than the prior gain `0` and is attained
at position `1` only, but `static_cast<float>` rounds it to `16777216`, which is not
greater than the loss change already recorded at position `0`: the record keeps the gain
`16777216`, the threshold of position `0` and its child sums. -/
theorem C2_counterexample :
    callTrace 1 SplitType.kNum [] roundingHist { stats := ⟨0, 4⟩, root_gain := 0 } 0 4 =
        some roundingTrace ∧
      (∀ t ∈ roundingTrace, eligible (exampleSelf 0) t.2.1 t.2.2) ∧
      (roundingTrace.map fun t =>
        leftGradEvaluator.CalcSplitGain (exampleSelf 0).param_ 0 0 t.2.1 t.2.2 - 0) =
        [16777216, 16777217, 16777216, 0] ∧
      float32 16777217 = 16777216 ∧
      EnumerateSplit (exampleSelf 0) 1 SplitType.kNum exampleCut [] roundingHist 0 0
        leftGradEvaluator SplitEntry.fresh = some (roundingSplit, ⟨0, 4⟩) ∧
      roundingSplit.loss_chg ≠ 16777217 ∧
      exampleCut.Values[1]? = some 1 ∧ roundingSplit.split_value ≠ 1 ∧
      roundingSplit.left_sum ≠ ⟨-16777217, 2⟩ := by
  decide

/-- C2 (amended): the eligible position with the greatest loss change wins, the first one
on ties, where the loss change of a position is what the loop computes there,
`static_cast<float>(CalcSplitGain(left, right) - root_gain)`. Let `offs` be the offers of
the eligible scan positions of a returning call, in scan order; each has that loss change.
If the offer `c` has the greatest loss change, no offer before it reaches it, and it is
greater than the prior gain of the caller's record and than zero, then afterwards the
caller's record has the gain, threshold, default direction and child sums of `c` and the
feature `fidx`. -/
theorem C2_first_maximal_position_wins [FloorRing K] (self : HistEvaluator K) (d_step : Int)
    (split_type : SplitType) (cut : HistogramCuts K) (sorted_idx : List Nat)
    (hist : List (GradStats K)) (fidx nidx : Nat) (evaluator : SplitEvaluator K) (p_best p1 : SplitEntry K)
    (ret : GradStats K) (parent : NodeEntry K) (q0 q1 : Nat)
    (tr : List (Int × GradStats K × GradStats K)) (offs l1 l2 : List (Int × SplitEntry K))
    (c : Int × SplitEntry K)
    (hpar : self.snode_[nidx]? = some parent) (hq0 : cut.Ptrs[fidx]? = some q0)
    (hq1 : cut.Ptrs[fidx + 1]? = some q1)
    (htr : callTrace d_step split_type sorted_idx hist parent q0 q1 = some tr)
    (hoffs : offersOf (offerAt self d_step split_type cut fidx nidx evaluator parent (q0 : Int)) tr
      = some offs)
    (hsplit : offs = l1 ++ c :: l2)
    (hbefore : ∀ o ∈ l1, o.2.loss_chg < c.2.loss_chg)
    (hafter : ∀ o ∈ l2, o.2.loss_chg ≤ c.2.loss_chg)
    (hprior : p_best.loss_chg < c.2.loss_chg) (hzero : 0 < c.2.loss_chg)
    (h : EnumerateSplit self d_step split_type cut sorted_idx hist fidx nidx evaluator p_best =
      some (p1, ret)) :
    p1.loss_chg = c.2.loss_chg ∧ p1.sindex = fidx ∧ p1.split_value = c.2.split_value ∧
      p1.default_left = c.2.default_left ∧ p1.left_sum = c.2.left_sum ∧
      p1.right_sum = c.2.right_sum ∧
      p1.loss_chg = self.static_cast_float
        (evaluator.CalcSplitGain self.param_ nidx fidx p1.left_sum p1.right_sum
          - parent.root_gain) ∧
      (∀ o ∈ offs, o.2.loss_chg = self.static_cast_float
        (evaluator.CalcSplitGain self.param_ nidx fidx o.2.left_sum o.2.right_sum
          - parent.root_gain)) := by
  obtain ⟨parent1, p0, q, tr1, offs1, best, hd, hpar1, hp0, hp1, h01, hlen, hmax, htr1, hoffs1,
    hfill, hr⟩ := EnumerateSplit_some self d_step split_type cut sorted_idx hist fidx nidx evaluator p_best
      _ h
  rw [hpar] at hpar1
  rw [hq0] at hp0
  rw [hq1] at hp1
  obtain rfl := Option.some.inj hpar1
  obtain rfl := Option.some.inj hp0
  obtain rfl := Option.some.inj hp1
  rw [htr] at htr1
  obtain rfl := Option.some.inj htr1
  rw [hoffs] at hoffs1
  obtain rfl := Option.some.inj hoffs1
  have hb := finish_best self d_step split_type cut fidx nidx evaluator parent (q0 : Int) tr offs hoffs
  rw [hsplit, firstMax_eq_first offerKey ((-1 : Int), (SplitEntry.fresh : SplitEntry K)) c l1 l2
    hzero hbefore hafter] at hb
  have hbest : (finish scanInit tr (l1 ++ c :: l2)).best = c.2 := congrArg Prod.snd hb
  rw [hsplit] at hfill
  have hs := fillCatBits_sameSplit _ _ _ _ _ _ _ _ _ hfill
  rw [hbest] at hs
  obtain ⟨s1, s2, s3, s4, s5, s6, s7⟩ := hs
  have hp : p1 = best := by
    have : p1 = p_best.Update best := congrArg Prod.fst hr
    rw [this]
    unfold SplitEntry.Update SplitEntry.NeedReplace
    rw [if_pos (by rw [s1]; exact decide_eq_true hprior)]
  subst hp
  have hc : c ∈ offs := by rw [hsplit]; simp
  obtain ⟨t, _, hot⟩ := offersOf_mem _ tr offs hoffs c hc
  obtain ⟨_, _, _, hidx, _, _, _, hgain⟩ :=
    offerAt_some self d_step split_type cut fidx nidx evaluator parent (q0 : Int) t c hot
  refine ⟨s1, by rw [s2, hidx], s4, s3, s6, s7, ?_, ?_⟩
  · rw [s1, s6, s7]
    exact hgain
  · intro o ho
    obtain ⟨t1, _, hot1⟩ := offersOf_mem _ tr offs hoffs o ho
    exact (offerAt_some self d_step split_type cut fidx nidx evaluator parent (q0 : Int) t1 o
      hot1).2.2.2.2.2.2.2

/-- C3: the acceptance rule. One iteration of the loop changes the local best only when
both child sums computed at the position have a hessian sum of at least
`min_child_weight`; hence after a returning call the caller's record is the record before,
the default record, or a record with both child hessian sums at least `min_child_weight`. -/
theorem C3_recorded_children_meet_min_child_weight [FloorRing K] (self : HistEvaluator K)
    (d_step : Int) (split_type : SplitType) (cut : HistogramCuts K) (sorted_idx : List Nat)
    (hist : List (GradStats K)) (fidx nidx : Nat) (evaluator : SplitEvaluator K) (p_best p1 : SplitEntry K)
    (ret : GradStats K)
    (h : EnumerateSplit self d_step split_type cut sorted_idx hist fidx nidx evaluator p_best =
      some (p1, ret)) :
    (∀ (f_hist : List (GradStats K)) (parent : NodeEntry K) (imin ibegin i : Int)
        (s s1 : ScanState K),
        scanBody self d_step split_type cut sorted_idx hist f_hist fidx nidx evaluator parent imin ibegin
          i s = some s1 → s1.best ≠ s.best →
        self.param_.min_child_weight ≤ s1.left_sum.GetHess ∧
          self.param_.min_child_weight ≤ s1.right_sum.GetHess) ∧
      (p1 = p_best ∨ p1 = SplitEntry.fresh ∨
        (self.param_.min_child_weight ≤ p1.left_sum.GetHess ∧
          self.param_.min_child_weight ≤ p1.right_sum.GetHess)) := by
  constructor
  · intro f_hist parent imin ibegin i s s1 hb hne
    rw [scanBody_eq] at hb
    cases hc : calc_bin_value d_step split_type hist f_hist sorted_idx parent ibegin i
        s.left_sum s.right_sum with
    | none => rw [hc] at hb; cases hb
    | some lr =>
      rw [hc] at hb
      simp only at hb
      cases ho : offerAt self d_step split_type cut fidx nidx evaluator parent imin (i, lr.1, lr.2) with
      | none => rw [ho] at hb; cases hb
      | some o =>
        rw [ho] at hb
        simp only [Option.some.injEq] at hb
        subst hb
        cases o with
        | none => exact absurd rfl hne
        | some o =>
          exact (offerAt_some self d_step split_type cut fidx nidx evaluator parent imin _ o ho).1
  · obtain ⟨parent, p0, q, tr, offs, best, hd, hpar, _⟩ :=
      EnumerateSplit_some self d_step split_type cut sorted_idx hist fidx nidx evaluator p_best _ h
    rcases EnumerateSplit_record self d_step split_type cut sorted_idx hist fidx nidx evaluator p_best p1
      ret parent hpar h with h1 | h1 | ⟨o, t, imin, hs, _, hot⟩
    · exact Or.inl h1
    · exact Or.inr (Or.inl h1)
    · right; right
      obtain ⟨he, _, _, _, _, _, hdir, _⟩ :=
        offerAt_some self d_step split_type cut fidx nidx evaluator parent imin t o hot
      obtain ⟨_, _, _, _, _, hl, hr⟩ := hs
      rw [hl, hr]
      rcases hdir with ⟨_, e1, e2, _⟩ | ⟨_, e1, e2, _⟩
      · rw [e1, e2]; exact he
      · rw [e1, e2]; exact ⟨he.2, he.1⟩

/-- A run of C2 (amended): in the forward numeric scan of the example row the positions
`0` and `2` both reach the greatest loss change `2`; the record ends on position `0`. -/
theorem C2_first_maximal_position_wins_witness :
    (EnumerateSplit (exampleSelf 0) 1 SplitType.kNum exampleCut [] exampleHist 0 0 exampleEvaluator
        SplitEntry.fresh = some (exampleForwardSplit, ⟨0, 4⟩) ∧
      offersOf (offerAt (exampleSelf 0) 1 SplitType.kNum exampleCut 0 0 exampleEvaluator
        { stats := ⟨0, 4⟩, root_gain := 0 } ((0 : Nat) : Int)) exampleForwardTrace =
        some ([] ++ (0, exampleForwardSplit) :: exampleForwardLater) ∧
      (∀ o ∈ exampleForwardLater, o.2.loss_chg ≤ 2)) ∧
      (exampleForwardSplit.loss_chg = 2 ∧ exampleForwardSplit.sindex = 0 ∧
        exampleForwardSplit.split_value = 0 ∧ exampleForwardSplit.default_left = false ∧
        exampleForwardSplit.left_sum = ⟨-1, 1⟩ ∧ exampleForwardSplit.right_sum = ⟨1, 3⟩ ∧
        exampleForwardSplit.loss_chg = float32
          (exampleEvaluator.CalcSplitGain (exampleSelf 0).param_ 0 0
            exampleForwardSplit.left_sum exampleForwardSplit.right_sum - 0) ∧
        (∀ o ∈ [] ++ (0, exampleForwardSplit) :: exampleForwardLater,
          o.2.loss_chg = float32
            (exampleEvaluator.CalcSplitGain (exampleSelf 0).param_ 0 0 o.2.left_sum
              o.2.right_sum - 0))) :=
  ⟨⟨by decide, by decide, by decide⟩,
    C2_first_maximal_position_wins (exampleSelf 0) 1 SplitType.kNum exampleCut [] exampleHist
      0 0 exampleEvaluator SplitEntry.fresh exampleForwardSplit ⟨0, 4⟩ { stats := ⟨0, 4⟩, root_gain := 0 } 0 4
      exampleForwardTrace ([] ++ (0, exampleForwardSplit) :: exampleForwardLater) []
      exampleForwardLater (0, exampleForwardSplit) (by decide) (by decide) (by decide)
      (by decide) (by decide) rfl (by decide) (by decide) (by decide) (by decide) (by decide)⟩

/-- A run of C3: with `min_child_weight = 1` the forward numeric scan of the example row
records children with hessian sums `1` and `3`. -/
theorem C3_recorded_children_meet_min_child_weight_witness :
    EnumerateSplit (exampleSelf 1) 1 SplitType.kNum exampleCut [] exampleHist 0 0 exampleEvaluator
        SplitEntry.fresh = some (exampleForwardSplit, ⟨0, 4⟩) ∧
      (exampleForwardSplit = SplitEntry.fresh ∨ exampleForwardSplit = SplitEntry.fresh ∨
        ((1 : ℤ) ≤ exampleForwardSplit.left_sum.GetHess ∧
          (1 : ℤ) ≤ exampleForwardSplit.right_sum.GetHess)) :=
  ⟨by decide,
    (C3_recorded_children_meet_min_child_weight (exampleSelf 1) 1 SplitType.kNum exampleCut []
      exampleHist 0 0 exampleEvaluator SplitEntry.fresh exampleForwardSplit ⟨0, 4⟩ (by decide)).2⟩

/-- C4 as stated fails: with `min_child_weight = 10` no position of the example row is
eligible, yet a caller's record with gain `-1` is replaced by the default record. -/
theorem C4_counterexample :
    callTrace 1 SplitType.kNum [] exampleHist { stats := ⟨0, 4⟩, root_gain := 0 } 0 4 =
        some exampleForwardTrace ∧
      (∀ t ∈ exampleForwardTrace, ¬ eligible (exampleSelf 10) t.2.1 t.2.2) ∧
      EnumerateSplit (exampleSelf 10) 1 SplitType.kNum exampleCut [] exampleHist 0 0 exampleEvaluator
        negativeRecord = some (SplitEntry.fresh, ⟨0, 4⟩) ∧
      (SplitEntry.fresh : SplitEntry ℤ) ≠ negativeRecord := by
  decide

/-- C4 (amended): a call in which no scan position has both child hessian sums at least
`min_child_weight` leaves the caller's record exactly as it was, for every strategy and
direction, provided the gain of the caller's record is not negative. -/
theorem C4_no_eligible_position_keeps_record [FloorRing K] (self : HistEvaluator K)
    (d_step : Int) (split_type : SplitType) (cut : HistogramCuts K) (sorted_idx : List Nat)
    (hist : List (GradStats K)) (fidx nidx : Nat) (evaluator : SplitEvaluator K) (p_best p1 : SplitEntry K)
    (ret : GradStats K) (parent : NodeEntry K) (q0 q1 : Nat)
    (tr : List (Int × GradStats K × GradStats K))
    (hpar : self.snode_[nidx]? = some parent) (hq0 : cut.Ptrs[fidx]? = some q0)
    (hq1 : cut.Ptrs[fidx + 1]? = some q1)
    (htr : callTrace d_step split_type sorted_idx hist parent q0 q1 = some tr)
    (hno : ∀ t ∈ tr, ¬ eligible self t.2.1 t.2.2)
    (hge : 0 ≤ p_best.loss_chg)
    (h : EnumerateSplit self d_step split_type cut sorted_idx hist fidx nidx evaluator p_best =
      some (p1, ret)) :
    p1 = p_best := by
  obtain ⟨parent1, p0, q, tr1, offs, best, hd, hpar1, hp0, hp1, h01, hlen, hmax, htr1, hoffs,
    hfill, hr⟩ := EnumerateSplit_some self d_step split_type cut sorted_idx hist fidx nidx evaluator p_best
      _ h
  rw [hpar] at hpar1
  rw [hq0] at hp0
  rw [hq1] at hp1
  obtain rfl := Option.some.inj hpar1
  obtain rfl := Option.some.inj hp0
  obtain rfl := Option.some.inj hp1
  rw [htr] at htr1
  obtain rfl := Option.some.inj htr1
  have hnil : offersOf (offerAt self d_step split_type cut fidx nidx evaluator parent (q0 : Int)) tr
      = some [] := by
    apply offersOf_eq_nil
    intro t ht
    unfold offerAt
    rw [if_neg (hno t ht)]
  rw [hnil] at hoffs
  obtain rfl := Option.some.inj hoffs
  have hfresh : fillCatBits d_step split_type cut sorted_idx q0 ((q1 - q0 : Nat) : Int)
      (scanBegin d_step q0 q1) (finish scanInit tr []) = some SplitEntry.fresh :=
    fillCatBits_of_no_thresh _ _ _ _ _ _ _ _ (Or.inr rfl)
  rw [hfresh] at hfill
  obtain rfl := Option.some.inj hfill
  have : p1 = p_best.Update SplitEntry.fresh := congrArg Prod.fst hr
  rw [this]
  unfold SplitEntry.Update SplitEntry.NeedReplace
  rw [if_neg]
  intro hlt
  exact absurd (of_decide_eq_true hlt) (not_lt.mpr hge)

/-- A run of C4 (amended): with `min_child_weight = 10` the split found before is kept. -/
theorem C4_no_eligible_position_keeps_record_witness :
    (callTrace 1 SplitType.kNum [] exampleHist { stats := ⟨0, 4⟩, root_gain := 0 } 0 4 =
        some exampleForwardTrace ∧
      (∀ t ∈ exampleForwardTrace, ¬ eligible (exampleSelf 10) t.2.1 t.2.2) ∧
      0 ≤ exampleBackwardSplit.loss_chg ∧
      EnumerateSplit (exampleSelf 10) 1 SplitType.kNum exampleCut [] exampleHist 0 0 exampleEvaluator
        exampleBackwardSplit = some (exampleBackwardSplit, ⟨0, 4⟩)) ∧
      exampleBackwardSplit = exampleBackwardSplit :=
  ⟨⟨by decide, by decide, by decide, by decide⟩,
    C4_no_eligible_position_keeps_record (exampleSelf 10) 1 SplitType.kNum exampleCut []
      exampleHist 0 0 exampleEvaluator exampleBackwardSplit exampleBackwardSplit ⟨0, 4⟩
      { stats := ⟨0, 4⟩, root_gain := 0 } 0 4 exampleForwardTrace (by decide) (by decide)
      (by decide) (by decide) (by decide) (by decide) (by decide)⟩

/-- C5: the numeric scan and the missing-value test. For a feature whose bin range
`[p0, p1)` is well formed (`p0 ≤ p1`, inside the histogram row and the cut values), the loop
of `EnumerateSplit` runs its body on each bin `p0, ..., p1 - 1` exactly once (ascending
when forward, descending when backward), the numeric scan returns the sum of all bins of
the range in either direction, and `EvaluateSplits` runs the decreasing numeric pass for an
allowed numerical feature exactly when that sum differs from the node's total in the
gradient or in the hessian component. -/
theorem C5_numeric_scan_returns_bin_sum [FloorRing K] (self : HistEvaluator K)
    (cut : HistogramCuts K) (feature_types : List FeatureType) (hist : List (GradStats K))
    (fidx nidx : Nat) (evaluator : SplitEvaluator K) (p_best : SplitEntry K)
    (parent : NodeEntry K) (p0 p1 : Nat)
    (hpar : self.snode_[nidx]? = some parent) (hp0 : cut.Ptrs[fidx]? = some p0)
    (hp1 : cut.Ptrs[fidx + 1]? = some p1) (h01 : p0 ≤ p1) (hlen : p1 ≤ hist.length)
    (hval : p1 ≤ cut.Values.length) (hmin : fidx < cut.MinValues.length)
    (hmax : (p1 : Int) ≤ INT32_MAX)
    (hnum : IsCat feature_types fidx = false)
    (hallowed : self.interaction_constraints_.Query nidx fidx = true) :
    (∀ (σ : Type) (body : Int → σ → Option σ) (s : σ),
        scanLoop 1 (p1 : Int) body 4294967296 (p0 : Int) s =
          runBody body ((List.range' p0 (p1 - p0)).map Int.ofNat) s) ∧
      (∀ (σ : Type) (body : Int → σ → Option σ) (s : σ),
        scanLoop (-1) ((p0 : Int) - 1) body 4294967296 ((p1 : Int) - 1) s =
          runBody body ((List.range' p0 (p1 - p0)).map Int.ofNat).reverse s) ∧
      (∀ (d_step : Int) (sorted_idx : List Nat) (q : SplitEntry K), d_step = 1 ∨ d_step = -1 →
        ∃ b, EnumerateSplit self d_step SplitType.kNum cut sorted_idx hist fidx nidx evaluator q
          = some (b, binSum hist p0 p1)) ∧
      ∃ b, EnumerateSplit self 1 SplitType.kNum cut [] hist fidx nidx evaluator p_best
          = some (b, binSum hist p0 p1) ∧
        evaluateFeature self cut feature_types hist evaluator nidx fidx p_best =
          if (binSum hist p0 p1).sum_grad ≠ parent.stats.sum_grad ∨
              (binSum hist p0 p1).sum_hess ≠ parent.stats.sum_hess then
            (EnumerateSplit self (-1) SplitType.kNum cut [] hist fidx nidx evaluator b).map
              Prod.fst
          else some b := by
  have hmax0 : (p0 : Int) ≤ INT32_MAX := le_trans (by exact_mod_cast h01) hmax
  refine ⟨?_, ?_, ?_, ?_⟩
  · intro σ body s
    rw [← positions_forward]
    exact scanLoop_eq_runBody 1 (p1 : Int) body (Or.inl rfl) (p1 - p0) 4294967296 (p0 : Int) s
      (by unfold INT32_MAX at hmax; omega) (by push_cast [Nat.cast_sub h01]; ring)
      (by unfold INT32_MIN; omega) hmax0 (by unfold INT32_MIN; omega) hmax
  · intro σ body s
    have e : (p1 : Int) - 1 = (p0 : Int) + ((p1 - p0 : Nat) : Int) - 1 := by
      push_cast [Nat.cast_sub h01]; ring
    rw [← positions_backward, ← e]
    exact scanLoop_eq_runBody (-1) ((p0 : Int) - 1) body (Or.inr rfl) (p1 - p0) 4294967296
      ((p1 : Int) - 1) s
      (by unfold INT32_MAX at hmax; omega) (by push_cast [Nat.cast_sub h01]; ring)
      (by unfold INT32_MIN; omega) (by omega) (by unfold INT32_MIN; omega) (by omega)
  · intro d_step sorted_idx q hd
    exact EnumerateSplit_numeric_returns self d_step cut sorted_idx hist fidx nidx evaluator q
      parent p0 p1 hd hpar hp0 hp1 h01 hlen hval hmin hmax
  · obtain ⟨b, hb⟩ := EnumerateSplit_numeric_returns self 1 cut [] hist fidx nidx evaluator
      p_best parent p0 p1 (Or.inl rfl) hpar hp0 hp1 h01 hlen hval hmin hmax
    refine ⟨b, hb, ?_⟩
    unfold evaluateFeature
    simp only [hallowed, hnum, hb, hpar, SplitContainsMissingValues, GradStats.GetGrad,
      GradStats.GetHess]
    by_cases hm : (binSum hist p0 p1).sum_grad = parent.stats.sum_grad ∧
        (binSum hist p0 p1).sum_hess = parent.stats.sum_hess
    · have hn : ¬ ((binSum hist p0 p1).sum_grad ≠ parent.stats.sum_grad ∨
          (binSum hist p0 p1).sum_hess ≠ parent.stats.sum_hess) := by
        rintro (h | h)
        · exact h hm.1
        · exact h hm.2
      simp [hm, hn]
    · have hn : (binSum hist p0 p1).sum_grad ≠ parent.stats.sum_grad ∨
          (binSum hist p0 p1).sum_hess ≠ parent.stats.sum_hess := by
        by_contra hc
        push_neg at hc
        exact hm hc
      simp only [if_neg hm, if_pos hn]
      cases EnumerateSplit self (-1) SplitType.kNum cut [] hist fidx nidx evaluator b <;> simp

/-- A run of C5: the four bins of the example row sum to the node total `(0, 4)`, so the
dispatch stops after the forward pass. -/
theorem C5_numeric_scan_returns_bin_sum_witness :
    ((exampleSelf 0).snode_[0]? = some { stats := ⟨0, 4⟩, root_gain := 0 } ∧
      exampleCut.Ptrs[0]? = some 0 ∧ exampleCut.Ptrs[0 + 1]? = some 4 ∧
      4 ≤ exampleHist.length ∧ binSum exampleHist 0 4 = ⟨0, 4⟩) ∧
      ∃ b, EnumerateSplit (exampleSelf 0) 1 SplitType.kNum exampleCut [] exampleHist 0 0
          exampleEvaluator SplitEntry.fresh = some (b, binSum exampleHist 0 4) ∧
        evaluateFeature (exampleSelf 0) exampleCut [] exampleHist exampleEvaluator 0 0
            SplitEntry.fresh =
          if (binSum exampleHist 0 4).sum_grad ≠ 0 ∨ (binSum exampleHist 0 4).sum_hess ≠ 4 then
            (EnumerateSplit (exampleSelf 0) (-1) SplitType.kNum exampleCut [] exampleHist 0 0
              exampleEvaluator b).map Prod.fst
          else some b :=
  ⟨⟨by decide, by decide, by decide, by decide, by decide⟩,
    (C5_numeric_scan_returns_bin_sum (exampleSelf 0) exampleCut [] exampleHist 0 0
      exampleEvaluator SplitEntry.fresh { stats := ⟨0, 4⟩, root_gain := 0 } 0 4 (by decide)
      (by decide) (by decide) (by decide) (by decide) (by decide) (by decide) (by decide)
      (by decide) (by decide)).2.2.2⟩

/-- C6 as stated fails for an injected gain function that tells the two trivial splits
apart: on the bins `[(-1,1),(1,1),(-1,1),(1,1)]`, parent `(0,4)`, `min_child_weight = 0`,
with the gain "hessian sum of the left child", the forward scan reports `4` (all bins left)
and the backward scan `3`. -/
theorem C6_counterexample :
    binSum exampleHist 0 4 = ⟨0, 4⟩ ∧
      (EnumerateSplit (exampleSelf 0) 1 SplitType.kNum exampleCut [] exampleHist 0 0
        leftHessEvaluator SplitEntry.fresh).map (fun r => r.1.loss_chg) = some 4 ∧
      (EnumerateSplit (exampleSelf 0) (-1) SplitType.kNum exampleCut [] exampleHist 0 0
        leftHessEvaluator SplitEntry.fresh).map (fun r => r.1.loss_chg) = some 3 := by
  decide

/-- C6 (amended): forward and backward numeric scans agree on the best gain. For a numeric
feature whose bins sum to the node's total statistic, the forward and the backward scan,
each started from a default record, report the same gain, provided `min_child_weight` is
positive or the evaluator gives the split with every bin on the left and the split with
every bin on the right gains that agree once clipped below at the gain of no split. The
conversion `static_cast<float>` of the loss change enters through two facts of rounding: it
is monotone and keeps zero. -/
theorem C6_forward_backward_same_gain [FloorRing K] (self : HistEvaluator K)
    (cut : HistogramCuts K) (hist : List (GradStats K)) (fidx nidx : Nat)
    (evaluator : SplitEvaluator K) (parent : NodeEntry K) (p0 p1 : Nat)
    (bf bb : SplitEntry K) (rf rb : GradStats K)
    (hpar : self.snode_[nidx]? = some parent) (hp0 : cut.Ptrs[fidx]? = some p0)
    (hp1 : cut.Ptrs[fidx + 1]? = some p1)
    (hnomiss : binSum hist p0 p1 = parent.stats)
    (hedge : 0 < self.param_.min_child_weight ∨
      max 0 (evaluator.CalcSplitGain self.param_ nidx fidx parent.stats GradStats.zero
          - parent.root_gain) =
        max 0 (evaluator.CalcSplitGain self.param_ nidx fidx GradStats.zero parent.stats
          - parent.root_gain))
    (hcast_mono : Monotone self.static_cast_float) (hcast_zero : self.static_cast_float 0 = 0)
    (hf : EnumerateSplit self 1 SplitType.kNum cut [] hist fidx nidx evaluator SplitEntry.fresh
      = some (bf, rf))
    (hb : EnumerateSplit self (-1) SplitType.kNum cut [] hist fidx nidx evaluator
      SplitEntry.fresh = some (bb, rb)) :
    bf.loss_chg = bb.loss_chg := by
  obtain ⟨par1, a0, a1, trf, offsf, _, _, e1, e2, e3, h01, hlen, _, htrf, hoffsf, _, _⟩ :=
    EnumerateSplit_some self 1 SplitType.kNum cut [] hist fidx nidx evaluator SplitEntry.fresh _ hf
  rw [hpar] at e1
  rw [hp0] at e2
  rw [hp1] at e3
  obtain rfl := Option.some.inj e1
  obtain rfl := Option.some.inj e2
  obtain rfl := Option.some.inj e3
  obtain ⟨par2, c0, c1, trb, offsb, _, _, e1, e2, e3, _, _, _, htrb, hoffsb, _, _⟩ :=
    EnumerateSplit_some self (-1) SplitType.kNum cut [] hist fidx nidx evaluator SplitEntry.fresh
      _ hb
  rw [hpar] at e1
  rw [hp0] at e2
  rw [hp1] at e3
  obtain rfl := Option.some.inj e1
  obtain rfl := Option.some.inj e2
  obtain rfl := Option.some.inj e3
  have hgf := (EnumerateSplit_fresh_gain self 1 SplitType.kNum cut [] hist fidx nidx evaluator bf
    rf parent p0 p1 trf offsf hpar hp0 hp1 htrf hoffsf hf).1
  have hgb := (EnumerateSplit_fresh_gain self (-1) SplitType.kNum cut [] hist fidx nidx evaluator
    bb rb parent p0 p1 trb offsb hpar hp0 hp1 htrb hoffsb hb).1
  rw [hgf, hgb]
  have hzf := firstMax_ge_init offerKey ((-1 : Int), (SplitEntry.fresh : SplitEntry K)) offsf
  have hzb := firstMax_ge_init offerKey ((-1 : Int), (SplitEntry.fresh : SplitEntry K)) offsb
  have hparts : ∀ m : Nat, p0 ≤ m → m ≤ p1 →
      GradStats.SetSubstract parent.stats (binSum hist p0 m) = binSum hist m p1 ∧
        GradStats.SetSubstract parent.stats (binSum hist m p1) = binSum hist p0 m := by
    intro m hm0 hm1
    exact GradStats.setSubstract_of_add _ _ _
      (by rw [binSum_split hist p0 m p1 hm0 hm1, hnomiss])
  have hzero : (GradStats.zero : GradStats K).GetHess = 0 := rfl
  have hedge : 0 < self.param_.min_child_weight ∨
      max 0 (self.static_cast_float
          (evaluator.CalcSplitGain self.param_ nidx fidx parent.stats GradStats.zero
            - parent.root_gain)) =
        max 0 (self.static_cast_float
          (evaluator.CalcSplitGain self.param_ nidx fidx GradStats.zero parent.stats
            - parent.root_gain)) :=
    hedge.imp id (max_zero_cast_eq _ hcast_mono hcast_zero _ _)
  apply le_antisymm
  · apply firstMax_key_le offerKey _ _ _ hzb
    intro o ho
    obtain ⟨m, hm0, hm1, _, hl, hr, he, hg⟩ := numeric_forward_offer self cut [] hist fidx nidx
      evaluator parent p0 p1 (p0 : Int) hlen trf offsf htrf hoffsf o ho
    by_cases hlt : m < p1
    · have he2 : eligible self (binSum hist m p1)
          (GradStats.SetSubstract parent.stats (binSum hist m p1)) := by
        rw [(hparts m (le_of_lt hm0) hm1).2]
        rw [hl, hr, (hparts m (le_of_lt hm0) hm1).1] at he
        exact ⟨he.2, he.1⟩
      obtain ⟨x, hx, _, xr, xl, xg⟩ := numeric_backward_offered self cut [] hist fidx nidx
        evaluator parent p0 p1 (p0 : Int) hlen trb offsb htrb hoffsb m (le_of_lt hm0) hlt he2
      have hxo : offerKey o = offerKey x := by
        unfold offerKey
        rw [hg, xg, hl, hr, xl, xr, (hparts m (le_of_lt hm0) hm1).1,
          (hparts m (le_of_lt hm0) hm1).2]
      rw [hxo]
      exact firstMax_ge_mem offerKey _ offsb x hx
    · have hmp : m = p1 := by omega
      subst hmp
      rw [hnomiss, GradStats.setSubstract_self] at hr
      rw [hnomiss] at hl
      rw [hl, hr] at he hg
      rcases hedge with hpos | hmaxeq
      · have := he.2
        rw [hzero] at this
        exact absurd hpos (not_lt.mpr this)
      · have he2 : eligible self (binSum hist p0 m)
            (GradStats.SetSubstract parent.stats (binSum hist p0 m)) := by
          rw [hnomiss, GradStats.setSubstract_self]
          exact he
        obtain ⟨x, hx, _, xr, xl, xg⟩ := numeric_backward_offered self cut [] hist fidx nidx
          evaluator parent p0 m (p0 : Int) hlen trb offsb htrb hoffsb p0 (le_refl _) hm0 he2
        rw [hnomiss, GradStats.setSubstract_self] at xl
        rw [hnomiss] at xr
        rw [xl, xr] at xg
        have hxle := firstMax_ge_mem offerKey ((-1 : Int), (SplitEntry.fresh : SplitEntry K))
          offsb x hx
        have hok : offerKey o ≤ max 0 (self.static_cast_float
            (evaluator.CalcSplitGain self.param_ nidx fidx
              GradStats.zero parent.stats - parent.root_gain)) := by
          rw [← hmaxeq]
          unfold offerKey
          rw [hg]
          exact le_max_right _ _
        refine le_trans hok (max_le hzb ?_)
        unfold offerKey at hxle
        rw [xg] at hxle
        exact hxle
  · apply firstMax_key_le offerKey _ _ _ hzf
    intro o ho
    obtain ⟨m, hm0, hm1, _, hr, hl, he, hg⟩ := numeric_backward_offer self cut [] hist fidx nidx
      evaluator parent p0 p1 (p0 : Int) hlen trb offsb htrb hoffsb o ho
    by_cases hlt : p0 < m
    · have he2 : eligible self (binSum hist p0 m)
          (GradStats.SetSubstract parent.stats (binSum hist p0 m)) := by
        rw [(hparts m hm0 (le_of_lt hm1)).1]
        rw [hl, hr, (hparts m hm0 (le_of_lt hm1)).2] at he
        exact ⟨he.2, he.1⟩
      obtain ⟨x, hx, _, xl, xr, xg⟩ := numeric_forward_offered self cut [] hist fidx nidx
        evaluator parent p0 p1 (p0 : Int) hlen trf offsf htrf hoffsf m hlt (le_of_lt hm1) he2
      have hxo : offerKey o = offerKey x := by
        unfold offerKey
        rw [hg, xg, hl, hr, xl, xr, (hparts m hm0 (le_of_lt hm1)).1,
          (hparts m hm0 (le_of_lt hm1)).2]
      rw [hxo]
      exact firstMax_ge_mem offerKey _ offsf x hx
    · have hmp : m = p0 := by omega
      subst hmp
      rw [hnomiss, GradStats.setSubstract_self] at hl
      rw [hnomiss] at hr
      rw [hl, hr] at he hg
      rcases hedge with hpos | hmaxeq
      · have := he.2
        rw [hzero] at this
        exact absurd hpos (not_lt.mpr this)
      · have he2 : eligible self (binSum hist m p1)
            (GradStats.SetSubstract parent.stats (binSum hist m p1)) := by
          rw [hnomiss, GradStats.setSubstract_self]
          exact he
        obtain ⟨x, hx, _, xl, xr, xg⟩ := numeric_forward_offered self cut [] hist fidx nidx
          evaluator parent m p1 (m : Int) hlen trf offsf htrf hoffsf p1 hm1 (le_refl _) he2
        rw [hnomiss, GradStats.setSubstract_self] at xr
        rw [hnomiss] at xl
        rw [xl, xr] at xg
        have hxle := firstMax_ge_mem offerKey ((-1 : Int), (SplitEntry.fresh : SplitEntry K))
          offsf x hx
        have hok : offerKey o ≤ max 0 (self.static_cast_float
            (evaluator.CalcSplitGain self.param_ nidx fidx
              parent.stats GradStats.zero - parent.root_gain)) := by
          rw [hmaxeq]
          unfold offerKey
          rw [hg]
          exact le_max_right _ _
        refine le_trans hok (max_le hzf ?_)
        unfold offerKey at hxle
        rw [xg] at hxle
        exact hxle

/-- A run of C6 (amended), on the bins `[(-1,1),(1,1),(-1,1),(1,1)]` with parent `(0,4)`
and `min_child_weight = 0`: both scans report the gain `2`. -/
theorem C6_forward_backward_same_gain_witness :
    (binSum exampleHist 0 4 = ⟨0, 4⟩ ∧
      EnumerateSplit (exampleSelf 0) 1 SplitType.kNum exampleCut [] exampleHist 0 0
        exampleEvaluator SplitEntry.fresh = some (exampleForwardSplit, ⟨0, 4⟩) ∧
      EnumerateSplit (exampleSelf 0) (-1) SplitType.kNum exampleCut [] exampleHist 0 0
        exampleEvaluator SplitEntry.fresh = some (exampleBackwardSplit, ⟨0, 4⟩)) ∧
      exampleForwardSplit.loss_chg = exampleBackwardSplit.loss_chg :=
  ⟨⟨by decide, by decide, by decide⟩,
    C6_forward_backward_same_gain (exampleSelf 0) exampleCut exampleHist 0 0 exampleEvaluator
      { stats := ⟨0, 4⟩, root_gain := 0 } 0 4 exampleForwardSplit exampleBackwardSplit ⟨0, 4⟩
      ⟨0, 4⟩ (by decide) (by decide) (by decide) (by decide) (Or.inr (by decide)) float32_mono
      float32_zero (by decide) (by decide)⟩

/-- C9: the table grows by the two children. If the table has one entry per tree node
before the call and the tree sink appends exactly two nodes, which are the two children,
then `ApplyTreeSplit` ends normally, the table has exactly two more entries,
`snode_[left_child] = {left_sum, CalcGain(nid, param, left_sum)}` and
`snode_[right_child] = {right_sum, CalcGain(nid, param, right_sum)}` (raw sums, gains for
the parent's id), and every entry that existed before is unchanged. -/
theorem C9_table_grows_by_two_children [FloorRing K] {T : Type} (sink : TreeSink T K)
    (self : HistEvaluator K) (candidate : ExpandEntry K) (tree tree1 : T)
    (hexp : expandTree sink self candidate tree = some tree1)
    (hone : self.snode_.length = sink.NumNodes tree)
    (hgrow : sink.NumNodes tree1 = sink.NumNodes tree + 2)
    (hl0 : (sink.NumNodes tree : Int) ≤ sink.LeftChild tree1 candidate.nid)
    (hl1 : sink.LeftChild tree1 candidate.nid < sink.NumNodes tree1)
    (hr0 : (sink.NumNodes tree : Int) ≤ sink.RightChild tree1 candidate.nid)
    (hr1 : sink.RightChild tree1 candidate.nid < sink.NumNodes tree1)
    (hne : sink.LeftChild tree1 candidate.nid ≠ sink.RightChild tree1 candidate.nid) :
    ∃ self1, ApplyTreeSplit sink self candidate tree = Outcome.done (tree1, self1) ∧
      self1.snode_.length = self.snode_.length + 2 ∧
      self1.snode_[(sink.LeftChild tree1 candidate.nid).toNat]? =
        some { stats := candidate.split.left_sum,
               root_gain := self.tree_evaluator_.GetEvaluator.CalcGain candidate.nid self.param_
                 candidate.split.left_sum } ∧
      self1.snode_[(sink.RightChild tree1 candidate.nid).toNat]? =
        some { stats := candidate.split.right_sum,
               root_gain := self.tree_evaluator_.GetEvaluator.CalcGain candidate.nid self.param_
                 candidate.split.right_sum } ∧
      ∀ j, j < self.snode_.length → self1.snode_[j]? = self.snode_[j]? := by
  obtain ⟨self1, hdone, hlen, hleft, hright, hother⟩ := ApplyTreeSplit_done sink self candidate
    tree tree1 hexp (by omega) hl1 (by omega) hr1 hne
  refine ⟨self1, hdone, by rw [hlen, hgrow, hone], hleft, hright, ?_⟩
  intro j hj
  rw [hother j (by omega) (by omega)]
  exact resize_getElem?_old _ _ _ j hj (by omega)

/-- A run of C9: splitting the root of a one-node tree. -/
theorem C9_table_grows_by_two_children_witness :
    (expandTree exampleSink (exampleSelf 0) { nid := 0, split := exampleBackwardSplit }
        exampleTree = some exampleTreeSplit ∧
      (exampleSelf 0).snode_.length = exampleSink.NumNodes exampleTree ∧
      exampleSink.NumNodes exampleTreeSplit = exampleSink.NumNodes exampleTree + 2 ∧
      exampleSink.LeftChild exampleTreeSplit 0 = 1 ∧
      exampleSink.RightChild exampleTreeSplit 0 = 2) ∧
      ∃ self1, ApplyTreeSplit exampleSink (exampleSelf 0)
          { nid := 0, split := exampleBackwardSplit } exampleTree =
          Outcome.done (exampleTreeSplit, self1) ∧
        self1.snode_.length = (exampleSelf 0).snode_.length + 2 ∧
        self1.snode_[1]? = some { stats := ⟨-1, 3⟩, root_gain := 1 } ∧
        self1.snode_[2]? = some { stats := ⟨1, 1⟩, root_gain := 1 } ∧
        ∀ j, j < (exampleSelf 0).snode_.length → self1.snode_[j]? = (exampleSelf 0).snode_[j]? :=
  ⟨⟨by decide, by decide, by decide, by decide, by decide⟩,
    C9_table_grows_by_two_children exampleSink (exampleSelf 0)
      { nid := 0, split := exampleBackwardSplit } exampleTree exampleTreeSplit (by decide)
      (by decide) (by decide) (by decide) (by decide) (by decide) (by decide) (by decide)⟩

/-- C10: the category bits handed to the tree. For a categorical candidate whose `cat_bits`
is empty and whose `split_value` is a valid category `c`, `ExpandCategorical` receives a
bit set of `ceil((c + 1) / 32)` words that contains exactly the category `c`; for one whose
`cat_bits` is not empty it receives `cat_bits` itself. In both cases the call of the tree
sink is made. -/
theorem C10_category_bits_handed_to_tree [FloorRing K] {T : Type} (sink : TreeSink T K)
    (self : HistEvaluator K) (candidate : ExpandEntry K) (tree : T)
    (hcat : candidate.split.is_cat = true) :
    (candidate.split.cat_bits = [] → InvalidCat candidate.split.split_value = false →
        0 ≤ AsCat candidate.split.split_value ∧
        ∃ cats,
          expandTree sink self candidate tree =
            some (sink.ExpandCategorical tree candidate.nid candidate.split.SplitIndex cats
              candidate.split.DefaultLeft
              (self.tree_evaluator_.GetEvaluator.CalcWeight candidate.nid self.param_
                (candidate.split.left_sum.AddStats candidate.split.right_sum))
              (self.tree_evaluator_.GetEvaluator.CalcWeight candidate.nid self.param_
                candidate.split.left_sum * self.param_.learning_rate)
              (self.tree_evaluator_.GetEvaluator.CalcWeight candidate.nid self.param_
                candidate.split.right_sum * self.param_.learning_rate)
              candidate.split.loss_chg
              (candidate.split.left_sum.AddStats candidate.split.right_sum).GetHess
              candidate.split.left_sum.GetHess candidate.split.right_sum.GetHess) ∧
          cats.length = ((AsCat candidate.split.split_value).toNat + 1 + 31) / 32 ∧
          ∀ k, bitCheck cats k = true ↔ k = (AsCat candidate.split.split_value).toNat) ∧
      (candidate.split.cat_bits ≠ [] →
        expandTree sink self candidate tree =
          some (sink.ExpandCategorical tree candidate.nid candidate.split.SplitIndex
            candidate.split.cat_bits candidate.split.DefaultLeft
            (self.tree_evaluator_.GetEvaluator.CalcWeight candidate.nid self.param_
              (candidate.split.left_sum.AddStats candidate.split.right_sum))
            (self.tree_evaluator_.GetEvaluator.CalcWeight candidate.nid self.param_
              candidate.split.left_sum * self.param_.learning_rate)
            (self.tree_evaluator_.GetEvaluator.CalcWeight candidate.nid self.param_
              candidate.split.right_sum * self.param_.learning_rate)
            candidate.split.loss_chg
            (candidate.split.left_sum.AddStats candidate.split.right_sum).GetHess
            candidate.split.left_sum.GetHess candidate.split.right_sum.GetHess)) := by
  constructor
  · intro hempty hvalid
    obtain ⟨hc, cats, hs, hl, hk⟩ := splitCats_single candidate.split hempty hvalid
    refine ⟨hc, cats, ?_, hl, hk⟩
    unfold expandTree
    simp only [hcat, if_true, hs]
  · intro hne
    have hs : splitCats candidate.split = some candidate.split.cat_bits := by
      unfold splitCats
      rw [if_neg (by simpa using hne)]
    unfold expandTree
    simp only [hcat, if_true, hs]

/-- A run of C10: the one-hot record for category `33` is handed to the tree as two words
with only the bit of `33` set. -/
theorem C10_category_bits_handed_to_tree_witness :
    (exampleCatSplit.is_cat = true ∧ exampleCatSplit.cat_bits = [] ∧
      InvalidCat exampleCatSplit.split_value = false ∧
      splitCats exampleCatSplit = some [0, 2]) ∧
      (0 ≤ AsCat exampleCatSplit.split_value ∧
        ∃ cats,
          expandTree exampleSink (exampleSelf 0) { nid := 0, split := exampleCatSplit }
              exampleTree =
            some (exampleSink.ExpandCategorical exampleTree 0 0 cats false 0 1 (-1) 2 4 3 1) ∧
          cats.length = (33 + 1 + 31) / 32 ∧
          ∀ k, bitCheck cats k = true ↔ k = 33) :=
  ⟨⟨by decide, by decide, by decide, by decide⟩,
    (C10_category_bits_handed_to_tree exampleSink (exampleSelf 0)
      { nid := 0, split := exampleCatSplit } exampleTree (by decide)).1 (by decide) (by decide)⟩

/-- C8: the children sum to the parent. Let `candidate` be the entry `EvaluateSplits` leaves
for a frontier node, with a split it accepted (the split differs from the one the entry
came with and from the default record). When the tree sink gives the node two distinct
children inside the tree, `ApplyTreeSplit` ends normally, both child entries exist in the
statistics table, and their statistics add up, in both components, to the statistic the
table held for the node before the split. -/
theorem C8_children_sum_to_parent [FloorRing K] {T : Type} (sink : TreeSink T K)
    (self : HistEvaluator K) (hist : Nat → List (GradStats K)) (cut : HistogramCuts K)
    (feature_types : List FeatureType) (GetDepth : Nat → Nat) (dist : Nat → Nat → List Nat)
    (entries out : List (ExpandEntry K)) (i : Nat) (e candidate : ExpandEntry K)
    (tree tree1 : T) (hn : 1 ≤ self.n_threads_)
    (hev : EvaluateSplits self hist cut feature_types GetDepth dist entries = some out)
    (hin : entries[i]? = some e) (hout : out[i]? = some candidate)
    (hacc : candidate.split ≠ e.split) (hnf : candidate.split ≠ SplitEntry.fresh)
    (hexp : expandTree sink self candidate tree = some tree1)
    (hl0 : 0 ≤ sink.LeftChild tree1 candidate.nid)
    (hl1 : sink.LeftChild tree1 candidate.nid < sink.NumNodes tree1)
    (hr0 : 0 ≤ sink.RightChild tree1 candidate.nid)
    (hr1 : sink.RightChild tree1 candidate.nid < sink.NumNodes tree1)
    (hne : sink.LeftChild tree1 candidate.nid ≠ sink.RightChild tree1 candidate.nid) :
    ∃ (self1 : HistEvaluator K) (parent left right : NodeEntry K),
      ApplyTreeSplit sink self candidate tree = Outcome.done (tree1, self1) ∧
      self.snode_[candidate.nid]? = some parent ∧
      self1.snode_[(sink.LeftChild tree1 candidate.nid).toNat]? = some left ∧
      self1.snode_[(sink.RightChild tree1 candidate.nid).toNat]? = some right ∧
      left.stats.sum_grad + right.stats.sum_grad = parent.stats.sum_grad ∧
      left.stats.sum_hess + right.stats.sum_hess = parent.stats.sum_hess := by
  rw [EvaluateSplits_eq self hist cut feature_types GetDepth dist entries hn] at hev
  have hne0 : ¬ entries = [] := by
    intro h0
    rw [if_pos h0] at hev
    cases hev
  rw [if_neg hne0] at hev
  obtain ⟨hnid, hsplit⟩ := sequentialEntries_sums self hist cut feature_types GetDepth _ _
    entries out 0 hev i e candidate hin hout
  have hsum : ∃ parent, self.snode_[candidate.nid]? = some parent ∧
      GradStats.AddStats candidate.split.left_sum candidate.split.right_sum = parent.stats := by
    rcases hsplit with h | h | h
    · exact absurd h hacc
    · exact absurd h hnf
    · rw [hnid]; exact h
  obtain ⟨parent, hpar, hadd⟩ := hsum
  obtain ⟨self1, hdone, _, hleft, hright, _⟩ := ApplyTreeSplit_done sink self candidate tree
    tree1 hexp hl0 hl1 hr0 hr1 hne
  exact ⟨self1, parent, _, _, hdone, hpar, hleft, hright,
    congrArg GradStats.sum_grad hadd, congrArg GradStats.sum_hess hadd⟩

/-- A run of C8: the split found for the root of the example is applied to a one-node
tree; the children `1` and `2` get `(-1,1)` and `(1,3)`, which sum to the root's `(0,4)`. -/
theorem C8_children_sum_to_parent_witness :
    (EvaluateSplits (exampleSelf 0) (fun _ => exampleHist) exampleCut [] (fun _ => 0)
        firstWorkerDist [{ nid := 0, split := SplitEntry.fresh }] =
        some [{ nid := 0, split := exampleForwardSplit }] ∧
      exampleForwardSplit ≠ SplitEntry.fresh ∧
      expandTree exampleSink (exampleSelf 0) { nid := 0, split := exampleForwardSplit }
        exampleTree = some exampleTreeSplit) ∧
      ∃ (self1 : HistEvaluator ℤ) (parent left right : NodeEntry ℤ),
        ApplyTreeSplit exampleSink (exampleSelf 0) { nid := 0, split := exampleForwardSplit }
          exampleTree = Outcome.done (exampleTreeSplit, self1) ∧
        (exampleSelf 0).snode_[0]? = some parent ∧
        self1.snode_[1]? = some left ∧ self1.snode_[2]? = some right ∧
        left.stats.sum_grad + right.stats.sum_grad = parent.stats.sum_grad ∧
        left.stats.sum_hess + right.stats.sum_hess = parent.stats.sum_hess :=
  ⟨⟨by decide, by decide, by decide⟩,
    C8_children_sum_to_parent exampleSink (exampleSelf 0) (fun _ => exampleHist) exampleCut []
      (fun _ => 0) firstWorkerDist [{ nid := 0, split := SplitEntry.fresh }]
      [{ nid := 0, split := exampleForwardSplit }] 0 { nid := 0, split := SplitEntry.fresh }
      { nid := 0, split := exampleForwardSplit } exampleTree exampleTreeSplit (by decide)
      (by decide) (by decide) (by decide) (by decide) (by decide) (by decide) (by decide)
      (by decide) (by decide) (by decide) (by decide)⟩

/-- C11: an invalid category aborts before anything is modified. For a categorical candidate
with empty `cat_bits` whose `split_value` is not a representable category, `ApplyTreeSplit`
ends in the fatal error with the tree and the evaluator object (statistics table,
constraint state, tree evaluator) exactly as they were. For a candidate that is not
categorical, or categorical with non-empty `cat_bits`, the error is not raised: the tree
sink is called and the call goes on with the tree it returns. -/
theorem C11_invalid_category_aborts_before_any_change [FloorRing K] {T : Type}
    (sink : TreeSink T K) (self : HistEvaluator K) (candidate : ExpandEntry K) (tree : T) :
    (candidate.split.is_cat = true → candidate.split.cat_bits = [] →
        InvalidCat candidate.split.split_value = true →
        ApplyTreeSplit sink self candidate tree = Outcome.fatal (tree, self)) ∧
      (candidate.split.is_cat = false ∨ candidate.split.cat_bits ≠ [] →
        ∃ tree1, expandTree sink self candidate tree = some tree1 ∧
          ∃ self1, ApplyTreeSplit sink self candidate tree = Outcome.done (tree1, self1) ∨
            ApplyTreeSplit sink self candidate tree = Outcome.fatal (tree1, self1)) := by
  constructor
  · intro hcat hbits hinv
    have hx : expandTree sink self candidate tree = none := by
      simp [expandTree, splitCats, hcat, hbits, hinv]
    simp only [ApplyTreeSplit, hx]
  · intro h
    have hx : ∃ tree1, expandTree sink self candidate tree = some tree1 := by
      rcases h with h | h
      · exact ⟨_, by simp only [expandTree, h]; rfl⟩
      · by_cases hc : candidate.split.is_cat = true
        · have he : candidate.split.cat_bits.isEmpty = false := by
            cases hb : candidate.split.cat_bits with
            | nil => exact absurd hb h
            | cons a l => rfl
          exact ⟨_, by simp only [expandTree, hc, splitCats, he]; rfl⟩
        · exact ⟨_, by simp only [expandTree, hc]; rfl⟩
    obtain ⟨tree1, hx⟩ := hx
    refine ⟨tree1, hx, ?_⟩
    simp only [ApplyTreeSplit, hx]
    split
    · exact ⟨_, Or.inr rfl⟩
    · exact ⟨_, Or.inl rfl⟩

/-- A run of C11: the one-hot record with category value `-1` makes `ApplyTreeSplit` end in
the fatal error with the one-node tree and the evaluator object untouched. -/
theorem C11_invalid_category_aborts_before_any_change_witness :
    (invalidCatSplit.is_cat = true ∧ invalidCatSplit.cat_bits = [] ∧
      InvalidCat invalidCatSplit.split_value = true) ∧
      ApplyTreeSplit exampleSink (exampleSelf 0) { nid := 0, split := invalidCatSplit }
        exampleTree = Outcome.fatal (exampleTree, exampleSelf 0) :=
  ⟨⟨by decide, by decide, by decide⟩,
    (C11_invalid_category_aborts_before_any_change exampleSink (exampleSelf 0)
      { nid := 0, split := invalidCatSplit } exampleTree).1 (by decide) (by decide)
      (by decide)⟩

/-- C12: the leaves add their scaled weight to their rows. For a finished tree and one row
partitioner with as many nodes as the tree, whose rows under the leaves that are not deleted
are pairwise distinct (disjoint leaf row sets) and inside the accumulator, and a statistics
table that covers the nodes, `UpdatePredictionCacheImpl` returns normally; the accumulator
keeps its length; every row `r` of every leaf `n` that is not deleted holds its old value
plus `CalcWeight(n, param, snode[n].stats) * learning_rate`; every slot not owned by such a
leaf is unchanged, also when an internal or deleted node lists it; the total of the
accumulator grows by the sum over those leaves of value times row count, which for a tree
of a root and two leaves is `weight_left * count_left + weight_right * count_right`. -/
theorem C12_leaf_rows_get_scaled_leaf_weight (tree : List TreeNodeStatus)
    (part : List (List Nat)) (hist_evaluator : HistEvaluator K) (param : TrainParam K)
    (out_preds : VectorView K) (hne : out_preds.data ≠ [])
    (hcpu : out_preds.DeviceIdx = kCpuId) (hpart : part.length = tree.length)
    (hsnode : tree.length ≤ hist_evaluator.snode_.length)
    (hrows : ∀ r ∈ leafRows tree part, r < out_preds.data.length)
    (hdisj : (leafRows tree part).Nodup) :
    ∃ data, UpdatePredictionCacheImpl (some tree) [part] hist_evaluator param out_preds =
        Run.ok { out_preds with data := data } ∧
      data.length = out_preds.data.length ∧
      (∀ (n : Nat) (status : TreeNodeStatus) (stats : NodeEntry K) (rowset : List Nat),
        tree[n]? = some status → status.IsDeleted = false → status.IsLeaf = true →
        hist_evaluator.snode_[n]? = some stats → part[n]? = some rowset →
        ∀ r ∈ rowset, ∃ v, out_preds.data[r]? = some v ∧
          data[r]? = some (v + hist_evaluator.tree_evaluator_.GetEvaluator.CalcWeight n param
            stats.stats * param.learning_rate)) ∧
      (∀ r, r ∉ leafRows tree part → data[r]? = out_preds.data[r]?) ∧
      data.sum = out_preds.data.sum +
        leafTotal tree hist_evaluator.snode_ hist_evaluator.tree_evaluator_.GetEvaluator param
          part ∧
      (∀ (t0 t1 t2 : TreeNodeStatus) (p0 p1 p2 : List Nat) (s1 s2 : NodeEntry K),
        tree = [t0, t1, t2] → t0.IsLeaf = false →
        t1.IsDeleted = false → t1.IsLeaf = true → t2.IsDeleted = false → t2.IsLeaf = true →
        part = [p0, p1, p2] → hist_evaluator.snode_[1]? = some s1 →
        hist_evaluator.snode_[2]? = some s2 →
        data.sum = out_preds.data.sum +
          hist_evaluator.tree_evaluator_.GetEvaluator.CalcWeight 1 param s1.stats *
            param.learning_rate * (p1.length : K) +
          hist_evaluator.tree_evaluator_.GetEvaluator.CalcWeight 2 param s2.stats *
            param.learning_rate * (p2.length : K)) := by
  obtain ⟨data, hrun, hops⟩ := UpdatePredictionCacheImpl_leaves tree part hist_evaluator param
    out_preds hne hcpu hpart hsnode hrows hdisj
  have hin : ∀ op ∈ leafOps tree hist_evaluator.snode_
      hist_evaluator.tree_evaluator_.GetEvaluator param part, op.1 < out_preds.data.length := by
    intro op hop
    apply hrows
    rw [← leafOps_fst tree hist_evaluator.snode_ hist_evaluator.tree_evaluator_.GetEvaluator
      param part]
    exact List.mem_map_of_mem Prod.fst hop
  obtain ⟨data1, h1, h2, h3, h4, h5⟩ := applyOps_spec _ out_preds.data hin
    (by rw [leafOps_fst]; exact hdisj)
  rw [hops, Option.some.injEq] at h1
  subst h1
  have hsum : data.sum = out_preds.data.sum +
      leafTotal tree hist_evaluator.snode_ hist_evaluator.tree_evaluator_.GetEvaluator param
        part := by
    rw [h5, leafOps_snd_sum]
  refine ⟨data, hrun, h2, ?_, ?_, hsum, ?_⟩
  · intro n status stats rowset ht hd hl hs hp r hr
    have hmem := mem_leafOps tree hist_evaluator.snode_
      hist_evaluator.tree_evaluator_.GetEvaluator param part n status rowset ht hd hl hp r hr
    have hlt := hin _ hmem
    have hv : out_preds.data[r]? = some out_preds.data[r] := List.getElem?_eq_getElem _
    refine ⟨out_preds.data[r], hv, ?_⟩
    rw [h3 _ hmem]
    simp only [hv, Option.map_some']
    unfold leafValue
    rw [List.getD_eq_getElem?_getD, hs]
    rfl
  · intro r hr
    apply h4
    rw [leafOps_fst]
    exact hr
  · intro t0 t1 t2 p0 p1 p2 s1 s2 ht h0 h1d h1l h2d h2l hp hs1 hs2
    rw [hsum]
    subst ht hp
    simp [leafTotal, leafValue, List.range_succ, h0, h1d, h1l, h2d, h2l,
      List.getD_eq_getElem?_getD, hs1, hs2]
    ring

/-- A run of C12: a root with two leaves, the rows `0, 2` left and `1` right, learning rate
`2`, leaf weights `1` and `-1`: the accumulator `[10, 20, 30, 40]` becomes
`[12, 18, 32, 40]`, and the total grows by `2 * 2 + (-2) * 1`. -/
theorem C12_leaf_rows_get_scaled_leaf_weight_witness :
    (examplePreds.data ≠ [] ∧ examplePreds.DeviceIdx = kCpuId ∧
      examplePartition.length = exampleLeafTree.length ∧
      exampleLeafTree.length ≤ exampleCacheEvaluator.snode_.length ∧
      (∀ r ∈ leafRows exampleLeafTree examplePartition, r < examplePreds.data.length) ∧
      (leafRows exampleLeafTree examplePartition).Nodup ∧
      UpdatePredictionCacheImpl (some exampleLeafTree) [examplePartition] exampleCacheEvaluator
        exampleCacheParam examplePreds = Run.ok { data := [12, 18, 32, 40], DeviceIdx := -1 }) ∧
      ∃ data, UpdatePredictionCacheImpl (some exampleLeafTree) [examplePartition]
          exampleCacheEvaluator exampleCacheParam examplePreds =
          Run.ok { examplePreds with data := data } ∧
        data.length = examplePreds.data.length ∧
        data.sum = examplePreds.data.sum + (1 * 2 * 2 + -1 * 2 * 1) := by
  refine ⟨⟨by decide, by decide, by decide, by decide, by decide, by decide, by decide⟩, ?_⟩
  obtain ⟨data, h1, h2, _, _, _, h6⟩ :=
    C12_leaf_rows_get_scaled_leaf_weight exampleLeafTree examplePartition exampleCacheEvaluator
      exampleCacheParam examplePreds (by decide) (by decide) (by decide) (by decide)
      (by decide) (by decide)
  refine ⟨data, h1, h2, ?_⟩
  have h := h6 { IsDeleted := false, IsLeaf := false } { IsDeleted := false, IsLeaf := true }
    { IsDeleted := false, IsLeaf := true } [0, 1, 2] [0, 2] [1]
    { stats := ⟨-1, 1⟩, root_gain := 1 } { stats := ⟨1, 3⟩, root_gain := 1 } rfl rfl rfl rfl rfl
    rfl rfl rfl rfl
  rw [h]
  decide

/-- C13: the checks of `UpdatePredictionCacheImpl`. An accumulator of length zero is a fatal
error. A row partitioner whose node count differs from the node count of the tree keeps the
call from returning normally, and is a fatal error as soon as the partitioners before it
have been processed (always when it is the first). With a non-empty accumulator on the CPU,
a tree that is not null and every partitioner's node count equal to the tree's, no `CHECK`
fails; and the call returns normally when moreover the statistics table covers the nodes and
the rows of the leaves are inside the accumulator. -/
theorem C13_prediction_cache_checks (p_last_tree : Option (List TreeNodeStatus))
    (partitioner : List (List (List Nat))) (hist_evaluator : HistEvaluator K)
    (param : TrainParam K) (out_preds : VectorView K) :
    (out_preds.data.length = 0 →
        UpdatePredictionCacheImpl p_last_tree partitioner hist_evaluator param out_preds =
          Run.fatal) ∧
      (∀ (tree : List TreeNodeStatus) (pre post : List (List (List Nat)))
          (part : List (List Nat)),
        p_last_tree = some tree → partitioner = pre ++ part :: post →
        part.length ≠ tree.length →
        (∀ r, UpdatePredictionCacheImpl p_last_tree partitioner hist_evaluator param out_preds ≠
          Run.ok r) ∧
        ((∃ out1, updatePartitions tree hist_evaluator.snode_
            hist_evaluator.tree_evaluator_.GetEvaluator param pre out_preds.data =
              Run.ok out1) →
          UpdatePredictionCacheImpl p_last_tree partitioner hist_evaluator param out_preds =
            Run.fatal)) ∧
      (∀ (tree : List TreeNodeStatus), 0 < out_preds.data.length →
        out_preds.DeviceIdx = kCpuId → p_last_tree = some tree →
        (∀ part ∈ partitioner, part.length = tree.length) →
        UpdatePredictionCacheImpl p_last_tree partitioner hist_evaluator param out_preds ≠
            Run.fatal ∧
          (tree.length ≤ hist_evaluator.snode_.length →
            (∀ part ∈ partitioner, ∀ r ∈ leafRows tree part, r < out_preds.data.length) →
            ∃ data, UpdatePredictionCacheImpl p_last_tree partitioner hist_evaluator param
              out_preds = Run.ok { out_preds with data := data })) := by
  refine ⟨?_, ?_, ?_⟩
  · intro h0
    simp [UpdatePredictionCacheImpl, h0]
  · intro tree pre post part htree hsplit hne
    subst htree hsplit
    have hmid : ∀ out1, updatePartitions tree hist_evaluator.snode_
        hist_evaluator.tree_evaluator_.GetEvaluator param (part :: post) out1 = Run.fatal := by
      intro out1
      simp only [updatePartitions, hne, ne_eq, not_false_eq_true, if_true]
    have happ := updatePartitions_append tree hist_evaluator.snode_
      hist_evaluator.tree_evaluator_.GetEvaluator param pre (part :: post) out_preds.data
    constructor
    · intro r hr
      unfold UpdatePredictionCacheImpl at hr
      split at hr
      · cases hr
      · simp only at hr
        split at hr
        · cases hr
        · rw [happ] at hr
          cases hpre : updatePartitions tree hist_evaluator.snode_
              hist_evaluator.tree_evaluator_.GetEvaluator param pre out_preds.data with
          | ok out1 => rw [hpre] at hr; simp only [hmid] at hr; cases hr
          | fatal => rw [hpre] at hr; cases hr
          | undefined => rw [hpre] at hr; cases hr
    · rintro ⟨out1, hpre⟩
      unfold UpdatePredictionCacheImpl
      split
      · rfl
      · simp only
        split
        · rfl
        · rw [happ, hpre]
          simp only [hmid]
  · intro tree hpos hcpu htree hsize
    subst htree
    constructor
    · have hnf := updatePartitions_ne_fatal tree hist_evaluator.snode_
        hist_evaluator.tree_evaluator_.GetEvaluator param partitioner hsize out_preds.data
      simp only [UpdatePredictionCacheImpl, hpos, not_true_eq_false, if_false, hcpu, ne_eq]
      cases hu : updatePartitions tree hist_evaluator.snode_
          hist_evaluator.tree_evaluator_.GetEvaluator param partitioner out_preds.data with
      | ok out1 => intro hc; cases hc
      | fatal => exact absurd hu hnf
      | undefined => intro hc; cases hc
    · intro hsnode hrows
      obtain ⟨out1, h1, _⟩ := updatePartitions_ok tree hist_evaluator.snode_
        hist_evaluator.tree_evaluator_.GetEvaluator param hsnode partitioner out_preds.data
        hsize hrows
      refine ⟨out1, ?_⟩
      simp only [UpdatePredictionCacheImpl, hpos, not_true_eq_false, if_false, hcpu, ne_eq, h1]

/-- A run of C13: an empty accumulator is fatal; a partitioner with two nodes for the tree of
three nodes is fatal; the example run does not fail. -/
theorem C13_prediction_cache_checks_witness :
    UpdatePredictionCacheImpl (some exampleLeafTree) [examplePartition] exampleCacheEvaluator
        exampleCacheParam { data := [], DeviceIdx := -1 } = Run.fatal ∧
      UpdatePredictionCacheImpl (some exampleLeafTree) [[[0], [1]]] exampleCacheEvaluator
        exampleCacheParam examplePreds = Run.fatal ∧
      UpdatePredictionCacheImpl (some exampleLeafTree) [examplePartition] exampleCacheEvaluator
        exampleCacheParam examplePreds ≠ Run.fatal :=
  ⟨(C13_prediction_cache_checks (some exampleLeafTree) [examplePartition] exampleCacheEvaluator
      exampleCacheParam { data := [], DeviceIdx := -1 }).1 (by decide),
    ((C13_prediction_cache_checks (some exampleLeafTree) [[[0], [1]]] exampleCacheEvaluator
      exampleCacheParam examplePreds).2.1 exampleLeafTree [] [] [[0], [1]] rfl rfl
      (by decide)).2 ⟨examplePreds.data, rfl⟩,
    ((C13_prediction_cache_checks (some exampleLeafTree) [examplePartition]
      exampleCacheEvaluator exampleCacheParam examplePreds).2.2 exampleLeafTree (by decide)
      (by decide) rfl (by decide)).1⟩

/-- C14 as stated fails: with a frontier of one node and an empty sampled feature set,
`EvaluateSplits` does not abort; it returns the entry as it was. -/
theorem C14_counterexample :
    emptySampleSelf.GetFeatureSet 0 = [] ∧
      EvaluateSplits emptySampleSelf (fun _ => exampleHist) exampleCut [] (fun _ => 0) emptyDist
        [{ nid := 0, split := SplitEntry.fresh }] =
        some [{ nid := 0, split := SplitEntry.fresh }] := by
  decide

/-- C14 (amended): the check `CHECK(!features.empty())` is on the list of the per-node
feature sets, which has one element per frontier entry. `EvaluateSplits` aborts whenever the
frontier is empty; for a non-empty frontier whose sampled feature sets are all empty (so
that no work item exists) it does not abort and leaves every entry as it was. -/
theorem C14_empty_frontier_aborts [FloorRing K] (self : HistEvaluator K)
    (hist : Nat → List (GradStats K)) (cut : HistogramCuts K)
    (feature_types : List FeatureType) (GetDepth : Nat → Nat) (dist : Nat → Nat → List Nat)
    (entries : List (ExpandEntry K)) :
    (entries = [] →
        EvaluateSplits self hist cut feature_types GetDepth dist entries = none) ∧
      (entries ≠ [] → 1 ≤ self.n_threads_ →
        (∀ e ∈ entries, self.GetFeatureSet (GetDepth e.nid) = []) →
        (∀ i e, entries[i]? = some e → ∀ tidx, ∀ x ∈ dist i tidx,
          x < (self.GetFeatureSet (GetDepth e.nid)).length) →
        EvaluateSplits self hist cut feature_types GetDepth dist entries = some entries) := by
  constructor
  · intro h
    subst h
    rfl
  · intro hne hn hempty hdist
    rw [EvaluateSplits_eq self hist cut feature_types GetDepth dist entries hn, if_neg hne]
    apply sequentialEntries_no_items
    intro j e he
    have hmem : e ∈ entries := List.getElem?_mem he
    unfold workerMajor
    rw [List.flatMap_eq_nil_iff]
    intro tidx _
    rw [List.eq_nil_iff_forall_not_mem]
    intro x hx
    have := hdist j e he tidx x (by simpa using hx)
    rw [hempty e hmem] at this
    exact absurd this (by simp)

/-- A run of C14 (amended): one frontier node, empty sampled feature set, no abort. -/
theorem C14_empty_frontier_aborts_witness :
    (([{ nid := 0, split := SplitEntry.fresh }] : List (ExpandEntry ℤ)) ≠ [] ∧
      1 ≤ emptySampleSelf.n_threads_) ∧
      EvaluateSplits emptySampleSelf (fun _ => exampleHist) exampleCut [] (fun _ => 0) emptyDist
        [{ nid := 0, split := SplitEntry.fresh }] =
        some [{ nid := 0, split := SplitEntry.fresh }] :=
  ⟨⟨by decide, by decide⟩,
    (C14_empty_frontier_aborts emptySampleSelf (fun _ => exampleHist) exampleCut []
      (fun _ => 0) emptyDist [{ nid := 0, split := SplitEntry.fresh }]).2 (by decide) (by decide)
      (by decide) (by intro i e _ tidx x hx; cases hx)⟩

/-- C15 as stated fails for an entry that comes with a negative gain: only feature `1` is
sampled and allowed, no position of it is eligible, and the entry with gain `-1` is
replaced by the default record, whose feature index `0` is neither sampled nor allowed. -/
theorem C15_counterexample :
    EvaluateSplits onlySecondSelf twoFeatureHist twoFeatureCut [] (fun _ => 0) firstWorkerDist
        [{ nid := 0, split := negativeRecord }] =
        some [{ nid := 0, split := SplitEntry.fresh }] ∧
      (SplitEntry.fresh : SplitEntry ℤ) ≠ negativeRecord ∧
      (SplitEntry.fresh : SplitEntry ℤ).sindex ∉ onlySecondSelf.GetFeatureSet 0 ∧
      onlySecondSelf.interaction_constraints_.Query 0 (SplitEntry.fresh : SplitEntry ℤ).sindex =
        false := by
  decide

/-- C15 (amended): a disallowed feature is never scanned (the lambda leaves `*best` as it is
for it), and only features of the sampled set are visited. Whenever `EvaluateSplits` leaves
a node with a split different from the one it had at entry, and the gain of the split at
entry is not negative (as for a freshly created entry), the feature index of that split is
a member of the node's sampled feature set and is allowed by the oracle for that node. -/
theorem C15_changed_split_is_on_allowed_sampled_feature [FloorRing K] (self : HistEvaluator K)
    (hist : Nat → List (GradStats K)) (cut : HistogramCuts K)
    (feature_types : List FeatureType) (GetDepth : Nat → Nat) (dist : Nat → Nat → List Nat)
    (entries out : List (ExpandEntry K)) (i : Nat) (e e1 : ExpandEntry K)
    (hn : 1 ≤ self.n_threads_)
    (hev : EvaluateSplits self hist cut feature_types GetDepth dist entries = some out)
    (hin : entries[i]? = some e) (hout : out[i]? = some e1)
    (hge : 0 ≤ e.split.loss_chg) (hch : e1.split ≠ e.split) :
    (∀ (histogram : List (GradStats K)) (evaluator : SplitEvaluator K) (nidx fidx : Nat)
        (best : SplitEntry K), self.interaction_constraints_.Query nidx fidx = false →
        evaluateFeature self cut feature_types histogram evaluator nidx fidx best = some best) ∧
      e1.split.sindex ∈ self.GetFeatureSet (GetDepth e.nid) ∧
      self.interaction_constraints_.Query e.nid e1.split.sindex = true := by
  constructor
  · intro histogram evaluator nidx fidx best hq
    simp [evaluateFeature, hq]
  · rw [EvaluateSplits_eq self hist cut feature_types GetDepth dist entries hn] at hev
    split at hev
    · cases hev
    · obtain ⟨_, bs, hbs, hfm⟩ := sequentialEntries_firstMax self hist cut feature_types GetDepth
        self.tree_evaluator_.GetEvaluator (workerMajor self.n_threads_ dist) entries out 0 hev
        i e e1 hin hout
      have hmem : e1.split ∈ bs := by
        rcases firstMax_mem SplitEntry.loss_chg e.split bs with h | h
        · exact absurd (hfm.trans h) hch
        · rw [hfm]; exact h
      have hgt : e.split.loss_chg < e1.split.loss_chg := by
        rcases firstMax_init_or_gt SplitEntry.loss_chg e.split bs with h | h
        · exact absurd (hfm.trans h) hch
        · rw [hfm]; exact h
      obtain ⟨fidx, hf, hq, hp⟩ := itemsBests_of_scans self cut feature_types (hist e.nid)
        self.tree_evaluator_.GetEvaluator e.nid (self.GetFeatureSet (GetDepth e.nid))
        (fun fidx b => b = SplitEntry.fresh ∨ b.sindex = fidx)
        (fun fidx d st si r hr => EnumerateSplit_fresh_feature self d st cut si (hist e.nid) fidx
          e.nid self.tree_evaluator_.GetEvaluator r hr)
        _ bs hbs e1.split hmem
      rcases hp with hp | hp
      · rw [hp] at hgt
        have : (SplitEntry.fresh : SplitEntry K).loss_chg = 0 := rfl
        rw [this] at hgt
        exact absurd hgt (not_lt.mpr hge)
      · rw [hp]; exact ⟨hf, hq⟩

/-- A run of C15 (amended): the split found for the root of the example is on feature `0`,
which is sampled and allowed. -/
theorem C15_changed_split_is_on_allowed_sampled_feature_witness :
    (1 ≤ (exampleSelf 0).n_threads_ ∧
      EvaluateSplits (exampleSelf 0) (fun _ => exampleHist) exampleCut [] (fun _ => 0)
        firstWorkerDist [{ nid := 0, split := SplitEntry.fresh }] =
        some [{ nid := 0, split := exampleForwardSplit }] ∧
      exampleForwardSplit ≠ SplitEntry.fresh) ∧
      exampleForwardSplit.sindex ∈ (exampleSelf 0).GetFeatureSet 0 ∧
      (exampleSelf 0).interaction_constraints_.Query 0 exampleForwardSplit.sindex = true :=
  ⟨⟨by decide, by decide, by decide⟩,
    (C15_changed_split_is_on_allowed_sampled_feature (exampleSelf 0) (fun _ => exampleHist)
      exampleCut [] (fun _ => 0) firstWorkerDist [{ nid := 0, split := SplitEntry.fresh }]
      [{ nid := 0, split := exampleForwardSplit }] 0 { nid := 0, split := SplitEntry.fresh }
      { nid := 0, split := exampleForwardSplit } (by decide) (by decide) (by decide) (by decide)
      (by decide) (by decide)).2⟩

/-- C16: the thresholds of the numeric scan. An iteration of the forward pass that replaces
the local best at bin `i` records `cut_val[i]`, the right bound of the bin; one of the
backward pass records the left bound of the bin, `MinValues[fidx]` when `i` is the first
bin of the feature and `cut_val[i - 1]` otherwise. Hence, for two returning scans of a
feature, the forward split after bin `m - 1` and the backward split before bin `m` record
the same threshold `cut_val[m - 1]` and separate the same bins: the forward one has the
bins `[p0, m)` on its left, the backward one the bins `[m, p1)` on its right. -/
theorem C16_numeric_thresholds_are_bin_bounds [FloorRing K] (self : HistEvaluator K)
    (cut : HistogramCuts K) (sorted_idx : List Nat) (hist : List (GradStats K))
    (fidx nidx : Nat) (evaluator : SplitEvaluator K) (parent : NodeEntry K) (p0 p1 : Nat)
    (qf qb : SplitEntry K) (rf rb : SplitEntry K × GradStats K)
    (hpar : self.snode_[nidx]? = some parent) (hp0 : cut.Ptrs[fidx]? = some p0)
    (hp1 : cut.Ptrs[fidx + 1]? = some p1)
    (hf : EnumerateSplit self 1 SplitType.kNum cut sorted_idx hist fidx nidx evaluator qf =
      some rf)
    (hb : EnumerateSplit self (-1) SplitType.kNum cut sorted_idx hist fidx nidx evaluator qb =
      some rb) :
    (∀ (f_hist : List (GradStats K)) (imin ibegin i : Int) (s s1 : ScanState K),
        scanBody self 1 SplitType.kNum cut sorted_idx hist f_hist fidx nidx evaluator parent imin
          ibegin i s = some s1 → s1.best ≠ s.best →
        getI cut.Values i = some s1.best.split_value) ∧
      (∀ (f_hist : List (GradStats K)) (imin ibegin i : Int) (s s1 : ScanState K),
        scanBody self (-1) SplitType.kNum cut sorted_idx hist f_hist fidx nidx evaluator parent
          imin ibegin i s = some s1 → s1.best ≠ s.best →
        (i = imin → cut.MinValues[fidx]? = some s1.best.split_value) ∧
          (i ≠ imin → getI cut.Values (i - 1) = some s1.best.split_value)) ∧
      ∃ (trf trb : List (Int × GradStats K × GradStats K))
        (offsf offsb : List (Int × SplitEntry K)),
        callTrace 1 SplitType.kNum sorted_idx hist parent p0 p1 = some trf ∧
        offersOf (offerAt self 1 SplitType.kNum cut fidx nidx evaluator parent (p0 : Int)) trf =
          some offsf ∧
        callTrace (-1) SplitType.kNum sorted_idx hist parent p0 p1 = some trb ∧
        offersOf (offerAt self (-1) SplitType.kNum cut fidx nidx evaluator parent (p0 : Int)) trb =
          some offsb ∧
        ∀ of ∈ offsf, ∀ ob ∈ offsb, of.1 + 1 = ob.1 →
          of.2.split_value = ob.2.split_value ∧
            getI cut.Values of.1 = some of.2.split_value ∧
            ∃ m : Nat, p0 < m ∧ m < p1 ∧ ob.1 = (m : Int) ∧
              of.2.left_sum = binSum hist p0 m ∧ ob.2.right_sum = binSum hist m p1 := by
  have step : ∀ (d : Int) (f_hist : List (GradStats K)) (imin ibegin i : Int)
      (s s1 : ScanState K),
      scanBody self d SplitType.kNum cut sorted_idx hist f_hist fidx nidx evaluator parent imin
        ibegin i s = some s1 → s1.best ≠ s.best →
      ∃ (t : Int × GradStats K × GradStats K) (o : Int × SplitEntry K), t.1 = i ∧
        offerAt self d SplitType.kNum cut fidx nidx evaluator parent imin t = some (some o) ∧
        s1.best.split_value = o.2.split_value := by
    intro d f_hist imin ibegin i s s1 hbody hne
    rw [scanBody_eq] at hbody
    cases hc : calc_bin_value d SplitType.kNum hist f_hist sorted_idx parent ibegin i
        s.left_sum s.right_sum with
    | none => rw [hc] at hbody; cases hbody
    | some lr =>
      rw [hc] at hbody
      simp only at hbody
      cases ho : offerAt self d SplitType.kNum cut fidx nidx evaluator parent imin
          (i, lr.1, lr.2) with
      | none => rw [ho] at hbody; cases hbody
      | some o =>
        rw [ho] at hbody
        simp only [Option.some.injEq] at hbody
        subst hbody
        cases o with
        | none => exact absurd rfl hne
        | some o =>
          refine ⟨(i, lr.1, lr.2), o, rfl, ho, ?_⟩
          have hbest : (finish s [(i, lr.1, lr.2)] (some o).toList).best =
              (s.best.UpdateWith o.2.loss_chg o.2.sindex o.2.split_value o.2.default_left
                o.2.is_cat o.2.left_sum o.2.right_sum).2 := rfl
          rw [hbest] at hne ⊢
          unfold SplitEntry.UpdateWith at hne ⊢
          by_cases hr : s.best.NeedReplace o.2.loss_chg = true
          · simp only [if_pos hr]
          · rw [if_neg hr] at hne
            exact absurd rfl hne
  refine ⟨?_, ?_, ?_⟩
  · intro f_hist imin ibegin i s s1 hbody hne
    obtain ⟨t, o, ht, ho, hs⟩ := step 1 f_hist imin ibegin i s s1 hbody hne
    obtain ⟨_, _, _, _, _, _, hdir, _⟩ :=
      offerAt_some self 1 SplitType.kNum cut fidx nidx evaluator parent imin t o ho
    rcases hdir with ⟨_, _, _, h4⟩ | ⟨h1, _⟩
    · rw [hs, ← ht]; exact h4
    · exact absurd (by decide : (0 : Int) < 1) h1
  · intro f_hist imin ibegin i s s1 hbody hne
    obtain ⟨t, o, ht, ho, hs⟩ := step (-1) f_hist imin ibegin i s s1 hbody hne
    obtain ⟨_, _, _, _, _, _, hdir, _⟩ :=
      offerAt_some self (-1) SplitType.kNum cut fidx nidx evaluator parent imin t o ho
    rcases hdir with ⟨h1, _⟩ | ⟨_, _, _, h4⟩
    · exact absurd h1 (by decide)
    · rw [hs, ← ht]
      simp only [backward_split_pt] at h4
      constructor
      · intro he; rw [if_pos he] at h4; exact h4
      · intro he; rw [if_neg he] at h4; exact h4
  · obtain ⟨parentf, p0f, p1f, trf, offsf, _, _, hparf, hp0f, hp1f, _, hlen, _, htrf, hoff, _⟩ :=
      EnumerateSplit_some self 1 SplitType.kNum cut sorted_idx hist fidx nidx evaluator qf rf hf
    obtain ⟨parentb, p0b, p1b, trb, offsb, _, _, hparb, hp0b, hp1b, _, _, _, htrb, hofb, _⟩ :=
      EnumerateSplit_some self (-1) SplitType.kNum cut sorted_idx hist fidx nidx evaluator qb rb
        hb
    rw [hpar, Option.some.injEq] at hparf hparb
    rw [hp0, Option.some.injEq] at hp0f hp0b
    rw [hp1, Option.some.injEq] at hp1f hp1b
    subst hparf hparb hp0f hp0b hp1f hp1b
    refine ⟨trf, trb, offsf, offsb, htrf, hoff, htrb, hofb, ?_⟩
    intro of hof ob hob hadj
    obtain ⟨m, hm0, hm1, hm, hl, _⟩ := numeric_forward_offer self cut sorted_idx hist fidx nidx
      evaluator parent p0 p1 (p0 : Int) hlen trf offsf htrf hoff of hof
    obtain ⟨m2, hm20, hm21, hm2, hr, _⟩ := numeric_backward_offer self cut sorted_idx hist fidx
      nidx evaluator parent p0 p1 (p0 : Int) hlen trb offsb htrb hofb ob hob
    have hmm : m2 = m := by omega
    subst hmm
    obtain ⟨tf, _, hotf⟩ := offersOf_mem _ trf offsf hoff of hof
    obtain ⟨tb, _, hotb⟩ := offersOf_mem _ trb offsb hofb ob hob
    obtain ⟨_, hf1, _, _, _, _, hdirf, _⟩ :=
      offerAt_some self 1 SplitType.kNum cut fidx nidx evaluator parent (p0 : Int) tf of hotf
    obtain ⟨_, hb1, _, _, _, _, hdirb, _⟩ :=
      offerAt_some self (-1) SplitType.kNum cut fidx nidx evaluator parent (p0 : Int) tb ob hotb
    have hvf : getI cut.Values of.1 = some of.2.split_value := by
      rcases hdirf with ⟨_, _, _, h4⟩ | ⟨h1, _⟩
      · rw [hf1]; exact h4
      · exact absurd (by decide : (0 : Int) < 1) h1
    have hvb : getI cut.Values (ob.1 - 1) = some ob.2.split_value := by
      rcases hdirb with ⟨h1, _⟩ | ⟨_, _, _, h4⟩
      · exact absurd h1 (by decide)
      · simp only [backward_split_pt] at h4
        have hne : tb.1 ≠ (p0 : Int) := by rw [← hb1, hm2]; omega
        rw [if_neg hne] at h4
        rw [hb1]; exact h4
    have he : ob.1 - 1 = of.1 := by omega
    rw [he, hvf, Option.some.injEq] at hvb
    exact ⟨hvb, hvf, m2, hm0, by omega, hm2, hl, hr⟩

/-- A run of C16 on the example row of four bins. -/
theorem C16_numeric_thresholds_are_bin_bounds_witness :
    ((exampleSelf 0).snode_[0]? = some { stats := ⟨0, 4⟩, root_gain := 0 } ∧
      exampleCut.Ptrs[0]? = some 0 ∧ exampleCut.Ptrs[0 + 1]? = some 4 ∧
      EnumerateSplit (exampleSelf 0) 1 SplitType.kNum exampleCut [] exampleHist 0 0
        exampleEvaluator SplitEntry.fresh = some (exampleForwardSplit, ⟨0, 4⟩) ∧
      EnumerateSplit (exampleSelf 0) (-1) SplitType.kNum exampleCut [] exampleHist 0 0
        exampleEvaluator SplitEntry.fresh = some (exampleBackwardSplit, ⟨0, 4⟩)) ∧
      ∃ (trf trb : List (Int × GradStats ℤ × GradStats ℤ))
        (offsf offsb : List (Int × SplitEntry ℤ)),
        callTrace 1 SplitType.kNum [] exampleHist { stats := ⟨0, 4⟩, root_gain := 0 } 0 4 =
          some trf ∧
        offersOf (offerAt (exampleSelf 0) 1 SplitType.kNum exampleCut 0 0 exampleEvaluator
          { stats := ⟨0, 4⟩, root_gain := 0 } ((0 : Nat) : Int)) trf = some offsf ∧
        callTrace (-1) SplitType.kNum [] exampleHist { stats := ⟨0, 4⟩, root_gain := 0 } 0 4 =
          some trb ∧
        offersOf (offerAt (exampleSelf 0) (-1) SplitType.kNum exampleCut 0 0 exampleEvaluator
          { stats := ⟨0, 4⟩, root_gain := 0 } ((0 : Nat) : Int)) trb = some offsb ∧
        ∀ of ∈ offsf, ∀ ob ∈ offsb, of.1 + 1 = ob.1 →
          of.2.split_value = ob.2.split_value ∧
            getI exampleCut.Values of.1 = some of.2.split_value ∧
            ∃ m : Nat, 0 < m ∧ m < 4 ∧ ob.1 = (m : Int) ∧
              of.2.left_sum = binSum exampleHist 0 m ∧
              ob.2.right_sum = binSum exampleHist m 4 :=
  ⟨⟨by decide, by decide, by decide, by decide, by decide⟩,
    (C16_numeric_thresholds_are_bin_bounds (exampleSelf 0) exampleCut [] exampleHist 0 0
      exampleEvaluator { stats := ⟨0, 4⟩, root_gain := 0 } 0 4 SplitEntry.fresh SplitEntry.fresh
      (exampleForwardSplit, ⟨0, 4⟩) (exampleBackwardSplit, ⟨0, 4⟩) (by decide) (by decide)
      (by decide) (by decide) (by decide)).2.2⟩

/-- C17: where the missing values go in a numeric split. After a returning numeric scan the
caller's record is the record it was, or the default record, or a split of the scan. A
split of the forward scan has default direction right, `left_sum` the sum of the bins up to
and including its position and `right_sum` the parent total minus `left_sum`, that is the
remaining bins plus the statistic of the missing values (parent total minus all bins). A
split of the backward scan has default direction left, `right_sum` the sum of the bins from
its position to the last and `left_sum` the parent total minus `right_sum`, that is the bins
before plus the statistic of the missing values. -/
theorem C17_missing_values_follow_default_direction [FloorRing K] (self : HistEvaluator K)
    (d_step : Int) (cut : HistogramCuts K) (sorted_idx : List Nat) (hist : List (GradStats K))
    (fidx nidx : Nat) (evaluator : SplitEvaluator K) (p_best b : SplitEntry K)
    (ret : GradStats K) (parent : NodeEntry K) (p0 p1 : Nat)
    (hpar : self.snode_[nidx]? = some parent) (hp0 : cut.Ptrs[fidx]? = some p0)
    (hp1 : cut.Ptrs[fidx + 1]? = some p1)
    (h : EnumerateSplit self d_step SplitType.kNum cut sorted_idx hist fidx nidx evaluator
      p_best = some (b, ret)) :
    b = p_best ∨ b = SplitEntry.fresh ∨
      (d_step = 1 ∧ b.default_left = false ∧
        ∃ m : Nat, p0 < m ∧ m ≤ p1 ∧ b.left_sum = binSum hist p0 m ∧
          b.right_sum = GradStats.SetSubstract parent.stats b.left_sum ∧
          b.right_sum = GradStats.AddStats (binSum hist m p1)
            (GradStats.SetSubstract parent.stats (binSum hist p0 p1))) ∨
      (d_step = -1 ∧ b.default_left = true ∧
        ∃ m : Nat, p0 ≤ m ∧ m < p1 ∧ b.right_sum = binSum hist m p1 ∧
          b.left_sum = GradStats.SetSubstract parent.stats b.right_sum ∧
          b.left_sum = GradStats.AddStats (binSum hist p0 m)
            (GradStats.SetSubstract parent.stats (binSum hist p0 p1))) := by
  obtain ⟨parent1, q0, q1, tr, offs, best, hd, hpar1, hq0, hq1, h01, hlen, hmax, htr, hoffs,
    hfill, hr⟩ := EnumerateSplit_some self d_step SplitType.kNum cut sorted_idx hist fidx nidx
      evaluator p_best _ h
  rw [hpar, Option.some.injEq] at hpar1
  rw [hp0, Option.some.injEq] at hq0
  rw [hp1, Option.some.injEq] at hq1
  subst hpar1 hq0 hq1
  have hfb : best = (finish scanInit tr offs).best := by
    have := fillCatBits_of_no_thresh d_step SplitType.kNum cut sorted_idx p0
      ((p1 - p0 : Nat) : Int) (scanBegin d_step p0 p1) (finish scanInit tr offs)
      (Or.inl (by decide))
    rw [this] at hfill
    exact (Option.some.inj hfill).symm
  have hp : b = p_best.Update best := congrArg Prod.fst hr
  have hu : p_best.Update best = p_best ∨ p_best.Update best = best := by
    unfold SplitEntry.Update; split
    · right; rfl
    · left; rfl
  rcases hu with hu | hu
  · left; rw [hp, hu]
  · right
    rw [hu] at hp
    rcases finish_best_cases self d_step SplitType.kNum cut fidx nidx evaluator parent (p0 : Int)
      tr offs hoffs with ⟨_, hb⟩ | ⟨o, ho, t, _, _, hb, hot⟩
    · left; rw [hp, hfb, hb]
    · right
      have hbo : b = o.2 := by rw [hp, hfb, hb]
      obtain ⟨_, _, _, _, hdl, _⟩ :=
        offerAt_some self d_step SplitType.kNum cut fidx nidx evaluator parent (p0 : Int) t o hot
      have hmiss : ∀ m : Nat, p0 ≤ m → m ≤ p1 →
          GradStats.SetSubstract parent.stats (binSum hist p0 m) =
            GradStats.AddStats (binSum hist m p1)
              (GradStats.SetSubstract parent.stats (binSum hist p0 p1)) ∧
          GradStats.SetSubstract parent.stats (binSum hist m p1) =
            GradStats.AddStats (binSum hist p0 m)
              (GradStats.SetSubstract parent.stats (binSum hist p0 p1)) := by
        intro m h0 h1
        have hs := binSum_split hist p0 m p1 h0 h1
        rw [GradStats.eq_iff] at hs
        simp only [GradStats.AddStats] at hs
        constructor
        · rw [GradStats.eq_iff]
          simp only [GradStats.SetSubstract, GradStats.AddStats]
          constructor
          · rw [← hs.1]; ring
          · rw [← hs.2]; ring
        · rw [GradStats.eq_iff]
          simp only [GradStats.SetSubstract, GradStats.AddStats]
          constructor
          · rw [← hs.1]; ring
          · rw [← hs.2]; ring
      rcases hd with hd | hd
      · left
        subst hd
        obtain ⟨m, hm0, hm1, _, hl, hrr, _⟩ := numeric_forward_offer self cut sorted_idx hist
          fidx nidx evaluator parent p0 p1 (p0 : Int) hlen tr offs htr hoffs o ho
        refine ⟨rfl, by rw [hbo, hdl]; decide, m, hm0, hm1, by rw [hbo, hl], ?_, ?_⟩
        · rw [hbo, hrr, hl]
        · rw [hbo, hrr]; exact (hmiss m (by omega) hm1).1
      · right
        subst hd
        obtain ⟨m, hm0, hm1, _, hrr, hl, _⟩ := numeric_backward_offer self cut sorted_idx hist
          fidx nidx evaluator parent p0 p1 (p0 : Int) hlen tr offs htr hoffs o ho
        refine ⟨rfl, by rw [hbo, hdl]; decide, m, hm0, hm1, by rw [hbo, hrr], ?_, ?_⟩
        · rw [hbo, hl, hrr]
        · rw [hbo, hl]; exact (hmiss m hm0 (by omega)).2

/-- A run of C17: the backward scan of the example row records bins `3..3` on the right and
default direction left. -/
theorem C17_missing_values_follow_default_direction_witness :
    ((exampleSelf 0).snode_[0]? = some { stats := ⟨0, 4⟩, root_gain := 0 } ∧
      exampleCut.Ptrs[0]? = some 0 ∧ exampleCut.Ptrs[0 + 1]? = some 4 ∧
      EnumerateSplit (exampleSelf 0) (-1) SplitType.kNum exampleCut [] exampleHist 0 0
        exampleEvaluator SplitEntry.fresh = some (exampleBackwardSplit, ⟨0, 4⟩)) ∧
      (exampleBackwardSplit = SplitEntry.fresh ∨ exampleBackwardSplit = SplitEntry.fresh ∨
        ((-1 : Int) = 1 ∧ exampleBackwardSplit.default_left = false ∧
          ∃ m : Nat, 0 < m ∧ m ≤ 4 ∧ exampleBackwardSplit.left_sum = binSum exampleHist 0 m ∧
            exampleBackwardSplit.right_sum =
              GradStats.SetSubstract (⟨0, 4⟩ : GradStats ℤ) exampleBackwardSplit.left_sum ∧
            exampleBackwardSplit.right_sum = GradStats.AddStats (binSum exampleHist m 4)
              (GradStats.SetSubstract (⟨0, 4⟩ : GradStats ℤ) (binSum exampleHist 0 4))) ∨
        ((-1 : Int) = -1 ∧ exampleBackwardSplit.default_left = true ∧
          ∃ m : Nat, 0 ≤ m ∧ m < 4 ∧ exampleBackwardSplit.right_sum = binSum exampleHist m 4 ∧
            exampleBackwardSplit.left_sum =
              GradStats.SetSubstract (⟨0, 4⟩ : GradStats ℤ) exampleBackwardSplit.right_sum ∧
            exampleBackwardSplit.left_sum = GradStats.AddStats (binSum exampleHist 0 m)
              (GradStats.SetSubstract (⟨0, 4⟩ : GradStats ℤ) (binSum exampleHist 0 4)))) :=
  ⟨⟨by decide, by decide, by decide, by decide⟩,
    C17_missing_values_follow_default_direction (exampleSelf 0) (-1) exampleCut [] exampleHist
      0 0 exampleEvaluator SplitEntry.fresh exampleBackwardSplit ⟨0, 4⟩
      { stats := ⟨0, 4⟩, root_gain := 0 } 0 4 (by decide) (by decide) (by decide) (by decide)⟩

/-- C18, at a failing input: the backward one-hot scan records the chosen bin on the left.
On the two categories `0:(-1,1)`, `1:(1,3)` with parent `(0,4)` the forward scan records
the threshold `0` with `right_sum` the statistic of category `0`, as the claim says; the
backward scan records the threshold `1`, the statistic `(1,3)` of the chosen category `1`
as `left_sum` and the rest as `right_sum`. With a gain function that is not symmetric in
the two children such a record reaches the frontier entry through `EvaluateSplits`. -/
theorem C18_backward_one_hot_records_chosen_bin_on_left :
    (EnumerateSplit (exampleSelf 0) 1 SplitType.kOneHot oneHotCut [] oneHotHist 0 0
        exampleEvaluator SplitEntry.fresh = some (oneHotForwardSplit, GradStats.zero) ∧
      oneHotCut.Values[0]? = some oneHotForwardSplit.split_value ∧
      oneHotHist[0]? = some oneHotForwardSplit.right_sum) ∧
      (EnumerateSplit (exampleSelf 0) (-1) SplitType.kOneHot oneHotCut [] oneHotHist 0 0
        exampleEvaluator SplitEntry.fresh = some (oneHotBackwardSplit, GradStats.zero) ∧
      oneHotCut.Values[1]? = some oneHotBackwardSplit.split_value ∧
      oneHotHist[1]? = some oneHotBackwardSplit.left_sum ∧
      oneHotHist[1]? ≠ some oneHotBackwardSplit.right_sum ∧
      oneHotBackwardSplit.right_sum =
        GradStats.SetSubstract (⟨0, 4⟩ : GradStats ℤ) oneHotBackwardSplit.left_sum) ∧
      (EvaluateSplits oneHotSelf (fun _ => oneHotHist) oneHotCut [FeatureType.kCategorical]
        (fun _ => 0) firstWorkerDist [{ nid := 0, split := SplitEntry.fresh }] =
        some [{ nid := 0, split := oneHotMergedSplit }] ∧
      oneHotCut.Values[0]? = some oneHotMergedSplit.split_value ∧
      oneHotHist[0]? = some oneHotMergedSplit.left_sum ∧
      oneHotHist[0]? ≠ some oneHotMergedSplit.right_sum) := by
  decide

/-- C19, at a failing input: the category bits of the backward partition scan are not the
accumulated categories. On four categories in the order `[0, 2, 1, 3]` the forward scan
records the bits of the accumulated categories `0, 2` and their sum as `right_sum`, as the
claim says; the backward scan accumulates the same categories `0, 2` at its winning
position `2`, records their sum as `left_sum`, and sets the bit of category `3` alone,
whose statistic `(1,1)` is not the recorded `right_sum` `(2,2)`. With a gain function that
is not symmetric in the two children this record reaches the frontier entry through
`EvaluateSplits`. -/
theorem C19_backward_partition_bits_differ_from_accumulated :
    stable_sort_by_key
        (fun l => exampleEvaluator.CalcWeightCat (exampleSelf 0).param_
          (exampleHist.getD l GradStats.zero)) (List.range 4) = [0, 2, 1, 3] ∧
      (EnumerateSplit (exampleSelf 0) 1 SplitType.kPart exampleCut [0, 2, 1, 3] exampleHist 0 0
        exampleEvaluator SplitEntry.fresh = some (partForwardSplit, ⟨0, 4⟩) ∧
      (∀ c, c < 4 → (bitCheck partForwardSplit.cat_bits c = true ↔ c = 0 ∨ c = 2)) ∧
      partForwardSplit.right_sum = GradStats.AddStats ⟨-1, 1⟩ ⟨-1, 1⟩) ∧
      (EnumerateSplit (exampleSelf 0) (-1) SplitType.kPart exampleCut [0, 2, 1, 3] exampleHist 0
        0 exampleEvaluator SplitEntry.fresh = some (partBackwardSplit, ⟨0, 4⟩) ∧
      callTrace (-1) SplitType.kPart [0, 2, 1, 3] exampleHist
        { stats := ⟨0, 4⟩, root_gain := 0 } 0 4 =
        some [(3, ⟨1, 3⟩, ⟨-1, 1⟩), (2, ⟨2, 2⟩, ⟨-2, 2⟩), (1, ⟨1, 1⟩, ⟨-1, 3⟩),
          (0, ⟨0, 0⟩, ⟨0, 4⟩)] ∧
      (∀ c, c < 4 → (bitCheck partBackwardSplit.cat_bits c = true ↔ c = 3)) ∧
      partBackwardSplit.left_sum = GradStats.AddStats ⟨-1, 1⟩ ⟨-1, 1⟩ ∧
      exampleHist[3]? = some ⟨1, 1⟩ ∧ partBackwardSplit.right_sum ≠ ⟨1, 1⟩) ∧
      (EvaluateSplits leftGradSelf (fun _ => exampleHist) exampleCut [FeatureType.kCategorical]
        (fun _ => 0) firstWorkerDist [{ nid := 0, split := SplitEntry.fresh }] =
        some [{ nid := 0, split := { partBackwardSplit with loss_chg := 2 } }]) := by
  decide

/-- C20 as stated fails in two ways. When no eligible prefix improves on the node, the scan
reports zero: four categories with the statistic `(1,1)` each, parent `(4,4)` with root
gain `16`, `min_child_weight = 1`; the eligible non-empty prefixes are the first one, two
and three categories, with gains `-6`, `-8`, `-6`, and the scan from a fresh candidate
reports the gain `0`, not their maximum `-6`. And the reported gain is a single-precision
value: with the gain "gradient sum of the right child", the categories
`(16777216,1), (1,1), (-17,1), (-16777200,1)` ranked by descending gradient sum, parent
`(0,4)` with root gain `0` and `min_child_weight = 0`, the four prefixes have the gains
`16777216, 16777217, 16777200, 0`; the scan reports `16777216`, not their maximum
`16777217`. -/
theorem C20_counterexample :
    (stable_sort_by_key
        (fun l => exampleEvaluator.CalcWeightCat noGainSelf.param_
          (positiveHist.getD l GradStats.zero)) (List.range 4) = [0, 1, 2, 3] ∧
      EnumerateSplit noGainSelf 1 SplitType.kPart exampleCut [0, 1, 2, 3] positiveHist 0 0
        exampleEvaluator SplitEntry.fresh = some (SplitEntry.fresh, ⟨4, 4⟩) ∧
      (∀ k ∈ [1, 2, 3],
        eligible noGainSelf
          (GradStats.SetSubstract ⟨4, 4⟩ (prefixSum positiveHist [0, 1, 2, 3] k))
          (prefixSum positiveHist [0, 1, 2, 3] k)) ∧
      ¬ eligible noGainSelf
          (GradStats.SetSubstract ⟨4, 4⟩ (prefixSum positiveHist [0, 1, 2, 3] 4))
          (prefixSum positiveHist [0, 1, 2, 3] 4) ∧
      ([1, 2, 3].map fun k =>
        exampleEvaluator.CalcSplitGain noGainSelf.param_ 0 0
          (GradStats.SetSubstract ⟨4, 4⟩ (prefixSum positiveHist [0, 1, 2, 3] k))
          (prefixSum positiveHist [0, 1, 2, 3] k) - 16) = [-6, -8, -6] ∧
      (SplitEntry.fresh : SplitEntry ℤ).loss_chg ≠ -6) ∧
      (stable_sort_by_key
        (fun l => rightGradEvaluator.CalcWeightCat (exampleSelf 0).param_
          (roundingPartHist.getD l GradStats.zero)) (List.range 4) = [0, 1, 2, 3] ∧
      (∀ k ∈ [1, 2, 3, 4],
        eligible (exampleSelf 0)
          (GradStats.SetSubstract ⟨0, 4⟩ (prefixSum roundingPartHist [0, 1, 2, 3] k))
          (prefixSum roundingPartHist [0, 1, 2, 3] k)) ∧
      ([1, 2, 3, 4].map fun k =>
        rightGradEvaluator.CalcSplitGain (exampleSelf 0).param_ 0 0
          (GradStats.SetSubstract ⟨0, 4⟩ (prefixSum roundingPartHist [0, 1, 2, 3] k))
          (prefixSum roundingPartHist [0, 1, 2, 3] k) - 0) =
        [16777216, 16777217, 16777200, 0] ∧
      float32 16777217 = 16777216 ∧
      (EnumerateSplit (exampleSelf 0) 1 SplitType.kPart exampleCut [0, 1, 2, 3]
        roundingPartHist 0 0 rightGradEvaluator SplitEntry.fresh).map
          (fun r => r.1.loss_chg) = some 16777216) := by
  decide

/-- C20 (amended): the forward partition scan finds the best prefix of the rank order, in
single precision and with the gain of no split as floor. The order `EvaluateSplits` builds
for a partition-categorical feature is the stable sort of the bin offsets `0..n_bins-1` by
the key `CalcWeightCat`: a permutation of them, ascending in the key, equal keys in their
original order; the partition scans are run on it. The loss change of a non-empty prefix
`P` of the order is `static_cast<float>(split_gain(parent - sum(P), sum(P)) - root_gain)`.
The gain the forward scan reports from a fresh candidate is at least the loss change of
every eligible non-empty prefix, is at least zero, and is zero or the loss change of one
such prefix: it is the larger of zero and the maximum over the eligible non-empty
prefixes. -/
theorem C20_partition_scan_reports_best_prefix_gain [FloorRing K] (self : HistEvaluator K)
    (cut : HistogramCuts K) (sorted_idx : List Nat) (hist : List (GradStats K))
    (fidx nidx : Nat) (evaluator : SplitEvaluator K) (parent : NodeEntry K) (p0 p1 : Nat)
    (b : SplitEntry K) (ret : GradStats K)
    (hpar : self.snode_[nidx]? = some parent) (hp0 : cut.Ptrs[fidx]? = some p0)
    (hp1 : cut.Ptrs[fidx + 1]? = some p1)
    (h : EnumerateSplit self 1 SplitType.kPart cut sorted_idx hist fidx nidx evaluator
      SplitEntry.fresh = some (b, ret)) :
    (∀ (key : Nat → K) (n : Nat),
        (stable_sort_by_key key (List.range n)).Perm (List.range n) ∧
        (stable_sort_by_key key (List.range n)).Pairwise
          (fun l r => key l < key r ∨ (key l = key r ∧ l < r))) ∧
      (∀ (feature_types : List FeatureType) (best : SplitEntry K)
          (feat_hist : List (GradStats K)),
        self.interaction_constraints_.Query nidx fidx = true →
        IsCat feature_types fidx = true → self.UseOneHot (subU32 p1 p0) = false →
        subspan hist p0 (subU32 p1 p0 : Int) = some feat_hist →
        evaluateFeature self cut feature_types hist evaluator nidx fidx best =
          match EnumerateSplit self 1 SplitType.kPart cut
              (stable_sort_by_key
                (fun l => evaluator.CalcWeightCat self.param_ (feat_hist.getD l GradStats.zero))
                (List.range (subU32 p1 p0)))
              hist fidx nidx evaluator best with
          | none => none
          | some r1 =>
            match EnumerateSplit self (-1) SplitType.kPart cut
                (stable_sort_by_key
                  (fun l => evaluator.CalcWeightCat self.param_
                    (feat_hist.getD l GradStats.zero))
                  (List.range (subU32 p1 p0)))
                hist fidx nidx evaluator r1.1 with
            | none => none
            | some r2 => some r2.1) ∧
      (∀ k : Nat, 1 ≤ k → k ≤ p1 - p0 →
        eligible self
          (GradStats.SetSubstract parent.stats
            (prefixSum ((hist.drop p0).take (p1 - p0)) sorted_idx k))
          (prefixSum ((hist.drop p0).take (p1 - p0)) sorted_idx k) →
        self.static_cast_float
            (evaluator.CalcSplitGain self.param_ nidx fidx
              (GradStats.SetSubstract parent.stats
                (prefixSum ((hist.drop p0).take (p1 - p0)) sorted_idx k))
              (prefixSum ((hist.drop p0).take (p1 - p0)) sorted_idx k)
              - parent.root_gain) ≤ b.loss_chg) ∧
      0 ≤ b.loss_chg ∧
      (b.loss_chg = 0 ∨
        ∃ k : Nat, 1 ≤ k ∧ k ≤ p1 - p0 ∧
          eligible self
            (GradStats.SetSubstract parent.stats
              (prefixSum ((hist.drop p0).take (p1 - p0)) sorted_idx k))
            (prefixSum ((hist.drop p0).take (p1 - p0)) sorted_idx k) ∧
          b.loss_chg = self.static_cast_float
            (evaluator.CalcSplitGain self.param_ nidx fidx
              (GradStats.SetSubstract parent.stats
                (prefixSum ((hist.drop p0).take (p1 - p0)) sorted_idx k))
              (prefixSum ((hist.drop p0).take (p1 - p0)) sorted_idx k)
              - parent.root_gain)) := by
  obtain ⟨parent1, q0, q1, tr, offs, best, hd, hpar1, hq0, hq1, h01, hlen, hmax, htr, hoffs,
    hfill, hr⟩ := EnumerateSplit_some self 1 SplitType.kPart cut sorted_idx hist fidx nidx
      evaluator SplitEntry.fresh _ h
  rw [hpar, Option.some.injEq] at hpar1
  rw [hp0, Option.some.injEq] at hq0
  rw [hp1, Option.some.injEq] at hq1
  subst hpar1 hq0 hq1
  obtain ⟨hgain, _⟩ := EnumerateSplit_fresh_gain self 1 SplitType.kPart cut sorted_idx hist
    fidx nidx evaluator b ret parent p0 p1 tr offs hpar hp0 hp1 htr hoffs h
  refine ⟨?_, ?_, ?_, ?_, ?_⟩
  · intro key n
    exact ⟨stable_sort_by_key_perm key _,
      stable_sort_by_key_stable key _ (List.pairwise_lt_range n)⟩
  · intro feature_types best feat_hist hq hcat hone hsub
    simp only [evaluateFeature, hq, hcat, hp0, hp1, hone, hsub, not_true_eq_false, if_false,
      if_true, Bool.false_eq_true]
  · intro k hk1 hk2 he
    obtain ⟨t, ht, e2, e1⟩ := partition_has 1 hd sorted_idx hist parent p0 p1 tr htr k
      hk1 hk2
    obtain ⟨o1, ho1, hin⟩ := offersOf_complete _ tr offs hoffs t ht
    have het : eligible self t.2.1 t.2.2 := by rw [e1, e2]; exact he
    obtain ⟨x, rfl⟩ := offerAt_of_eligible self 1 SplitType.kPart cut fidx nidx evaluator
      parent (p0 : Int) t o1 het ho1
    have hx := offerAt_forward_gain self SplitType.kPart cut fidx nidx evaluator parent
      (p0 : Int) t x _ e2 e1 ho1
    have hle := firstMax_ge_mem offerKey ((-1 : Int), (SplitEntry.fresh : SplitEntry K)) offs x
      (hin x rfl)
    rw [← hgain] at hle
    rw [← hx]; exact hle
  · have := firstMax_ge_init offerKey ((-1 : Int), (SplitEntry.fresh : SplitEntry K)) offs
    rw [← hgain] at this
    exact this
  · rcases firstMax_mem offerKey ((-1 : Int), (SplitEntry.fresh : SplitEntry K)) offs with hm | hm
    · left
      rw [hgain, hm]; rfl
    · right
      obtain ⟨t, ht, hot⟩ := offersOf_mem _ tr offs hoffs _ hm
      obtain ⟨he, _⟩ :=
        offerAt_some self 1 SplitType.kPart cut fidx nidx evaluator parent (p0 : Int) t _ hot
      obtain ⟨k, hk1, hk2, _, _, e2, e1⟩ := partition_entry 1 hd sorted_idx hist parent
        p0 p1 tr htr t ht
      have hx := offerAt_forward_gain self SplitType.kPart cut fidx nidx evaluator parent
        (p0 : Int) t _ _ e2 e1 hot
      refine ⟨k, hk1, hk2, ?_, ?_⟩
      · rw [e1] at he; rw [e2] at he; exact he
      · rw [hgain]; exact hx

/-- A run of C20 (amended) on the categories `A:(2,1), B:(5,2), C:(1,1)` with twelve times
the gain `G^2 / H`: the rank order is `C, A, B`, the prefixes have the gains `16, 12, 0`, and
the forward scan reports `16`. The last part of the premises shows that the scan does not
search all subsets: with the categories ranked by hessian, `(-1,1), (3,2), (-1,3)`, it
reports the gain `4` of the best prefix, while the first and the third category together,
no prefix of the order, would give `12`. -/
theorem C20_partition_scan_reports_best_prefix_gain_witness :
    (abcSelf.snode_[0]? = some { stats := ⟨8, 4⟩, root_gain := 192 } ∧
      abcCut.Ptrs[0]? = some 0 ∧ abcCut.Ptrs[0 + 1]? = some 3 ∧
      stable_sort_by_key
        (fun l => abcEvaluator.CalcWeightCat abcSelf.param_ (abcHist.getD l GradStats.zero))
        (List.range 3) = [2, 0, 1] ∧
      EnumerateSplit abcSelf 1 SplitType.kPart abcCut [2, 0, 1] abcHist 0 0 abcEvaluator
        SplitEntry.fresh = some (abcSplit, ⟨8, 4⟩) ∧
      ([1, 2, 3].map fun k =>
        float32 (abcEvaluator.CalcSplitGain abcSelf.param_ 0 0
          (GradStats.SetSubstract ⟨8, 4⟩ (prefixSum abcHist [2, 0, 1] k))
          (prefixSum abcHist [2, 0, 1] k) - 192)) = [16, 12, 0] ∧
      (EnumerateSplit hessRankSelf 1 SplitType.kPart abcCut [0, 1, 2] hessRankHist 0 0
        hessRankEvaluator SplitEntry.fresh).map (fun r => r.1.loss_chg) = some 4 ∧
      float32 (hessRankEvaluator.CalcSplitGain hessRankSelf.param_ 0 0 ⟨3, 2⟩ ⟨-2, 4⟩ - 1)
        = 12) ∧
      (∀ k : Nat, 1 ≤ k → k ≤ 3 - 0 →
        eligible abcSelf
          (GradStats.SetSubstract (⟨8, 4⟩ : GradStats ℤ)
            (prefixSum ((abcHist.drop 0).take (3 - 0)) [2, 0, 1] k))
          (prefixSum ((abcHist.drop 0).take (3 - 0)) [2, 0, 1] k) →
        float32 (abcEvaluator.CalcSplitGain abcSelf.param_ 0 0
            (GradStats.SetSubstract (⟨8, 4⟩ : GradStats ℤ)
              (prefixSum ((abcHist.drop 0).take (3 - 0)) [2, 0, 1] k))
            (prefixSum ((abcHist.drop 0).take (3 - 0)) [2, 0, 1] k) - 192)
          ≤ abcSplit.loss_chg) ∧
      0 ≤ abcSplit.loss_chg :=
  ⟨⟨by decide, by decide, by decide, by decide, by decide, by decide, by decide, by decide⟩,
    (C20_partition_scan_reports_best_prefix_gain abcSelf abcCut [2, 0, 1] abcHist 0 0 abcEvaluator
      { stats := ⟨8, 4⟩, root_gain := 192 } 0 3 abcSplit ⟨8, 4⟩ (by decide) (by decide)
      (by decide) (by decide)).2.2.1,
    (C20_partition_scan_reports_best_prefix_gain abcSelf abcCut [2, 0, 1] abcHist 0 0 abcEvaluator
      { stats := ⟨8, 4⟩, root_gain := 192 } 0 3 abcSplit ⟨8, 4⟩ (by decide) (by decide)
      (by decide) (by decide)).2.2.2.1⟩

end tree
end xgboost
